import Mathlib

/-!
Verification of the Mimir build engine (DAG, signature service, cache,
executor) against its specification.

C++ `std::string` values are byte strings; we model them as `List Nat`
(each element a byte value).  `std::unordered_map` is modelled as an
association list in some iteration order; every map-valued claim is
quantified over all orders, which covers the unspecified iteration order
of the C++ container.
-/

namespace Mimir

/-- A C++ `std::string`: a sequence of bytes. -/
abbrev Str := List Nat

/-! ### Association-list operations mirroring `std::unordered_map` -/

/-- `map.find(n)` — lookup in an association list. -/
def alookup {α : Type} : List (Str × α) → Str → Option α
  | [], _ => none
  | (k, v) :: rest, n => if k = n then some v else alookup rest n

/-- `map[n] = v` — update in place if the key exists, else append. -/
def aset {α : Type} : List (Str × α) → Str → α → List (Str × α)
  | [], n, v => [(n, v)]
  | (k, w) :: rest, n, v =>
      if k = n then (k, v) :: rest else (k, w) :: aset rest n v

/-- `map[n]` for an `unordered_map<string,int>`: a missing key reads as 0. -/
def aget0 (m : List (Str × Int)) (n : Str) : Int := (alookup m n).getD 0

/-- `map[n]` for an `unordered_map<string,bool>`: a missing key reads as false. -/
def agetb (m : List (Str × Bool)) (n : Str) : Bool := (alookup m n).getD false

/-! ### Signature service (`signature.cpp`) -/

/-- One round of the byte loop in `Signature::sha256`:
`h0 ^= d[i]; h0 = (h0 << 7) | (h0 >> 25); h1 ^= h0; h2 += d[i];`
with 32-bit unsigned arithmetic. -/
def shaStep (h : Nat × Nat × Nat) (b : Nat) : Nat × Nat × Nat :=
  let h0x := Nat.xor h.1 b
  let h0 := Nat.lor (h0x * 2 ^ 7 % 2 ^ 32) (h0x / 2 ^ 25)
  let h1 := Nat.xor h.2.1 h0
  let h2 := (h.2.2 + b) % 2 ^ 32
  (h0, h1, h2)

/-- The lowercase hexadecimal digit characters, as ASCII codes. -/
def hexDigit (n : Nat) : Nat := if n < 10 then 48 + n else 87 + n

/-- `std::hex << std::setw(8) << std::setfill('0') << v` for `v < 2^32`:
exactly eight lowercase hex digits. -/
def toHex8 (n : Nat) : Str :=
  [hexDigit (n / 16 ^ 7 % 16), hexDigit (n / 16 ^ 6 % 16),
   hexDigit (n / 16 ^ 5 % 16), hexDigit (n / 16 ^ 4 % 16),
   hexDigit (n / 16 ^ 3 % 16), hexDigit (n / 16 ^ 2 % 16),
   hexDigit (n / 16 % 16), hexDigit (n % 16)]

/-- The fixed words `h3 … h7` of `Signature::sha256`, which the byte loop
never touches. -/
def hexTail : Str :=
  toHex8 0xa54ff53a ++ toHex8 0x510e527f ++ toHex8 0x9b05688c ++
  toHex8 0x1f83d9ab ++ toHex8 0x5be0cd19

/-- `Signature::sha256`: fold the byte loop over the data from the fixed
initial words, then print the eight words as zero-padded lowercase hex. -/
def sha256 (data : Str) : Str :=
  let h := data.foldl shaStep (0x6a09e667, 0xbb67ae85, 0x3c6ef372)
  toHex8 h.1 ++ toHex8 h.2.1 ++ toHex8 h.2.2 ++ hexTail

/-- The file system seen by the engine: contents of each openable path. -/
def FileSys := Str → Option Str

/-- `Signature::computeFileSignature`: hash of the file's bytes, or the
empty string when the file cannot be opened. -/
def computeFileSignature (fs : FileSys) (path : Str) : Str :=
  match fs path with
  | none => []
  | some contents => sha256 contents

/-- The pipe separator byte `'|'`. -/
def pipeByte : Nat := 124

/-- `Signature::computeTargetSignature`: hash of
`command + "|" + file(inputs[0]) + "|" + …` in input order. -/
def computeTargetSignature (fs : FileSys) (command : Str) (inputs : List Str) : Str :=
  sha256 (inputs.foldl (fun acc input => acc ++ pipeByte :: computeFileSignature fs input) command)

/-- A byte that prints as a lowercase hexadecimal character. -/
def IsLowerHexCode (c : Nat) : Prop := (48 ≤ c ∧ c ≤ 57) ∨ (97 ≤ c ∧ c ≤ 102)

/-! ### Cache (`cache.cpp`)

The in-memory `signatures_` map, in iteration order.  The cache file is a
byte string; a missing or unopenable file is `none`. -/

abbrev CacheMap := List (Str × Str)

/-- `Cache::setSignature` — overwrite or insert. -/
def setSignature (m : CacheMap) (n sig : Str) : CacheMap := aset m n sig

/-- `Cache::getSignature` — stored signature or the empty string. -/
def getSignature (m : CacheMap) (n : Str) : Str := (alookup m n).getD []

/-- `Cache::needsRebuild` — true iff no entry exists or it differs from the
current signature. -/
def needsRebuild (m : CacheMap) (n cur : Str) : Bool :=
  match alookup m n with
  | none => true
  | some s => decide (s ≠ cur)

/-- The newline byte `'\n'`. -/
def nlByte : Nat := 10

/-- The `'='` byte. -/
def eqByte : Nat := 61

/-- One `std::getline`: the bytes before the first `'\n'` (or all of them),
and the remainder after that `'\n'`. -/
def splitLine : Str → Str × Str
  | [] => ([], [])
  | c :: rest =>
      if c = nlByte then ([], rest)
      else
        let p := splitLine rest
        (c :: p.1, p.2)

theorem splitLine_shrink (t : Str) (h : t ≠ []) : (splitLine t).2.length < t.length := by
  induction t with
  | nil => exact absurd rfl h
  | cons c rest ih =>
    by_cases hc : c = nlByte
    · simp [splitLine, hc]
    · simp only [splitLine, hc, if_false, List.length_cons]
      by_cases hr : rest = []
      · subst hr
        simp [splitLine]
      · exact Nat.lt_succ_of_lt (ih hr)

/-- The `while (std::getline(file, line))` loop of `Cache::load`: for each
line, split at the first `'='` and store `key → value`; a line with no `'='`
leaves the map as it is. -/
def loadLoop (t : Str) (m : CacheMap) : CacheMap :=
  if h : t = [] then m
  else
    let p := splitLine t
    let m' := match p.1.findIdx? (fun c => c == eqByte) with
      | none => m
      | some pos => aset m (p.1.take pos) (p.1.drop (pos + 1))
    loadLoop p.2 m'
termination_by t.length
decreasing_by exact splitLine_shrink t h

/-- `Cache::load`: an unopenable file returns `false` leaving the map; a
readable file clears the map and replays the line loop. -/
def load (file : Option Str) (m : CacheMap) : Bool × CacheMap :=
  match file with
  | none => (false, m)
  | some t => (true, loadLoop t [])

/-- `Cache::save`: serialize each entry as `name=signature\n` in iteration
order. -/
def saveText (m : CacheMap) : Str :=
  m.flatMap (fun e => e.1 ++ eqByte :: (e.2 ++ [nlByte]))

/-- The successive `std::getline` results on a byte string. -/
def splitLines (t : Str) : List Str :=
  if h : t = [] then []
  else (splitLine t).1 :: splitLines (splitLine t).2
termination_by t.length
decreasing_by exact splitLine_shrink t h

/-- Declarative reading of one cache line: `key=value` split at the first
`'='`, or nothing when the line has no `'='`. -/
def parseLine? (line : Str) : Option (Str × Str) :=
  match line.findIdx? (fun c => c == eqByte) with
  | none => none
  | some pos => some (line.take pos, line.drop (pos + 1))

/-! ### Target and DAG (`target.cpp`, `dag.cpp`)

`DAG::targets_` is an `unordered_map<string, shared_ptr<Target>>`; we model
it as its entry list in iteration order.  `DAG::addTarget` keeps keys unique
and stores each target under its own name; `WFdag` captures both map
invariants. -/

structure Target where
  name : Str
  inputs : List Str
  outputs : List Str
  command : Str
  dependencies : List Str
  signature : Str
deriving DecidableEq

abbrev DAGL := List (Str × Target)

/-- The `unordered_map` invariants of `DAG::targets_`: keys are unique and
every key equals the stored target's name. -/
def WFdag (g : DAGL) : Prop :=
  (g.map Prod.fst).Nodup ∧ ∀ e ∈ g, e.2.name = e.1

instance (g : DAGL) : Decidable (WFdag g) := by
  unfold WFdag
  infer_instance

/-- `DAG::getDependencies`: declared dependencies, or `[]` if absent. -/
def depsOf (g : DAGL) (n : Str) : List Str :=
  match alookup g n with
  | some t => t.dependencies
  | none => []

/-- The induced dependency edge: target `a` declares a dependency on `b`. -/
def Edge (g : DAGL) (a b : Str) : Prop := b ∈ depsOf g a

/-- The induced directed graph has no directed cycle. -/
def Acyclic (g : DAGL) : Prop := ∀ a, ¬ Relation.TransGen (Edge g) a a

/-- `DAG::validateDependencies`: every referenced dependency name that is
not a registered target, with multiplicity, in iteration order. -/
def validateDependencies (g : DAGL) : List Str :=
  g.flatMap (fun e => e.2.dependencies.filter (fun d => (alookup g d).isNone))

/-! #### `DAG::topologicalSort` (Kahn variant) -/

/-- The two initialization loops of `topologicalSort`: insert each target
name with in-degree 0, then add 1 for every declared dependency entry. -/
def initInDegree (g : DAGL) : List (Str × Int) :=
  let m0 := g.foldl (fun m e => if (alookup m e.1).isSome then m else m ++ [(e.1, (0 : Int))]) []
  g.foldl (fun m e => e.2.dependencies.foldl (fun m _ => aset m e.1 (aget0 m e.1 + 1)) m) m0

/-- "Find all nodes with zero in-degree" — the initial queue. -/
def seeds (m : List (Str × Int)) : List Str :=
  (m.filter (fun e => e.2 = 0)).map Prod.fst

/-- One pop of the queue: scan all targets, decrement the in-degree of every
target whose dependency list contains `current`, enqueueing it on zero. -/
def kahnPop (g : DAGL) (current : Str) (st : List (Str × Int) × List Str) :
    List (Str × Int) × List Str :=
  g.foldl (fun st e =>
    if current ∈ e.2.dependencies then
      (aset st.1 e.1 (aget0 st.1 e.1 - 1),
       if aget0 st.1 e.1 - 1 = 0 then st.2 ++ [e.1] else st.2)
    else st) st

/-- The `while (idx < queue.size())` loop of `topologicalSort`.  The fuel is
an upper bound on the number of pops; `g.length` always suffices because the
queue never holds a duplicate name. -/
def kahnLoop (g : DAGL) : Nat → List (Str × Int) → List Str → Nat → List Str → List Str
  | 0, _, _, _, result => result
  | fuel + 1, inDeg, queue, idx, result =>
    if h : idx < queue.length then
      let current := queue.get ⟨idx, h⟩
      let st := kahnPop g current (inDeg, queue)
      kahnLoop g fuel st.1 st.2 (idx + 1) (result ++ [current])
    else result

/-- `DAG::topologicalSort`. -/
def topologicalSort (g : DAGL) : List Str :=
  let inDeg := initInDegree g
  kahnLoop g g.length inDeg (seeds inDeg) 0 []

/-! #### `DAG::hasCycleUtil` / `DAG::detectCyclesWithPath` -/

/-- Index of the first occurrence of a name in a list. -/
def idxOfStr (l : List Str) (a : Str) : Nat :=
  match l with
  | [] => 0
  | x :: rest => if x = a then 0 else idxOfStr rest a + 1


/-- Result of one `hasCycleUtil` call: a cycle was found (with the extracted
`cycleNodes`), or the call returned false with the updated `visited` map
(the recursion stack is restored to the caller's), or the fuel ran out
(provably unreachable from `detectCyclesWithPath`). -/
inductive DfsOut where
  | found (cyc : List Str)
  | clean (visited : List (Str × Int))
  | out
deriving DecidableEq

mutual

/-- `DAG::hasCycleUtil`: mark the node in-progress, push it on the recursion
stack, and walk its declared dependencies. -/
def hasCycleUtil (g : DAGL) : Nat → Str → List (Str × Int) → List Str → DfsOut
  | 0, _, _, _ => .out
  | fuel + 1, node, visited, recStack =>
    hasCycleDeps g fuel (depsOf g node) node (aset visited node 1) (recStack ++ [node])
termination_by fuel _ _ _ => (fuel, 0)

/-- The dependency loop of `hasCycleUtil`: recurse into unvisited
dependencies; a dependency on the current recursion stack closes a cycle,
extracted from its first stack occurrence and re-closed with itself; when
the loop ends the node is marked finished. -/
def hasCycleDeps (g : DAGL) : Nat → List Str → Str → List (Str × Int) → List Str → DfsOut
  | _, [], node, visited, _ => .clean (aset visited node 2)
  | fuel, dep :: rest, node, visited, recStack =>
    if aget0 visited dep = 0 then
      match hasCycleUtil g fuel dep visited recStack with
      | .found cyc => .found cyc
      | .out => .out
      | .clean visited' => hasCycleDeps g fuel rest node visited' recStack
    else if aget0 visited dep = 1 then
      .found ((recStack.drop (idxOfStr recStack dep)) ++ [dep])
    else hasCycleDeps g fuel rest node visited recStack
termination_by fuel deps _ _ _ => (fuel, deps.length + 1)

end

/-- All node names the traversal can ever touch: registered names and every
referenced dependency name. -/
def nodeUniverse (g : DAGL) : List Str :=
  g.map Prod.fst ++ g.flatMap (fun e => e.2.dependencies)

/-- Fuel bound for the DFS: one more than the number of distinct nodes. -/
def dfsFuel (g : DAGL) : Nat := (nodeUniverse g).dedup.length + 1

/-- The root loop of `detectCyclesWithPath`: start a DFS at every not yet
visited target, sharing the visited map. -/
def detectLoop (g : DAGL) (fuel : Nat) :
    List (Str × Target) → List (Str × Int) → Option (Bool × List Str)
  | [], _ => some (false, [])
  | e :: rest, visited =>
    if aget0 visited e.1 = 0 then
      match hasCycleUtil g fuel e.1 visited [] with
      | .found cyc => some (true, cyc)
      | .out => none
      | .clean visited' => detectLoop g fuel rest visited'
    else detectLoop g fuel rest visited

/-- `DAG::detectCyclesWithPath` (the fuel never runs out, so the fallback
value is dead code). -/
def detectCyclesWithPath (g : DAGL) : Bool × List Str :=
  (detectLoop g (dfsFuel g) g []).getD (false, [])

/-- `DAG::detectCycles`. -/
def detectCycles (g : DAGL) : Bool := (detectCyclesWithPath g).1

/-- A finish order for the DFS: every finished node's dependencies finish
strictly earlier. -/
def OrderedClosed (g : DAGL) (F : List Str) : Prop :=
  ∀ a ∈ F, ∀ d ∈ depsOf g a, d ∈ F ∧ idxOfStr F d < idxOfStr F a

/-- The DFS visited-map invariant: mark 2 exactly on the finish list `F`,
mark 1 exactly on the recursion stack `gray`, no other marks, and `F` is an
ordered finish list. -/
def VState (g : DAGL) (v : List (Str × Int)) (gray F : List Str) : Prop :=
  (∀ n, aget0 v n = 2 ↔ n ∈ F) ∧
  (∀ n, aget0 v n = 1 ↔ n ∈ gray) ∧
  (∀ n, aget0 v n = 0 ∨ aget0 v n = 1 ∨ aget0 v n = 2) ∧
  F.Nodup ∧ OrderedClosed g F

/-- What `detectCyclesWithPath` promises of a reported cycle: at least two
entries, equal first and last element, consecutive declared edges, and hence
a directed cycle in the graph. -/
def GoodCycle (g : DAGL) (cyc : List Str) : Prop :=
  2 ≤ cyc.length ∧ cyc.head? = cyc.getLast? ∧ List.Chain' (Edge g) cyc ∧
  ∃ a, Relation.TransGen (Edge g) a a

/-- Number of unvisited nodes, over the distinct node universe. -/
def countU (g : DAGL) (v : List (Str × Int)) : Nat :=
  ((nodeUniverse g).dedup.filter (fun n => decide (aget0 v n = 0))).length

/-- Dependencies-first ordering: every element's declared dependencies occur
at strictly earlier positions of the list. -/
def DepsFirst (g : DAGL) (l : List Str) : Prop :=
  ∀ j, ∀ hj : j < l.length, ∀ d ∈ depsOf g (l.get ⟨j, hj⟩),
    ∃ i, ∃ hi : i < l.length, i < j ∧ l.get ⟨i, hi⟩ = d

/-- Loop invariant of `topologicalSort`'s queue processing.  `queue.take idx`
is the popped (already output) portion. -/
structure KInv (g : DAGL) (inDeg : List (Str × Int)) (queue : List Str) (idx : Nat) : Prop where
  keys : inDeg.map Prod.fst = g.map Prod.fst
  idxle : idx ≤ queue.length
  qnd : queue.Nodup
  qmem : ∀ n ∈ queue, n ∈ g.map Prod.fst
  deg : ∀ n, aget0 inDeg n = ((depsOf g n).length : Int) -
      (((queue.take idx).filter (fun p => decide (p ∈ depsOf g n))).length : Int)
  inq : ∀ n ∈ g.map Prod.fst, (n ∈ queue ↔ aget0 inDeg n ≤ 0)
  order : DepsFirst g queue

/-! ### Executor (`executor.cpp`) -/

/-- The status strings the executor emits: `printStatus` uses BUILD,
UP-TO-DATE, SUCCESS and FAILED; the progress callback uses BUILDING,
UP-TO-DATE, SUCCESS and FAILED. -/
inductive Status where
  | building : Status
  | upToDate : Status
  | build : Status
  | success : Status
  | failed : Status
deriving DecidableEq

/-- An observable emission of the executor: a progress-callback invocation
`(name, current, total, status)` or a `printStatus` line `(status, name)`. -/
inductive Event where
  | progress (name : Str) (current total : Nat) (st : Status) : Event
  | status (name : Str) (st : Status) : Event
deriving DecidableEq

/-- `Executor::runCommand`: in dry-run mode the command is reported
successful without being run; otherwise the command runner decides. -/
def runCommand (dryRun : Bool) (runner : Str → Bool) (command : Str) : Bool :=
  if dryRun then true else runner command

/-- The `outputsExist` loop: every declared output path opens successfully. -/
def outputsExist (fs : FileSys) (t : Target) : Bool :=
  t.outputs.all (fun o => (fs o).isSome)

/-- `Executor::isOutOfDate`. -/
def isOutOfDate (fs : FileSys) (t : Target) (cache : CacheMap) : Bool :=
  needsRebuild cache t.name (computeTargetSignature fs t.command t.inputs)

/-- `Executor::executeTarget` (executor.cpp 101-139): the returned success
flag, the cache after the call, and the emitted status lines in order. -/
def executeTarget (dryRun : Bool) (runner : Str → Bool) (fs : FileSys)
    (cancelled : Bool) (t : Target) (cache : CacheMap) :
    Bool × CacheMap × List Event :=
  if cancelled then (false, cache, [])
  else if outputsExist fs t && !(isOutOfDate fs t cache) then
    (true, cache, [.status t.name .upToDate])
  else if !(runCommand dryRun runner t.command) then
    (false, cache, [.status t.name .build, .status t.name .failed])
  else
    (true, setSignature cache t.name (computeTargetSignature fs t.command t.inputs),
      [.status t.name .build, .status t.name .success])

/-- Running state of `executeSingleThreaded`: the cache, the emitted events
in order, and the skipped/failed/built counters of `BuildStats`. -/
structure SState where
  cache : CacheMap
  events : List Event
  skipped : Nat
  failedc : Nat
  built : Nat
deriving DecidableEq

/-- The body of `executeSingleThreaded`'s loop (executor.cpp 150-218) over
the remaining names; `i` is the zero-based position in the full order (so
the 1-based counter `current` is `i + 1`), `total` is the order's length
and `cancel i` is the value `cancelled_.load()` yields at the head of
iteration `i`.  Returns the C++ return value and the final state. -/
def execSTLoop (g : DAGL) (dryRun stopOnError : Bool) (runner : Str → Bool)
    (fs : FileSys) (cancel : Nat → Bool) (total : Nat) :
    List Str → Nat → SState → Bool × SState
  | [], _, st => (st.failedc == 0, st)
  | name :: rest, i, st =>
    if cancel i then (false, st)
    else
      match alookup g name with
      | none => execSTLoop g dryRun stopOnError runner fs cancel total rest (i + 1) st
      | some t =>
        let st1 : SState :=
          { st with events := st.events ++ [.progress name (i + 1) total .building] }
        if outputsExist fs t && !(isOutOfDate fs t st1.cache) then
          execSTLoop g dryRun stopOnError runner fs cancel total rest (i + 1)
            { st1 with
              events := st1.events ++ [.status t.name .upToDate,
                .progress name (i + 1) total .upToDate],
              skipped := st1.skipped + 1 }
        else if !(runCommand dryRun runner t.command) then
          let st2 : SState :=
            { st1 with
              events := st1.events ++ [.status t.name .build, .status t.name .failed,
                .progress name (i + 1) total .failed],
              failedc := st1.failedc + 1 }
          if stopOnError then (false, st2)
          else execSTLoop g dryRun stopOnError runner fs cancel total rest (i + 1) st2
        else
          execSTLoop g dryRun stopOnError runner fs cancel total rest (i + 1)
            { st1 with
              cache := setSignature st1.cache t.name
                (computeTargetSignature fs t.command t.inputs),
              events := st1.events ++ [.status t.name .build, .status t.name .success,
                .progress name (i + 1) total .success],
              built := st1.built + 1 }

/-- `Executor::executeSingleThreaded` (executor.cpp 141-221). -/
def executeSingleThreaded (g : DAGL) (dryRun stopOnError : Bool)
    (runner : Str → Bool) (fs : FileSys) (cancel : Nat → Bool)
    (c0 : CacheMap) : Bool × SState :=
  let order := topologicalSort g
  execSTLoop g dryRun stopOnError runner fs cancel order.length order 0
    ⟨c0, [], 0, 0, 0⟩

/-! ### Multithreaded executor as a labelled transition system -/

/-- Phase of a multithreaded worker inside one dispatched target: about to
run the BUILDING callback, about to take the up-to-date check, about to run
the command, or about to take the locked completion block. -/
inductive Phase where
  | emitBuilding : Phase
  | checkUpToDate : Phase
  | runCmd : Phase
  | complete (ok : Bool) : Phase
deriving DecidableEq

/-- A worker thread's control position: at the head of the while loop,
holding a picked target in some phase, or returned. -/
inductive WState where
  | loopHead : WState
  | dispatched (name : Str) (ph : Phase) : WState
  | done : WState
deriving DecidableEq

/-- Shared state of `executeMultiThreaded` plus each worker's position. -/
structure MTState where
  completed : List (Str × Bool)
  inProgress : List (Str × Bool)
  failed : Bool
  processed : Nat
  cache : CacheMap
  skipped : Nat
  built : Nat
  failedc : Nat
  trace : List Event
  workers : List WState
  cancelled : Bool
deriving DecidableEq

/-- `std::unordered_map<std::string,bool>::operator[]` as a read: a missing
key default-inserts `false`.  Returns the read value and the updated map. -/
def bgetIns (m : List (Str × Bool)) (k : Str) : Bool × List (Str × Bool) :=
  match alookup m k with
  | some b => (b, m)
  | none => (false, m ++ [(k, false)])

/-- The dependency loop of `canExecute` (executor.cpp 246-251):
`!completed[dep]` exits early, so later dependencies are not looked up. -/
def depsCompleted (completed : List (Str × Bool)) :
    List Str → Bool × List (Str × Bool)
  | [] => (true, completed)
  | d :: rest =>
    let p := bgetIns completed d
    if p.1 then depsCompleted p.2 rest else (false, p.2)

/-- The picking scan over `order` (executor.cpp 323-332 together with
`canExecute`): the first name with a registered target that is not
completed, has all dependencies completed and is not in progress.  Threads
the `operator[]` default-inserts through both maps. -/
def findReady (g : DAGL) (completed inProgress : List (Str × Bool)) :
    List Str → Option Str × List (Str × Bool) × List (Str × Bool)
  | [] => (none, completed, inProgress)
  | name :: rest =>
    match alookup g name with
    | none => findReady g completed inProgress rest
    | some t =>
      let pc := bgetIns completed name
      if pc.1 then findReady g pc.2 inProgress rest
      else
        let pd := depsCompleted pc.2 t.dependencies
        if pd.1 then
          let pi := bgetIns inProgress t.name
          if pi.1 then findReady g pd.2 pi.2 rest
          else (some name, pd.2, pi.2)
        else findReady g pd.2 inProgress rest

/-- Replace worker `wid`'s control state. -/
def setWorker (s : MTState) (wid : Nat) (w : WState) : MTState :=
  { s with workers := s.workers.set wid w }

/-- One atomic step of worker `wid` (executor.cpp 256-408).  Each case is
one critical region of the worker loop: the loop-head cancellation check
together with the locked wait/re-check/pick block (lines 258-333), the
empty/null checks with the BUILDING callback (335-344), the up-to-date
decision with its status line (346-371), the command run with its cache
write and status line (373-392), and the locked completion block
(395-404). -/
def workerStep (g : DAGL) (order : List Str) (dryRun stopOnError : Bool)
    (runner : Str → Bool) (fs : FileSys) (s : MTState) (wid : Nat) : MTState :=
  match s.workers.get? wid with
  | none => s
  | some .done => s
  | some .loopHead =>
    if s.cancelled then setWorker s wid .done
    else if s.failed && stopOnError then setWorker s wid .done
    else if s.completed.all (fun e => e.2) then setWorker s wid .done
    else
      match findReady g s.completed s.inProgress order with
      | (none, c2, p2) => { s with completed := c2, inProgress := p2 }
      | (some name, c2, p2) =>
        { s with
            completed := c2, inProgress := aset p2 name true,
            workers := s.workers.set wid (.dispatched name .emitBuilding) }
  | some (.dispatched name ph) =>
    match ph with
    | .emitBuilding =>
      if name = [] then setWorker s wid .loopHead
      else
        match alookup g name with
        | none => setWorker s wid .loopHead
        | some _ =>
          { s with
              processed := s.processed + 1,
              trace := s.trace ++
                [.progress name (s.processed + 1) order.length .building],
              workers := s.workers.set wid (.dispatched name .checkUpToDate) }
    | .checkUpToDate =>
      match alookup g name with
      | none => setWorker s wid .loopHead
      | some t =>
        if outputsExist fs t && !(isOutOfDate fs t s.cache) then
          { s with
              trace := s.trace ++ [.status t.name .upToDate],
              skipped := s.skipped + 1,
              workers := s.workers.set wid (.dispatched name (.complete true)) }
        else
          { s with
              trace := s.trace ++ [.status t.name .build],
              workers := s.workers.set wid (.dispatched name .runCmd) }
    | .runCmd =>
      match alookup g name with
      | none => setWorker s wid .loopHead
      | some t =>
        if runCommand dryRun runner t.command then
          { s with
              cache := setSignature s.cache t.name
                (computeTargetSignature fs t.command t.inputs),
              trace := s.trace ++ [.status t.name .success],
              built := s.built + 1,
              workers := s.workers.set wid (.dispatched name (.complete true)) }
        else
          { s with
              trace := s.trace ++ [.status t.name .failed],
              failedc := s.failedc + 1,
              workers := s.workers.set wid (.dispatched name (.complete false)) }
    | .complete ok =>
      { s with
          inProgress := aset s.inProgress name false,
          completed := aset s.completed name true,
          failed := s.failed || !ok,
          workers := s.workers.set wid .loopHead }

/-- A scheduler action: one atomic step of worker `wid`, or an external
`Executor::cancel()` setting the cancel flag. -/
inductive MTAction where
  | work (wid : Nat) : MTAction
  | cancelFlag : MTAction
deriving DecidableEq

/-- One labelled transition of the multithreaded executor. -/
def mtStep (g : DAGL) (order : List Str) (dryRun stopOnError : Bool)
    (runner : Str → Bool) (fs : FileSys) (s : MTState) : MTAction → MTState
  | .work wid => workerStep g order dryRun stopOnError runner fs s wid
  | .cancelFlag => { s with cancelled := true }

/-- Initial state of `executeMultiThreaded` with `J` workers: the two init
loops write `false` through `operator[]` for every name of the order, in
order; `cinit` is the cancel flag's initial value (a `cancel()` call may
precede `execute`). -/
def mtInit (order : List Str) (c0 : CacheMap) (J : Nat) (cinit : Bool) : MTState :=
  { completed := order.foldl (fun m n => aset m n false) [],
    inProgress := order.foldl (fun m n => aset m n false) [],
    failed := false, processed := 0, cache := c0,
    skipped := 0, built := 0, failedc := 0, trace := [],
    workers := List.replicate J .loopHead, cancelled := cinit }

/-- Run the multithreaded executor model over a schedule of actions. -/
def mtRun (g : DAGL) (order : List Str) (dryRun stopOnError : Bool)
    (runner : Str → Bool) (fs : FileSys) :
    MTState → List MTAction → MTState
  | s, [] => s
  | s, a :: rest =>
    mtRun g order dryRun stopOnError runner fs
      (mtStep g order dryRun stopOnError runner fs s a) rest

/-- `Executor::executeMultiThreaded` (executor.cpp 223-423) under a given
schedule: the C++ return value after the joins is `!failed`. -/
def executeMultiThreaded (g : DAGL) (dryRun stopOnError : Bool)
    (runner : Str → Bool) (fs : FileSys) (c0 : CacheMap) (J : Nat)
    (cinit : Bool) (sched : List MTAction) : Bool × MTState :=
  let sf := mtRun g (topologicalSort g) dryRun stopOnError runner fs
    (mtInit (topologicalSort g) c0 J cinit) sched
  (!sf.failed, sf)

/-- A terminal emission for target `n`: an UP-TO-DATE, SUCCESS or FAILED
status line or progress callback naming `n`. -/
def isTerminalFor (n : Str) : Event → Bool
  | .status m st => m == n && !(st == .building) && !(st == .build)
  | .progress m _ _ st => m == n && !(st == .building) && !(st == .build)

/-- A SUCCESS or FAILED emission for target `n`, on either channel. -/
def isSuccFailFor (n : Str) : Event → Bool
  | .status m st => m == n && (st == .success || st == .failed)
  | .progress m _ _ st => m == n && (st == .success || st == .failed)

/-- Dependency respect of an event trace: before every BUILDING progress
event for a target `t`, every declared dependency of `t` already has a
terminal emission. -/
def DepRespect (g : DAGL) (tr : List Event) : Prop :=
  ∀ i, ∀ hi : i < tr.length, ∀ t cur tot,
    tr.get ⟨i, hi⟩ = .progress t cur tot .building →
    ∀ d ∈ depsOf g t, ∃ j, ∃ hj : j < tr.length, j < i ∧
      isTerminalFor d (tr.get ⟨j, hj⟩) = true

/-- Invariant of the multithreaded executor model, tying each worker's
position to the shared maps, the trace and the cache. -/
structure MTInv (g : DAGL) (c0 : CacheMap) (dryRun : Bool)
    (runner : Str → Bool) (s : MTState) : Prop where
  a1 : ∀ wid n ph, s.workers.get? wid = some (.dispatched n ph) →
    alookup s.inProgress n = some true ∧ alookup s.completed n ≠ some true
  a2 : ∀ w1 w2 n1 n2 p1 p2, w1 ≠ w2 →
    s.workers.get? w1 = some (.dispatched n1 p1) →
    s.workers.get? w2 = some (.dispatched n2 p2) → n1 ≠ n2
  a3 : ∀ wid n ph, s.workers.get? wid = some (.dispatched n ph) →
    ∀ d ∈ depsOf g n, alookup s.completed d = some true
  a4 : ∀ n, alookup s.completed n = some true →
    ∃ e ∈ s.trace, isTerminalFor n e = true
  a5 : ∀ wid n b, s.workers.get? wid = some (.dispatched n (.complete b)) →
    ∃ e ∈ s.trace, isTerminalFor n e = true
  a6 : ∀ wid n ph, s.workers.get? wid = some (.dispatched n ph) →
    (∀ b, ph ≠ .complete b) → ∀ e ∈ s.trace, isTerminalFor n e = false
  a7 : ∀ e ∈ s.trace, ∀ n, isTerminalFor n e = true →
    alookup s.completed n = some true ∨
      ∃ wid b, s.workers.get? wid = some (.dispatched n (.complete b))
  a8 : ∀ n, alookup s.cache n ≠ alookup c0 n →
    (Event.status n .success) ∈ s.trace ∧
      ∃ t, alookup g n = some t ∧ runCommand dryRun runner t.command = true
  a9 : ∀ n, ((Event.status n .failed) ∈ s.trace ∨
      (Event.status n .upToDate) ∈ s.trace) → (Event.status n .success) ∉ s.trace
  a10 : DepRespect g s.trace

/-- Cache-write discipline relative to the initial cache `c0`: an entry
differing from its initial value belongs to a target whose SUCCESS line was
emitted and whose command the runner accepted (no dry-run), and a target
with a FAILED or UP-TO-DATE line never has a SUCCESS line. -/
def STCacheOk (g : DAGL) (c0 : CacheMap) (dryRun : Bool) (runner : Str → Bool)
    (cache : CacheMap) (ev : List Event) : Prop :=
  (∀ n, alookup cache n ≠ alookup c0 n →
    (Event.status n Status.success) ∈ ev ∧
      ∃ t, alookup g n = some t ∧ runCommand dryRun runner t.command = true) ∧
  (∀ n, ((Event.status n Status.failed) ∈ ev ∨ (Event.status n Status.upToDate) ∈ ev) →
    (Event.status n Status.success) ∉ ev)

/-! ## Theorems -/

theorem alookup_aset {α : Type} (m : List (Str × α)) (n k : Str) (v : α) :
    alookup (aset m n v) k = if n = k then some v else alookup m k := by
  induction m with
  | nil =>
    by_cases h : n = k <;> simp [aset, alookup, h]
  | cons p rest ih =>
    obtain ⟨k', v'⟩ := p
    by_cases h1 : k' = n
    · subst h1
      by_cases h2 : k' = k <;> simp [aset, alookup, h2]
    · by_cases h2 : k' = k
      · subst h2
        have : ¬ n = k' := fun h => h1 h.symm
        simp [aset, alookup, h1, this]
      · simp [aset, alookup, h1, h2, ih]

theorem aset_keys {α : Type} (m : List (Str × α)) (n : Str) (v : α)
    (h : n ∈ m.map Prod.fst) : (aset m n v).map Prod.fst = m.map Prod.fst := by
  induction m with
  | nil => simp at h
  | cons p rest ih =>
    obtain ⟨k, w⟩ := p
    by_cases hk : k = n
    · simp [aset, hk]
    · simp only [List.map_cons] at h
      have hn : n ∈ rest.map Prod.fst := by
        rcases List.mem_cons.mp h with h1 | h1
        · exact absurd h1.symm hk
        · exact h1
      simp [aset, hk, ih hn]

theorem toHex8_length (n : Nat) : (toHex8 n).length = 8 := by
  simp [toHex8]

theorem mem_toHex8 (c n : Nat) (h : c ∈ toHex8 n) : ∃ m, m < 16 ∧ c = hexDigit m := by
  simp only [toHex8, List.mem_cons, List.not_mem_nil, or_false] at h
  rcases h with h | h | h | h | h | h | h | h <;>
    exact ⟨_, Nat.mod_lt _ (by norm_num), h⟩

theorem hexDigit_lowerHex (m : Nat) (h : m < 16) : IsLowerHexCode (hexDigit m) := by
  unfold hexDigit IsLowerHexCode
  split <;> omega

theorem hexDigit_inj (m1 m2 : Nat) (h1 : m1 < 16) (h2 : m2 < 16)
    (h : hexDigit m1 = hexDigit m2) : m1 = m2 := by
  unfold hexDigit at h
  split at h <;> split at h <;> omega

theorem toHex8_inj (a b : Nat) (ha : a < 2 ^ 32) (hb : b < 2 ^ 32)
    (h : toHex8 a = toHex8 b) : a = b := by
  simp only [toHex8, List.cons.injEq, and_true] at h
  obtain ⟨e7, e6, e5, e4, e3, e2, e1, e0⟩ := h
  have d7 := hexDigit_inj _ _ (Nat.mod_lt _ (by norm_num)) (Nat.mod_lt _ (by norm_num)) e7
  have d6 := hexDigit_inj _ _ (Nat.mod_lt _ (by norm_num)) (Nat.mod_lt _ (by norm_num)) e6
  have d5 := hexDigit_inj _ _ (Nat.mod_lt _ (by norm_num)) (Nat.mod_lt _ (by norm_num)) e5
  have d4 := hexDigit_inj _ _ (Nat.mod_lt _ (by norm_num)) (Nat.mod_lt _ (by norm_num)) e4
  have d3 := hexDigit_inj _ _ (Nat.mod_lt _ (by norm_num)) (Nat.mod_lt _ (by norm_num)) e3
  have d2 := hexDigit_inj _ _ (Nat.mod_lt _ (by norm_num)) (Nat.mod_lt _ (by norm_num)) e2
  have d1 := hexDigit_inj _ _ (Nat.mod_lt _ (by norm_num)) (Nat.mod_lt _ (by norm_num)) e1
  have d0 := hexDigit_inj _ _ (Nat.mod_lt _ (by norm_num)) (Nat.mod_lt _ (by norm_num)) e0
  norm_num at d7 d6 d5 d4 d3 d2 d1 d0 ha hb
  omega

theorem shaFold_h2 (s : Str) (init : Nat × Nat × Nat) (h : init.2.2 < 2 ^ 32) :
    (s.foldl shaStep init).2.2 = (init.2.2 + s.sum) % 2 ^ 32 := by
  induction s generalizing init with
  | nil => simpa using (Nat.mod_eq_of_lt h).symm
  | cons b t ih =>
    have hlt : (shaStep init b).2.2 < 2 ^ 32 := Nat.mod_lt _ (by norm_num)
    rw [List.foldl_cons, ih _ hlt]
    show ((init.2.2 + b) % 2 ^ 32 + t.sum) % 2 ^ 32 = _
    rw [Nat.mod_add_mod]
    simp [Nat.add_assoc]

theorem hexTail_eq :
    hexTail = [97, 53, 52, 102, 102, 53, 51, 97, 53, 49, 48, 101, 53, 50, 55, 102,
      57, 98, 48, 53, 54, 56, 56, 99, 49, 102, 56, 51, 100, 57, 97, 98,
      53, 98, 101, 48, 99, 100, 49, 57] := by decide

/-- C10: `Signature::sha256` always yields 64 lowercase hexadecimal
characters, the last 40 of which are the fixed string
`a54ff53a510e527f9b05688c1f83d9ab5be0cd19`, independent of the input;
only the first 24 characters (three 32-bit words) depend on the data. -/
theorem sha256_fixed_tail (data : Str) :
    (sha256 data).length = 64 ∧
    (∀ c ∈ sha256 data, IsLowerHexCode c) ∧
    (sha256 data).drop 24 =
      [97, 53, 52, 102, 102, 53, 51, 97, 53, 49, 48, 101, 53, 50, 55, 102,
       57, 98, 48, 53, 54, 56, 56, 99, 49, 102, 56, 51, 100, 57, 97, 98,
       53, 98, 101, 48, 99, 100, 49, 57] := by
  refine ⟨?_, ?_, ?_⟩
  · simp [sha256, toHex8, hexTail]
  · intro c hc
    simp only [sha256, List.mem_append] at hc
    rcases hc with ((hc | hc) | hc) | hc
    · obtain ⟨m, hm, rfl⟩ := mem_toHex8 c _ hc
      exact hexDigit_lowerHex m hm
    · obtain ⟨m, hm, rfl⟩ := mem_toHex8 c _ hc
      exact hexDigit_lowerHex m hm
    · obtain ⟨m, hm, rfl⟩ := mem_toHex8 c _ hc
      exact hexDigit_lowerHex m hm
    · simp only [hexTail, List.mem_append] at hc
      rcases hc with (((hc | hc) | hc) | hc) | hc <;>
        · obtain ⟨m, hm, rfl⟩ := mem_toHex8 c _ hc
          exact hexDigit_lowerHex m hm
  · rw [← hexTail_eq]
    show (toHex8 _ ++ (toHex8 _ ++ (toHex8 _ ++ hexTail))).drop 24 = hexTail
    rw [← List.append_assoc, ← List.append_assoc]
    have h24 : (toHex8 (data.foldl shaStep (0x6a09e667, 0xbb67ae85, 0x3c6ef372)).1 ++
        toHex8 (data.foldl shaStep (0x6a09e667, 0xbb67ae85, 0x3c6ef372)).2.1 ++
        toHex8 (data.foldl shaStep (0x6a09e667, 0xbb67ae85, 0x3c6ef372)).2.2).length = 24 := by
      simp [toHex8_length]
    calc _ = (toHex8 (data.foldl shaStep (0x6a09e667, 0xbb67ae85, 0x3c6ef372)).1 ++
        toHex8 (data.foldl shaStep (0x6a09e667, 0xbb67ae85, 0x3c6ef372)).2.1 ++
        toHex8 (data.foldl shaStep (0x6a09e667, 0xbb67ae85, 0x3c6ef372)).2.2 ++
        hexTail).drop ((toHex8 (data.foldl shaStep (0x6a09e667, 0xbb67ae85, 0x3c6ef372)).1 ++
        toHex8 (data.foldl shaStep (0x6a09e667, 0xbb67ae85, 0x3c6ef372)).2.1 ++
        toHex8 (data.foldl shaStep (0x6a09e667, 0xbb67ae85, 0x3c6ef372)).2.2).length + 0) := by
          rw [h24]
      _ = hexTail := by rw [List.drop_append]; rfl

theorem sha256_h2_block (data : Str) :
    ((sha256 data).drop 16).take 8 =
      toHex8 (data.foldl shaStep (0x6a09e667, 0xbb67ae85, 0x3c6ef372)).2.2 := by
  show ((toHex8 _ ++ (toHex8 _ ++ (toHex8 _ ++ hexTail))).drop 16).take 8 = _
  rw [← List.append_assoc]
  have h16 : (toHex8 (data.foldl shaStep (0x6a09e667, 0xbb67ae85, 0x3c6ef372)).1 ++
      toHex8 (data.foldl shaStep (0x6a09e667, 0xbb67ae85, 0x3c6ef372)).2.1).length = 16 := by
    simp [toHex8_length]
  rw [show (16 : Nat) = (toHex8 (data.foldl shaStep (0x6a09e667, 0xbb67ae85, 0x3c6ef372)).1 ++
      toHex8 (data.foldl shaStep (0x6a09e667, 0xbb67ae85, 0x3c6ef372)).2.1).length + 0 from by
        rw [h16]]
  rw [List.drop_append]
  rw [List.drop_zero, List.take_append_of_le_length (by rw [toHex8_length])]
  exact List.take_of_length_le (by rw [toHex8_length])

/-- If the byte sums of two strings differ modulo `2^32`, their hashes differ
(the `h2` word separates them). -/
theorem sha256_ne_of_sum_ne (s1 s2 : Str)
    (h : s1.sum % 2 ^ 32 ≠ s2.sum % 2 ^ 32) : sha256 s1 ≠ sha256 s2 := by
  intro heq
  have hblock := congrArg (fun l => (l.drop 16).take 8) heq
  simp only [sha256_h2_block] at hblock
  have h1 := shaFold_h2 s1 (0x6a09e667, 0xbb67ae85, 0x3c6ef372) (by norm_num)
  have h2 := shaFold_h2 s2 (0x6a09e667, 0xbb67ae85, 0x3c6ef372) (by norm_num)
  have hv := toHex8_inj _ _
    (h1 ▸ Nat.mod_lt _ (by norm_num)) (h2 ▸ Nat.mod_lt _ (by norm_num)) hblock
  rw [h1, h2] at hv
  revert hv
  norm_num at h ⊢
  omega

theorem targetCombined_eq (fs : FileSys) (command : Str) (inputs : List Str) :
    inputs.foldl (fun acc input => acc ++ pipeByte :: computeFileSignature fs input) command =
      command ++ inputs.flatMap (fun input => pipeByte :: computeFileSignature fs input) := by
  induction inputs generalizing command with
  | nil => simp
  | cons i rest ih => simp [ih, List.append_assoc]

/-- C7 (amended): changing exactly one byte of the command, in place, always
changes the target signature — the byte sum of the hashed string changes. -/
theorem targetSignature_command_byte_sensitive (fs : FileSys) (pre post : Str)
    (b b' : Nat) (inputs : List Str) (hb : b < 256) (hb' : b' < 256) (hne : b ≠ b') :
    computeTargetSignature fs (pre ++ b :: post) inputs ≠
      computeTargetSignature fs (pre ++ b' :: post) inputs := by
  unfold computeTargetSignature
  rw [targetCombined_eq, targetCombined_eq]
  apply sha256_ne_of_sum_ne
  simp only [List.append_assoc, List.cons_append, List.sum_append, List.sum_cons]
  omega

/-- Witness for `targetSignature_command_byte_sensitive` at a concrete input. -/
theorem targetSignature_command_byte_sensitive_witness :
    97 < 256 ∧ 98 < 256 ∧ 97 ≠ 98 ∧
      computeTargetSignature (fun _ => none) ([] ++ 97 :: []) [] ≠
        computeTargetSignature (fun _ => none) ([] ++ 98 :: []) [] :=
  ⟨by decide, by decide, by decide,
    targetSignature_command_byte_sensitive (fun _ => none) [] [] 97 98 []
      (by decide) (by decide) (by decide)⟩

/-- C7 counterexample: the two distinct commands `"\x01\x00\x80"` and
`"\x00\x81\x00"` receive the same target signature (with no inputs), so
changing the command string does not always change the signature. -/
theorem targetSignature_command_collision :
    ([1, 0, 128] : Str) ≠ [0, 129, 0] ∧
      computeTargetSignature (fun _ => none) [1, 0, 128] [] =
        computeTargetSignature (fun _ => none) [0, 129, 0] [] := by
  exact ⟨by decide, by decide⟩

/-! ### Cache lemmas -/

theorem aset_cons_eq {α : Type} (k : Str) (w v : α) (rest : List (Str × α)) :
    aset ((k, w) :: rest) k v = (k, v) :: rest := by
  simp [aset]

theorem alookup_cons_eq {α : Type} (k : Str) (w : α) (rest : List (Str × α)) :
    alookup ((k, w) :: rest) k = some w := by
  simp [alookup]

theorem mem_aset {α : Type} (m : List (Str × α)) (n : Str) (v : α) (e : Str × α)
    (h : e ∈ aset m n v) : e ∈ m ∨ e = (n, v) := by
  induction m with
  | nil => simpa [aset] using h
  | cons p rest ih =>
    obtain ⟨k, w⟩ := p
    by_cases hk : k = n
    · subst hk
      simp only [aset, if_pos rfl] at h
      rcases List.mem_cons.mp h with h1 | h1
      · exact Or.inr h1
      · exact Or.inl (List.mem_cons_of_mem _ h1)
    · simp only [aset, hk, if_false] at h
      rcases List.mem_cons.mp h with h1 | h1
      · exact Or.inl (h1 ▸ List.mem_cons_self _ _)
      · rcases ih h1 with h2 | h2
        · exact Or.inl (List.mem_cons_of_mem _ h2)
        · exact Or.inr h2

theorem keys_aset_subset {α : Type} (m : List (Str × α)) (n : Str) (v : α) :
    (aset m n v).map Prod.fst ⊆ n :: m.map Prod.fst := by
  induction m with
  | nil => simp [aset]
  | cons p rest ih =>
    obtain ⟨k, w⟩ := p
    by_cases hk : k = n
    · subst hk
      simp only [aset, if_pos rfl, List.map_cons]
      intro a ha
      rcases List.mem_cons.mp ha with h1 | h1
      · exact h1 ▸ List.mem_cons_self _ _
      · exact List.mem_cons_of_mem _ (List.mem_cons_of_mem _ h1)
    · simp only [aset, hk, if_false, List.map_cons]
      intro a ha
      rcases List.mem_cons.mp ha with h1 | h1
      · exact List.mem_cons_of_mem _ (h1 ▸ List.mem_cons_self _ _)
      · rcases List.mem_cons.mp (ih h1) with h2 | h2
        · exact h2 ▸ List.mem_cons_self _ _
        · exact List.mem_cons_of_mem _ (List.mem_cons_of_mem _ h2)

theorem keysNodup_aset {α : Type} (m : List (Str × α)) (n : Str) (v : α)
    (h : (m.map Prod.fst).Nodup) : ((aset m n v).map Prod.fst).Nodup := by
  induction m with
  | nil => simp [aset]
  | cons p rest ih =>
    obtain ⟨k, w⟩ := p
    simp only [List.map_cons, List.nodup_cons] at h
    by_cases hk : k = n
    · subst hk
      rw [aset_cons_eq]
      simp only [List.map_cons, List.nodup_cons]
      exact h
    · simp only [aset, hk, if_false, List.map_cons, List.nodup_cons]
      refine ⟨fun hmem => ?_, ih h.2⟩
      rcases List.mem_cons.mp (keys_aset_subset rest n v hmem) with h1 | h1
      · exact hk h1
      · exact h.1 h1

theorem aset_fresh {α : Type} (m : List (Str × α)) (n : Str) (v : α)
    (h : alookup m n = none) : aset m n v = m ++ [(n, v)] := by
  induction m with
  | nil => simp [aset]
  | cons p rest ih =>
    obtain ⟨k, w⟩ := p
    by_cases hk : k = n
    · simp [alookup, hk] at h
    · simp only [alookup, hk, if_false] at h
      simp [aset, hk, ih h]

theorem alookup_append {α : Type} (m1 m2 : List (Str × α)) (k : Str) :
    alookup (m1 ++ m2) k = ((alookup m1 k).rec (alookup m2 k) fun v => some v) := by
  induction m1 with
  | nil => simp [alookup]
  | cons p rest ih =>
    obtain ⟨k', v'⟩ := p
    by_cases hk : k' = k <;> simp [alookup, hk, ih]

theorem alookup_eq_some_of_mem {α : Type} (m : List (Str × α)) (k : Str) (v : α)
    (hnd : (m.map Prod.fst).Nodup) (h : (k, v) ∈ m) : alookup m k = some v := by
  induction m with
  | nil => simp at h
  | cons p rest ih =>
    obtain ⟨k', v'⟩ := p
    simp only [List.map_cons, List.nodup_cons] at hnd
    rcases List.mem_cons.mp h with h1 | h1
    · obtain ⟨h2, h3⟩ := Prod.mk.injEq .. ▸ h1
      subst h2
      subst h3
      simp [alookup]
    · by_cases hk : k' = k
      · subst hk
        exact absurd (List.mem_map_of_mem Prod.fst h1) hnd.1
      · simp only [alookup, hk, if_false]
        exact ih hnd.2 h1

theorem alookup_none_iff {α : Type} (m : List (Str × α)) (k : Str) :
    alookup m k = none ↔ k ∉ m.map Prod.fst := by
  induction m with
  | nil => simp [alookup]
  | cons p rest ih =>
    obtain ⟨k', v'⟩ := p
    by_cases hk : k' = k
    · subst hk
      simp [alookup]
    · simp only [alookup, hk, if_false, List.map_cons, List.mem_cons, not_or, ih]
      constructor
      · exact fun h2 => ⟨fun h3 => hk h3.symm, h2⟩
      · exact fun h2 => h2.2

theorem alookup_mem {α : Type} (m : List (Str × α)) (k : Str) (v : α)
    (hm : alookup m k = some v) : (k, v) ∈ m := by
  induction m with
  | nil => simp [alookup] at hm
  | cons p rest ih =>
    obtain ⟨k', v'⟩ := p
    by_cases hk : k' = k
    · subst hk
      rw [alookup_cons_eq] at hm
      obtain rfl : v' = v := Option.some.injEq .. ▸ hm
      exact List.mem_cons_self _ _
    · simp only [alookup, hk, if_false] at hm
      exact List.mem_cons_of_mem _ (ih hm)

theorem alookup_perm {α : Type} (m m' : List (Str × α)) (k : Str)
    (hnd : (m.map Prod.fst).Nodup) (hp : m.Perm m') :
    alookup m k = alookup m' k := by
  have hnd' : (m'.map Prod.fst).Nodup := (hp.map Prod.fst).nodup_iff.mp hnd
  cases hm : alookup m k with
  | none =>
    rw [alookup_none_iff] at hm
    have : k ∉ m'.map Prod.fst := fun hc => hm ((hp.map Prod.fst).mem_iff.mpr hc)
    exact ((alookup_none_iff m' k).mpr this).symm
  | some v =>
    exact (alookup_eq_some_of_mem m' k v hnd' (hp.mem_iff.mp (alookup_mem m k v hm))).symm

theorem splitLine_of_clean (l rest : Str) (h : nlByte ∉ l) :
    splitLine (l ++ nlByte :: rest) = (l, rest) := by
  induction l with
  | nil => simp [splitLine, nlByte]
  | cons c t ih =>
    simp only [List.mem_cons, not_or] at h
    have hc : ¬ c = nlByte := fun h2 => h.1 h2.symm
    simp [splitLine, hc, ih h.2]

theorem findIdx_eqByte (k v : Str) (h : eqByte ∉ k) :
    (k ++ eqByte :: v).findIdx? (fun c => c == eqByte) = some k.length := by
  induction k with
  | nil => simp [List.findIdx?]
  | cons c t ih =>
    simp only [List.mem_cons, not_or] at h
    have hc : ¬ c = eqByte := fun h2 => h.1 h2.symm
    simp [List.findIdx?_cons, hc, ih h.2, Nat.add_comm]

theorem take_key (k v : Str) : (k ++ eqByte :: v).take k.length = k := by
  have := @List.take_append Nat k (eqByte :: v) 0
  simpa using this

theorem drop_value (k v : Str) : (k ++ eqByte :: v).drop (k.length + 1) = v := by
  have := @List.drop_append Nat k (eqByte :: v) 1
  simpa using this

/-- Replaying `save`'s output through the load loop appends exactly the saved
entries, provided names contain no `'='` or newline and signatures no
newline. -/
theorem loadLoop_saveText (m acc : CacheMap)
    (hm : ∀ e ∈ m, eqByte ∉ e.1 ∧ nlByte ∉ e.1 ∧ nlByte ∉ e.2)
    (hnd : (m.map Prod.fst).Nodup)
    (hfresh : ∀ e ∈ m, alookup acc e.1 = none) :
    loadLoop (saveText m) acc = acc ++ m := by
  induction m generalizing acc with
  | nil => simp [saveText, loadLoop]
  | cons e rest ih =>
    obtain ⟨k, v⟩ := e
    obtain ⟨hke, hkn, hvn⟩ := hm _ (List.mem_cons_self _ _)
    have hline : nlByte ∉ k ++ eqByte :: v := by
      simp only [List.mem_append, List.mem_cons, not_or]
      exact ⟨hkn, by simp [eqByte, nlByte], hvn⟩
    have hshape : saveText ((k, v) :: rest) = (k ++ eqByte :: v) ++ nlByte :: saveText rest := by
      simp [saveText, List.append_assoc]
    have hne : (k ++ eqByte :: v) ++ nlByte :: saveText rest ≠ [] := by simp
    rw [hshape, loadLoop, dif_neg hne]
    simp only [splitLine_of_clean _ _ hline]
    rw [findIdx_eqByte k v hke]
    simp only [take_key, drop_value]
    rw [aset_fresh acc k v (hfresh _ (List.mem_cons_self _ _))]
    simp only [List.map_cons, List.nodup_cons] at hnd
    have hfresh' : ∀ e ∈ rest, alookup (acc ++ [(k, v)]) e.1 = none := by
      intro e he
      rw [alookup_append]
      rw [hfresh e (List.mem_cons_of_mem _ he)]
      have hne2 : ¬ k = e.1 := by
        intro hk
        exact hnd.1 (hk ▸ List.mem_map_of_mem Prod.fst he)
      simp [alookup, hne2]
    have hrec := ih (acc ++ [(k, v)])
      (fun e he => hm e (List.mem_cons_of_mem _ he)) hnd.2 hfresh'
    rw [hrec]
    simp

theorem foldl_set_mem (ops : List (Str × Str)) (m0 : CacheMap) (e : Str × Str)
    (h : e ∈ ops.foldl (fun m p => setSignature m p.1 p.2) m0) :
    e ∈ m0 ∨ e ∈ ops := by
  induction ops generalizing m0 with
  | nil => exact Or.inl h
  | cons p rest ih =>
    rcases ih _ h with h1 | h1
    · rcases mem_aset _ _ _ _ h1 with h2 | h2
      · exact Or.inl h2
      · exact Or.inr (h2 ▸ List.mem_cons_self _ _)
    · exact Or.inr (List.mem_cons_of_mem _ h1)

theorem foldl_set_keysNodup (ops : List (Str × Str)) (m0 : CacheMap)
    (h : (m0.map Prod.fst).Nodup) :
    (((ops.foldl (fun m p => setSignature m p.1 p.2) m0)).map Prod.fst).Nodup := by
  induction ops generalizing m0 with
  | nil => exact h
  | cons p rest ih => exact ih _ (keysNodup_aset _ _ _ h)

/-- C8 (amended): for any sequence of `set` operations whose names contain no
`'='` and no newline and whose signatures contain no newline, `save` followed
by a fresh cache's `load` yields an equal mapping, whatever iteration order
`save` wrote the entries in. -/
theorem cache_save_load_roundtrip (ops : List (Str × Str)) (msave : CacheMap)
    (hops : ∀ p ∈ ops, eqByte ∉ p.1 ∧ nlByte ∉ p.1 ∧ nlByte ∉ p.2)
    (hperm : msave.Perm (ops.foldl (fun m p => setSignature m p.1 p.2) [])) :
    (load (some (saveText msave)) []).1 = true ∧
    ∀ k, alookup (load (some (saveText msave)) []).2 k =
      alookup (ops.foldl (fun m p => setSignature m p.1 p.2) []) k := by
  have hnd : (((ops.foldl (fun m p => setSignature m p.1 p.2) [])).map Prod.fst).Nodup :=
    foldl_set_keysNodup ops [] (by simp)
  have hndm : (msave.map Prod.fst).Nodup := ((hperm.map Prod.fst).nodup_iff).mpr hnd
  have hcond : ∀ e ∈ msave, eqByte ∉ e.1 ∧ nlByte ∉ e.1 ∧ nlByte ∉ e.2 := by
    intro e he
    have := hperm.mem_iff.mp he
    rcases foldl_set_mem ops [] e this with h1 | h1
    · simp at h1
    · exact hops e h1
  have hload : loadLoop (saveText msave) [] = msave := by
    have := loadLoop_saveText msave [] hcond hndm (by intro e _; rfl)
    simpa using this
  refine ⟨rfl, fun k => ?_⟩
  show alookup (loadLoop (saveText msave) []) k = _
  rw [hload]
  exact alookup_perm _ _ k hndm hperm

/-- Witness for `cache_save_load_roundtrip` at a concrete operation list. -/
theorem cache_save_load_roundtrip_witness :
    (∀ p ∈ ([([97], [98])] : List (Str × Str)), eqByte ∉ p.1 ∧ nlByte ∉ p.1 ∧ nlByte ∉ p.2) ∧
    ([([97], [98])] : CacheMap).Perm
      (([([97], [98])] : List (Str × Str)).foldl (fun m p => setSignature m p.1 p.2) []) ∧
    ((load (some (saveText [([97], [98])])) []).1 = true ∧
     ∀ k, alookup (load (some (saveText [([97], [98])])) []).2 k =
       alookup (([([97], [98])] : List (Str × Str)).foldl
         (fun m p => setSignature m p.1 p.2) []) k) :=
  ⟨by decide, List.Perm.refl _,
    cache_save_load_roundtrip [([97], [98])] [([97], [98])] (by decide) (List.Perm.refl _)⟩

/-- C8 counterexample: a name containing `'='` does not round-trip — after
`set("a=b", "c")`, `save` then `load` yields a mapping in which `"a=b"` is
absent (the line `a=b=c` parses as `a → b=c`). -/
theorem cache_roundtrip_counterexample :
    alookup (load (some (saveText (setSignature [] [97, 61, 98] [99]))) []).2 [97, 61, 98] = none ∧
    alookup (setSignature [] [97, 61, 98] [99]) [97, 61, 98] = some [99] ∧
    (load (some (saveText (setSignature [] [97, 61, 98] [99]))) []).2 = [([97], [98, 61, 99])] := by
  refine ⟨?_, by decide, ?_⟩ <;>
    simp [load, loadLoop, saveText, setSignature, aset, splitLine, alookup,
      List.findIdx?, nlByte, eqByte]

/-- C9: `load` on a missing or unopenable cache file reports "not loaded" and
leaves the in-memory mapping untouched; on a readable file it reports success
and replaces the mapping with the entries parsed line by line, splitting each
line at its first `'='` and silently discarding every line without `'='`. -/
theorem cache_load_semantics :
    (∀ m : CacheMap, load none m = (false, m)) ∧
    (∀ (t : Str) (m : CacheMap),
      load (some t) m =
        (true, ((splitLines t).filterMap parseLine?).foldl
          (fun acc e => aset acc e.1 e.2) [])) := by
  have hloop : ∀ (fuel : Nat) (t : Str), t.length ≤ fuel → ∀ acc : CacheMap,
      loadLoop t acc = ((splitLines t).filterMap parseLine?).foldl
        (fun acc e => aset acc e.1 e.2) acc := by
    intro fuel
    induction fuel with
    | zero =>
      intro t ht acc
      have : t = [] := List.length_eq_zero.mp (Nat.le_zero.mp ht)
      subst this
      simp [loadLoop, splitLines]
    | succ n ih =>
      intro t ht acc
      by_cases he : t = []
      · subst he
        simp [loadLoop, splitLines]
      · rw [loadLoop, dif_neg he, splitLines, dif_neg he]
        have hrec := ih (splitLine t).2
          (Nat.le_of_lt_succ (Nat.lt_of_lt_of_le (splitLine_shrink t he) ht))
        simp only [List.filterMap_cons]
        cases hp : parseLine? (splitLine t).1 with
        | none =>
          simp only [parseLine?] at hp
          rcases hidx : (splitLine t).1.findIdx? (fun c => c == eqByte) with _ | pos
          · rw [hidx] at hp
            simp [hrec]
          · rw [hidx] at hp
            simp at hp
        | some e =>
          simp only [parseLine?] at hp
          rcases hidx : (splitLine t).1.findIdx? (fun c => c == eqByte) with _ | pos
          · rw [hidx] at hp
            simp at hp
          · rw [hidx] at hp
            simp only [Option.some.injEq] at hp
            subst hp
            simp [hrec]
  refine ⟨fun m => rfl, fun t m => ?_⟩
  show (true, loadLoop t []) = _
  rw [hloop t.length t (Nat.le_refl _) []]

/-! ### Kahn topological sort lemmas -/

theorem aget0_aset (m : List (Str × Int)) (n k : Str) (v : Int) :
    aget0 (aset m n v) k = if n = k then v else aget0 m k := by
  unfold aget0
  rw [alookup_aset]
  by_cases h : n = k <;> simp [h]

theorem foldl_insertZero (l : List (Str × Target)) (acc : List (Str × Int))
    (hnd : (l.map Prod.fst).Nodup) (hfr : ∀ e ∈ l, e.1 ∉ acc.map Prod.fst) :
    l.foldl (fun m e => if (alookup m e.1).isSome then m else m ++ [(e.1, (0 : Int))]) acc =
      acc ++ l.map (fun e => (e.1, (0 : Int))) := by
  induction l generalizing acc with
  | nil => simp
  | cons e rest ih =>
    simp only [List.map_cons, List.nodup_cons] at hnd
    have habs : alookup acc e.1 = none :=
      (alookup_none_iff acc e.1).mpr (hfr e (List.mem_cons_self _ _))
    simp only [List.foldl_cons, habs, Option.isSome_none, Bool.false_eq_true, if_false]
    rw [ih (acc ++ [(e.1, 0)]) hnd.2 ?_]
    · simp
    · intro e' he'
      simp only [List.map_append, List.mem_append, List.map_cons, List.map_nil,
        List.mem_singleton, not_or]
      refine ⟨hfr e' (List.mem_cons_of_mem _ he'), fun hc => ?_⟩
      exact hnd.1 (hc ▸ List.mem_map_of_mem Prod.fst he')

theorem foldl_incr (l : List Str) (m : List (Str × Int)) (k : Str) :
    (∀ n, aget0 (l.foldl (fun m _ => aset m k (aget0 m k + 1)) m) n =
      aget0 m n + if k = n then (l.length : Int) else 0) ∧
    (k ∈ m.map Prod.fst →
      (l.foldl (fun m _ => aset m k (aget0 m k + 1)) m).map Prod.fst = m.map Prod.fst) := by
  induction l generalizing m with
  | nil => simp
  | cons c rest ih =>
    simp only [List.foldl_cons]
    obtain ⟨ihv, ihk⟩ := ih (aset m k (aget0 m k + 1))
    constructor
    · intro n
      rw [ihv n, aget0_aset]
      by_cases h : k = n
      · subst h
        simp
        omega
      · simp [h]
    · intro hk
      rw [ihk ?_, aset_keys m k _ hk]
      rw [aset_keys m k _ hk]
      exact hk

theorem foldl_incrDeps (l : List (Str × Target)) (m : List (Str × Int))
    (hnd : (l.map Prod.fst).Nodup) (hkeys : ∀ e ∈ l, e.1 ∈ m.map Prod.fst) :
    ((l.foldl (fun m e => e.2.dependencies.foldl
        (fun m _ => aset m e.1 (aget0 m e.1 + 1)) m) m).map Prod.fst = m.map Prod.fst) ∧
    (∀ n, aget0 (l.foldl (fun m e => e.2.dependencies.foldl
        (fun m _ => aset m e.1 (aget0 m e.1 + 1)) m) m) n =
      aget0 m n + ((depsOf l n).length : Int)) := by
  induction l generalizing m with
  | nil => simp [depsOf, alookup]
  | cons e rest ih =>
    simp only [List.map_cons, List.nodup_cons] at hnd
    simp only [List.foldl_cons]
    set m1 := e.2.dependencies.foldl (fun m _ => aset m e.1 (aget0 m e.1 + 1)) m with hm1
    obtain ⟨hv1, hk1⟩ := foldl_incr e.2.dependencies m e.1
    have hkm1 : m1.map Prod.fst = m.map Prod.fst := hk1 (hkeys e (List.mem_cons_self _ _))
    obtain ⟨ihk, ihv⟩ := ih m1 hnd.2
      (fun e' he' => hkm1 ▸ hkeys e' (List.mem_cons_of_mem _ he'))
    refine ⟨by rw [ihk, hkm1], fun n => ?_⟩
    rw [ihv n, hv1 n]
    by_cases h : e.1 = n
    · subst h
      have : alookup rest e.1 = none := by
        rw [alookup_none_iff]
        exact hnd.1
      simp [depsOf, alookup, this]
    · simp only [depsOf, alookup, h, if_false]
      simp

theorem initInDegree_spec (g : DAGL) (hwf : WFdag g) :
    (initInDegree g).map Prod.fst = g.map Prod.fst ∧
    ∀ n, aget0 (initInDegree g) n = ((depsOf g n).length : Int) := by
  unfold initInDegree
  have hm0 := foldl_insertZero g [] hwf.1 (by simp)
  rw [hm0]
  simp only [List.nil_append]
  have hkeys0 : (g.map fun e => (e.1, (0 : Int))).map Prod.fst = g.map Prod.fst := by
    simp [Function.comp]
  obtain ⟨hk, hv⟩ := foldl_incrDeps g (g.map fun e => (e.1, (0 : Int))) hwf.1
    (fun e he => by rw [hkeys0]; exact List.mem_map_of_mem Prod.fst he)
  refine ⟨by rw [hk, hkeys0], fun n => ?_⟩
  rw [hv n]
  have : aget0 (g.map fun e => (e.1, (0 : Int))) n = 0 := by
    unfold aget0
    cases h : alookup (g.map fun e => (e.1, (0 : Int))) n with
    | none => rfl
    | some v =>
      have := alookup_mem _ _ _ h
      simp only [List.mem_map] at this
      obtain ⟨e, _, he⟩ := this
      obtain ⟨-, rfl⟩ := Prod.mk.injEq .. ▸ he
      rfl
  rw [this]
  omega

theorem seeds_mem (m : List (Str × Int)) (hnd : (m.map Prod.fst).Nodup) (n : Str) :
    n ∈ seeds m ↔ alookup m n = some 0 := by
  unfold seeds
  simp only [List.mem_map, List.mem_filter]
  constructor
  · rintro ⟨e, ⟨hm, hz⟩, rfl⟩
    have : e.2 = 0 := by simpa using hz
    exact alookup_eq_some_of_mem m e.1 e.2 hnd hm ▸ congrArg some this
  · intro h
    exact ⟨(n, 0), ⟨alookup_mem _ _ _ h, by simp⟩, rfl⟩

theorem seeds_sublist (m : List (Str × Int)) : (seeds m).Sublist (m.map Prod.fst) :=
  List.Sublist.map Prod.fst (List.filter_sublist m)

theorem mem_filterKeys_iff (g : DAGL) (hnd : (g.map Prod.fst).Nodup)
    (P : Str × Target → Bool) (n : Str) :
    n ∈ (g.filter P).map Prod.fst ↔ ∃ t, alookup g n = some t ∧ P (n, t) := by
  simp only [List.mem_map, List.mem_filter]
  constructor
  · rintro ⟨e, ⟨hm, hp⟩, rfl⟩
    exact ⟨e.2, alookup_eq_some_of_mem g e.1 e.2 hnd hm, hp⟩
  · rintro ⟨t, hl, hp⟩
    exact ⟨(n, t), ⟨alookup_mem _ _ _ hl, hp⟩, rfl⟩

theorem kahnPop_go (current : Str) (l : List (Str × Target))
    (inDeg : List (Str × Int)) (queue : List Str)
    (hnd : (l.map Prod.fst).Nodup) (hkeys : ∀ e ∈ l, e.1 ∈ inDeg.map Prod.fst) :
    ((l.foldl (fun st e =>
        if current ∈ e.2.dependencies then
          (aset st.1 e.1 (aget0 st.1 e.1 - 1),
           if aget0 st.1 e.1 - 1 = 0 then st.2 ++ [e.1] else st.2)
        else st) (inDeg, queue)).1.map Prod.fst = inDeg.map Prod.fst) ∧
    (∀ n, aget0 ((l.foldl (fun st e =>
        if current ∈ e.2.dependencies then
          (aset st.1 e.1 (aget0 st.1 e.1 - 1),
           if aget0 st.1 e.1 - 1 = 0 then st.2 ++ [e.1] else st.2)
        else st) (inDeg, queue)).1) n =
      aget0 inDeg n -
        if n ∈ (l.filter (fun e => decide (current ∈ e.2.dependencies))).map Prod.fst
        then 1 else 0) ∧
    ((l.foldl (fun st e =>
        if current ∈ e.2.dependencies then
          (aset st.1 e.1 (aget0 st.1 e.1 - 1),
           if aget0 st.1 e.1 - 1 = 0 then st.2 ++ [e.1] else st.2)
        else st) (inDeg, queue)).2 = queue ++
      (l.filter (fun e => decide (current ∈ e.2.dependencies) &&
        decide (aget0 inDeg e.1 = 1))).map Prod.fst) := by
  induction l generalizing inDeg queue with
  | nil => simp
  | cons e rest ih =>
    simp only [List.map_cons, List.nodup_cons] at hnd
    by_cases hcur : current ∈ e.2.dependencies
    · have hstep : List.foldl (fun st e =>
          if current ∈ e.2.dependencies then
            (aset st.1 e.1 (aget0 st.1 e.1 - 1),
             if aget0 st.1 e.1 - 1 = 0 then st.2 ++ [e.1] else st.2)
          else st) (inDeg, queue) (e :: rest) =
          List.foldl (fun st e =>
            if current ∈ e.2.dependencies then
              (aset st.1 e.1 (aget0 st.1 e.1 - 1),
               if aget0 st.1 e.1 - 1 = 0 then st.2 ++ [e.1] else st.2)
            else st)
            (aset inDeg e.1 (aget0 inDeg e.1 - 1),
             if aget0 inDeg e.1 - 1 = 0 then queue ++ [e.1] else queue) rest := by
        rw [List.foldl_cons, if_pos hcur]
      have hkm1 : (aset inDeg e.1 (aget0 inDeg e.1 - 1)).map Prod.fst =
          inDeg.map Prod.fst :=
        aset_keys inDeg e.1 _ (hkeys e (List.mem_cons_self _ _))
      have hrest : ∀ e' ∈ rest, e'.1 ∈
          (aset inDeg e.1 (aget0 inDeg e.1 - 1)).map Prod.fst := by
        intro e' he'
        rw [hkm1]
        exact hkeys e' (List.mem_cons_of_mem _ he')
      have hne1 : ∀ e' ∈ rest, ¬ e'.1 = e.1 := by
        intro e' he' hc
        exact hnd.1 (hc ▸ List.mem_map_of_mem Prod.fst he')
      have hagree : ∀ e' ∈ rest, aget0 (aset inDeg e.1 (aget0 inDeg e.1 - 1)) e'.1 =
          aget0 inDeg e'.1 := by
        intro e' he'
        rw [aget0_aset]
        have h2 : ¬ e.1 = e'.1 := fun hc => hne1 e' he' hc.symm
        simp [h2]
      obtain ⟨ihk, ihv, ihq⟩ := ih
        (aset inDeg e.1 (aget0 inDeg e.1 - 1))
        (if aget0 inDeg e.1 - 1 = 0 then queue ++ [e.1] else queue) hnd.2 hrest
      have hfcons : (e :: rest).filter (fun e' => decide (current ∈ e'.2.dependencies)) =
          e :: rest.filter (fun e' => decide (current ∈ e'.2.dependencies)) :=
        List.filter_cons_of_pos (decide_eq_true hcur)
      have hnotrest : ¬ e.1 ∈ (rest.filter
          (fun e' => decide (current ∈ e'.2.dependencies))).map Prod.fst := by
        intro hc
        simp only [List.mem_map, List.mem_filter] at hc
        obtain ⟨e', ⟨he', -⟩, he1⟩ := hc
        exact hne1 e' he' he1
      rw [hstep]
      refine ⟨by rw [ihk, hkm1], fun n => ?_, ?_⟩
      · rw [ihv n, hfcons]
        by_cases hn : e.1 = n
        · subst hn
          rw [if_neg hnotrest, aget0_aset, if_pos rfl]
          have hmem : e.1 ∈ (e :: rest.filter
              (fun e' => decide (current ∈ e'.2.dependencies))).map Prod.fst := by
            simp only [List.map_cons]
            exact List.mem_cons_self _ _
          rw [if_pos hmem]
          omega
        · have heq2 : aget0 (aset inDeg e.1 (aget0 inDeg e.1 - 1)) n = aget0 inDeg n := by
            rw [aget0_aset, if_neg hn]
          rw [heq2]
          have hiff : n ∈ (rest.filter
                (fun e' => decide (current ∈ e'.2.dependencies))).map Prod.fst ↔
              n ∈ (e :: rest.filter
                (fun e' => decide (current ∈ e'.2.dependencies))).map Prod.fst := by
            simp only [List.map_cons, List.mem_cons]
            constructor
            · exact Or.inr
            · intro h2
              rcases h2 with h2 | h2
              · exact absurd h2.symm hn
              · exact h2
          by_cases hmem : n ∈ (rest.filter
              (fun e' => decide (current ∈ e'.2.dependencies))).map Prod.fst
          · rw [if_pos hmem, if_pos (hiff.mp hmem)]
          · rw [if_neg hmem, if_neg (fun hc => hmem (hiff.mpr hc))]
      · rw [ihq]
        have hfc : rest.filter (fun e' => decide (current ∈ e'.2.dependencies) &&
              decide (aget0 (aset inDeg e.1 (aget0 inDeg e.1 - 1)) e'.1 = 1)) =
            rest.filter (fun e' => decide (current ∈ e'.2.dependencies) &&
              decide (aget0 inDeg e'.1 = 1)) := by
          apply List.filter_congr
          intro e' he'
          rw [hagree e' he']
        rw [hfc]
        by_cases hz : aget0 inDeg e.1 - 1 = 0
        · have hv1 : aget0 inDeg e.1 = 1 := by omega
          have hP2 : (e :: rest).filter (fun e' => decide (current ∈ e'.2.dependencies) &&
                decide (aget0 inDeg e'.1 = 1)) =
              e :: rest.filter (fun e' => decide (current ∈ e'.2.dependencies) &&
                decide (aget0 inDeg e'.1 = 1)) := by
            apply List.filter_cons_of_pos
            simp [hcur, hv1]
          rw [if_pos hz, hP2]
          simp
        · have hv1 : ¬ aget0 inDeg e.1 = 1 := by omega
          have hP2 : (e :: rest).filter (fun e' => decide (current ∈ e'.2.dependencies) &&
                decide (aget0 inDeg e'.1 = 1)) =
              rest.filter (fun e' => decide (current ∈ e'.2.dependencies) &&
                decide (aget0 inDeg e'.1 = 1)) := by
            apply List.filter_cons_of_neg
            simp [hv1]
          rw [if_neg hz, hP2]
    · have hstep : List.foldl (fun st e =>
          if current ∈ e.2.dependencies then
            (aset st.1 e.1 (aget0 st.1 e.1 - 1),
             if aget0 st.1 e.1 - 1 = 0 then st.2 ++ [e.1] else st.2)
          else st) (inDeg, queue) (e :: rest) =
          List.foldl (fun st e =>
            if current ∈ e.2.dependencies then
              (aset st.1 e.1 (aget0 st.1 e.1 - 1),
               if aget0 st.1 e.1 - 1 = 0 then st.2 ++ [e.1] else st.2)
            else st) (inDeg, queue) rest := by
        rw [List.foldl_cons, if_neg hcur]
      obtain ⟨ihk, ihv, ihq⟩ := ih inDeg queue hnd.2
        (fun e' he' => hkeys e' (List.mem_cons_of_mem _ he'))
      have hf1 : (e :: rest).filter (fun e' => decide (current ∈ e'.2.dependencies)) =
          rest.filter (fun e' => decide (current ∈ e'.2.dependencies)) :=
        List.filter_cons_of_neg (by simp [hcur])
      have hf2 : (e :: rest).filter (fun e' => decide (current ∈ e'.2.dependencies) &&
            decide (aget0 inDeg e'.1 = 1)) =
          rest.filter (fun e' => decide (current ∈ e'.2.dependencies) &&
            decide (aget0 inDeg e'.1 = 1)) :=
        List.filter_cons_of_neg (by simp [hcur])
      rw [hstep, hf1, hf2]
      exact ⟨ihk, ihv, ihq⟩

theorem kahnPop_spec (g : DAGL) (current : Str) (inDeg : List (Str × Int)) (queue : List Str)
    (hnd : (g.map Prod.fst).Nodup) (hkeys : ∀ e ∈ g, e.1 ∈ inDeg.map Prod.fst) :
    ((kahnPop g current (inDeg, queue)).1.map Prod.fst = inDeg.map Prod.fst) ∧
    (∀ n, aget0 (kahnPop g current (inDeg, queue)).1 n = aget0 inDeg n -
      if n ∈ (g.filter (fun e => decide (current ∈ e.2.dependencies))).map Prod.fst
      then 1 else 0) ∧
    ((kahnPop g current (inDeg, queue)).2 = queue ++
      (g.filter (fun e => decide (current ∈ e.2.dependencies) &&
        decide (aget0 inDeg e.1 = 1))).map Prod.fst) :=
  kahnPop_go current g inDeg queue hnd hkeys

theorem nodup_length_le (l l' : List Str) (h : l.Nodup) (hsub : ∀ a ∈ l, a ∈ l') :
    l.length ≤ l'.length := by
  calc l.length = l.toFinset.card := (List.toFinset_card_of_nodup h).symm
    _ ≤ l'.toFinset.card := Finset.card_le_card
        (fun a ha => List.mem_toFinset.mpr (hsub a (List.mem_toFinset.mp ha)))
    _ ≤ l'.length := l'.toFinset_card_le

theorem nodup_of_filter_mem_length (T D : List Str) (hT : T.Nodup)
    (hlen : (T.filter (fun p => decide (p ∈ D))).length = D.length) :
    ∀ d ∈ D, d ∈ T := by
  have hFnd : (T.filter (fun p => decide (p ∈ D))).Nodup := hT.filter _
  have hFsub : ∀ x ∈ T.filter (fun p => decide (p ∈ D)), x ∈ D := by
    intro x hx
    have := List.mem_filter.mp hx
    simpa using this.2
  have hFT : ∀ x ∈ T.filter (fun p => decide (p ∈ D)), x ∈ T :=
    fun x hx => List.mem_of_mem_filter hx
  have hcard1 : (T.filter (fun p => decide (p ∈ D))).length =
      (T.filter (fun p => decide (p ∈ D))).toFinset.card :=
    (List.toFinset_card_of_nodup hFnd).symm
  have hsub1 : (T.filter (fun p => decide (p ∈ D))).toFinset ⊆ D.toFinset :=
    fun a ha => List.mem_toFinset.mpr (hFsub a (List.mem_toFinset.mp ha))
  have hDcard : D.toFinset.card = D.length := by
    have h1 : (T.filter (fun p => decide (p ∈ D))).toFinset.card ≤ D.toFinset.card :=
      Finset.card_le_card hsub1
    have h2 : D.toFinset.card ≤ D.length := D.toFinset_card_le
    omega
  intro d hd
  by_contra hdT
  have hsub2 : (T.filter (fun p => decide (p ∈ D))).toFinset ⊆ D.toFinset.erase d := by
    intro a ha
    refine Finset.mem_erase.mpr ⟨fun hc => hdT ?_, hsub1 ha⟩
    exact hc ▸ hFT a (List.mem_toFinset.mp ha)
  have hle : (T.filter (fun p => decide (p ∈ D))).toFinset.card ≤
      (D.toFinset.erase d).card := Finset.card_le_card hsub2
  rw [Finset.card_erase_of_mem (List.mem_toFinset.mpr hd)] at hle
  have hpos : 0 < D.toFinset.card := Finset.card_pos.mpr ⟨d, List.mem_toFinset.mpr hd⟩
  omega

theorem filter_mem_length_eq (T D : List Str) (hT : T.Nodup) (hD : D.Nodup)
    (hsub : ∀ d ∈ D, d ∈ T) :
    (T.filter (fun p => decide (p ∈ D))).length = D.length := by
  have hperm : (T.filter (fun p => decide (p ∈ D))).Perm D := by
    apply List.perm_of_nodup_nodup_toFinset_eq (hT.filter _) hD
    ext a
    simp only [List.mem_toFinset, List.mem_filter, decide_eq_true_eq]
    exact ⟨fun h => h.2, fun h => ⟨hsub a h, h⟩⟩
  exact hperm.length_eq

theorem mem_names_alookup {α : Type} (g : List (Str × α)) (n : Str)
    (h : n ∈ g.map Prod.fst) : ∃ t, alookup g n = some t := by
  cases hl : alookup g n with
  | none => exact absurd h ((alookup_none_iff g n).mp hl)
  | some t => exact ⟨t, rfl⟩

theorem depsOf_not_mem (g : DAGL) (n : Str) (h : ¬ n ∈ g.map Prod.fst) :
    depsOf g n = [] := by
  unfold depsOf
  rw [(alookup_none_iff g n).mpr h]

theorem mem_F1_iff (g : DAGL) (hnd : (g.map Prod.fst).Nodup) (current n : Str) :
    (n ∈ (g.filter (fun e => decide (current ∈ e.2.dependencies))).map Prod.fst) ↔
      (n ∈ g.map Prod.fst ∧ current ∈ depsOf g n) := by
  rw [mem_filterKeys_iff g hnd]
  constructor
  · rintro ⟨t, hl, hp⟩
    refine ⟨?_, ?_⟩
    · exact List.mem_map_of_mem Prod.fst (alookup_mem _ _ _ hl)
    · unfold depsOf
      rw [hl]
      simpa using hp
  · rintro ⟨hnm, hdep⟩
    obtain ⟨t, hl⟩ := mem_names_alookup g n hnm
    refine ⟨t, hl, ?_⟩
    unfold depsOf at hdep
    rw [hl] at hdep
    simpa using hdep

theorem mem_EXT_iff (g : DAGL) (hnd : (g.map Prod.fst).Nodup)
    (inDeg : List (Str × Int)) (current n : Str) :
    (n ∈ (g.filter (fun e => decide (current ∈ e.2.dependencies) &&
      decide (aget0 inDeg e.1 = 1))).map Prod.fst) ↔
      (n ∈ g.map Prod.fst ∧ current ∈ depsOf g n ∧ aget0 inDeg n = 1) := by
  rw [mem_filterKeys_iff g hnd]
  constructor
  · rintro ⟨t, hl, hp⟩
    simp only [Bool.and_eq_true, decide_eq_true_eq] at hp
    refine ⟨List.mem_map_of_mem Prod.fst (alookup_mem _ _ _ hl), ?_, hp.2⟩
    unfold depsOf
    rw [hl]
    exact hp.1
  · rintro ⟨hnm, hdep, hv⟩
    obtain ⟨t, hl⟩ := mem_names_alookup g n hnm
    refine ⟨t, hl, ?_⟩
    simp only [Bool.and_eq_true, decide_eq_true_eq]
    unfold depsOf at hdep
    rw [hl] at hdep
    exact ⟨hdep, hv⟩

theorem KInv_step (g : DAGL) (hwf : WFdag g) (inDeg : List (Str × Int)) (queue : List Str)
    (idx : Nat) (h : KInv g inDeg queue idx) (hlt : idx < queue.length) :
    KInv g (kahnPop g (queue.get ⟨idx, hlt⟩) (inDeg, queue)).1
      (kahnPop g (queue.get ⟨idx, hlt⟩) (inDeg, queue)).2 (idx + 1) := by
  set current := queue.get ⟨idx, hlt⟩ with hcur
  have hkeys : ∀ e ∈ g, e.1 ∈ inDeg.map Prod.fst := by
    intro e he
    rw [h.keys]
    exact List.mem_map_of_mem Prod.fst he
  obtain ⟨hK, hV, hQ⟩ := kahnPop_spec g current inDeg queue hwf.1 hkeys
  have hextnd : ((g.filter (fun e => decide (current ∈ e.2.dependencies) &&
      decide (aget0 inDeg e.1 = 1))).map Prod.fst).Nodup :=
    ((List.filter_sublist g).map Prod.fst).nodup hwf.1
  have hdisj : ∀ n ∈ (g.filter (fun e => decide (current ∈ e.2.dependencies) &&
      decide (aget0 inDeg e.1 = 1))).map Prod.fst, n ∉ queue := by
    intro n hn hq
    obtain ⟨hnm, -, hv⟩ := (mem_EXT_iff g hwf.1 inDeg current n).mp hn
    have := (h.inq n hnm).mp hq
    omega
  have hconcat : queue.take idx ++ [current] = queue.take (idx + 1) := by
    have := List.take_concat_get queue idx hlt
    rw [List.concat_eq_append] at this
    rw [hcur, List.get_eq_getElem]
    exact this
  have htake : (kahnPop g current (inDeg, queue)).2.take (idx + 1) =
      queue.take idx ++ [current] := by
    rw [hQ, List.take_append_of_le_length (by omega), hconcat]
  have hind : ∀ n, (if n ∈ (g.filter (fun e => decide (current ∈ e.2.dependencies))).map
      Prod.fst then (1 : Int) else 0) = if current ∈ depsOf g n then 1 else 0 := by
    intro n
    by_cases hnm : n ∈ g.map Prod.fst
    · by_cases hdep : current ∈ depsOf g n
      · rw [if_pos ((mem_F1_iff g hwf.1 current n).mpr ⟨hnm, hdep⟩), if_pos hdep]
      · rw [if_neg (fun hc => hdep ((mem_F1_iff g hwf.1 current n).mp hc).2), if_neg hdep]
    · rw [if_neg (fun hc => hnm ((mem_F1_iff g hwf.1 current n).mp hc).1)]
      rw [depsOf_not_mem g n hnm]
      simp
  refine ⟨?_, ?_, ?_, ?_, ?_, ?_, ?_⟩
  · rw [hK, h.keys]
  · rw [hQ]
    simp only [List.length_append]
    omega
  · rw [hQ]
    rw [List.nodup_append]
    exact ⟨h.qnd, hextnd, fun a ha hb => hdisj a hb ha⟩
  · intro n hn
    rw [hQ] at hn
    rcases List.mem_append.mp hn with hn | hn
    · exact h.qmem n hn
    · exact ((mem_EXT_iff g hwf.1 inDeg current n).mp hn).1
  · intro n
    rw [hV n, htake, h.deg n, hind n]
    rw [List.filter_append]
    simp only [List.length_append]
    by_cases hdep : current ∈ depsOf g n
    · rw [if_pos hdep]
      have : ([current].filter (fun p => decide (p ∈ depsOf g n))).length = 1 := by
        simp [List.filter, hdep]
      rw [this]
      push_cast
      ring
    · rw [if_neg hdep]
      have : ([current].filter (fun p => decide (p ∈ depsOf g n))).length = 0 := by
        simp [List.filter, hdep]
      rw [this]
      push_cast
      ring
  · intro n hnm
    rw [hQ, hV n, hind n]
    constructor
    · intro hn
      rcases List.mem_append.mp hn with hn | hn
      · have hle := (h.inq n hnm).mp hn
        by_cases hdep : current ∈ depsOf g n
        · rw [if_pos hdep]; omega
        · rw [if_neg hdep]; omega
      · obtain ⟨-, hdep, hv⟩ := (mem_EXT_iff g hwf.1 inDeg current n).mp hn
        rw [if_pos hdep]
        omega
    · intro hle
      by_cases hq : n ∈ queue
      · exact List.mem_append.mpr (Or.inl hq)
      · have hge : 1 ≤ aget0 inDeg n := by
          have hneg : ¬ aget0 inDeg n ≤ 0 := fun hc => hq ((h.inq n hnm).mpr hc)
          omega
        by_cases hdep : current ∈ depsOf g n
        · rw [if_pos hdep] at hle
          have hv1 : aget0 inDeg n = 1 := by omega
          exact List.mem_append.mpr (Or.inr
            ((mem_EXT_iff g hwf.1 inDeg current n).mpr ⟨hnm, hdep, hv1⟩))
        · rw [if_neg hdep] at hle
          omega
  · show DepsFirst g (kahnPop g current (inDeg, queue)).2
    rw [hQ]
    intro j hj d hd
    by_cases hjq : j < queue.length
    · have hget : (queue ++ (g.filter (fun e => decide (current ∈ e.2.dependencies) &&
          decide (aget0 inDeg e.1 = 1))).map Prod.fst).get ⟨j, hj⟩ =
          queue.get ⟨j, hjq⟩ := by
        rw [List.get_eq_getElem, List.get_eq_getElem]
        exact List.getElem_append_left hjq
      rw [hget] at hd
      obtain ⟨i, hi, hij, heq⟩ := h.order j hjq d hd
      have hi' : i < (queue ++ (g.filter (fun e => decide (current ∈ e.2.dependencies) &&
          decide (aget0 inDeg e.1 = 1))).map Prod.fst).length := by
        simp only [List.length_append]
        omega
      refine ⟨i, hi', hij, ?_⟩
      rw [List.get_eq_getElem, List.getElem_append_left hi]
      exact heq
    · -- the element at j is a freshly enqueued name whose in-degree just hit zero
      set n := (queue ++ (g.filter (fun e => decide (current ∈ e.2.dependencies) &&
          decide (aget0 inDeg e.1 = 1))).map Prod.fst).get ⟨j, hj⟩ with hn
      have hnext : n ∈ (g.filter (fun e => decide (current ∈ e.2.dependencies) &&
          decide (aget0 inDeg e.1 = 1))).map Prod.fst := by
        rw [hn, List.get_eq_getElem]
        rw [List.getElem_append_right (Nat.le_of_not_lt hjq)]
        exact List.getElem_mem _
      obtain ⟨hnm, hdep, hv⟩ := (mem_EXT_iff g hwf.1 inDeg current n).mp hnext
      have hdeg := h.deg n
      rw [hv] at hdeg
      -- the popped prefix plus `current` covers every dependency of n
      have hcnt : (((queue.take idx ++ [current]).filter
          (fun p => decide (p ∈ depsOf g n))).length) = (depsOf g n).length := by
        rw [List.filter_append]
        have hc1 : ([current].filter (fun p => decide (p ∈ depsOf g n))).length = 1 := by
          simp [List.filter, hdep]
        simp only [List.length_append, hc1]
        omega
      have htnd : (queue.take idx ++ [current]).Nodup := by
        rw [hconcat]
        exact h.qnd.sublist (List.take_sublist _ _)
      have hall := nodup_of_filter_mem_length _ _ htnd hcnt
      have hdT : d ∈ queue.take (idx + 1) := hconcat ▸ hall d hd
      rw [List.mem_take_iff_getElem] at hdT
      obtain ⟨i, him, hieq⟩ := hdT
      have hiq : i < queue.length := Nat.lt_of_lt_of_le him (Nat.min_le_right _ _)
      have hii : i < idx + 1 := Nat.lt_of_lt_of_le him (Nat.min_le_left _ _)
      refine ⟨i, by simp only [List.length_append]; omega, by omega, ?_⟩
      rw [List.get_eq_getElem, List.getElem_append_left hiq]
      exact hieq

/-- A finite nonempty set of nodes in which every node has a successor
inside the set contains a directed cycle. -/
theorem exists_transGen_self (g : DAGL) (S : Finset Str) (hne : S.Nonempty)
    (hsucc : ∀ a ∈ S, ∃ b ∈ S, Edge g a b) :
    ∃ a, Relation.TransGen (Edge g) a a := by
  by_contra hc
  push_neg at hc
  let r : {x // x ∈ S} → {x // x ∈ S} → Prop := fun x y => Edge g y.val x.val
  have hmap : ∀ x y : {x // x ∈ S}, Relation.TransGen r x y →
      Relation.TransGen (Edge g) y.val x.val := by
    intro x y hxy
    induction hxy with
    | single h1 => exact Relation.TransGen.single h1
    | tail _ h2 ih => exact Relation.TransGen.head h2 ih
  have hirr : ∀ x, ¬ Relation.TransGen r x x := by
    intro x hx
    exact hc x.val (hmap x x hx)
  have htr : Transitive (Relation.TransGen r) := fun _ _ _ h1 h2 => h1.trans h2
  have hwf2 : WellFounded (Relation.TransGen r) := by
    have : IsTrans {x // x ∈ S} (Relation.TransGen r) := ⟨htr⟩
    have : IsIrrefl {x // x ∈ S} (Relation.TransGen r) := ⟨hirr⟩
    exact Finite.wellFounded_of_trans_of_irrefl _
  have hwfr : WellFounded r := Subrelation.wf (fun h => Relation.TransGen.single h) hwf2
  obtain ⟨a0, ha0⟩ := hne
  obtain ⟨a, -, ha⟩ := hwfr.has_min Set.univ ⟨⟨a0, ha0⟩, Set.mem_univ _⟩
  obtain ⟨b, hbS, hE⟩ := hsucc a.val a.prop
  exact ha ⟨b, hbS⟩ (Set.mem_univ _) hE

/-- A rank function decreasing along every declared dependency certifies
acyclicity. -/
theorem acyclic_of_rank (g : DAGL) (rank : Str → Nat)
    (h : ∀ e ∈ g, ∀ d ∈ e.2.dependencies, rank d < rank e.1) : Acyclic g := by
  have hstep : ∀ a b, Edge g a b → rank b < rank a := by
    intro a b hE
    unfold Edge depsOf at hE
    cases hl : alookup g a with
    | none => rw [hl] at hE; simp at hE
    | some t =>
      rw [hl] at hE
      exact h (a, t) (alookup_mem _ _ _ hl) b hE
  intro a ha
  have hdec : ∀ x y, Relation.TransGen (Edge g) x y → rank y < rank x := by
    intro x y hxy
    induction hxy with
    | single h1 => exact hstep _ _ h1
    | tail _ h2 ih => exact lt_trans (hstep _ _ h2) ih
  exact lt_irrefl _ (hdec a a ha)

theorem KInv_init (g : DAGL) (hwf : WFdag g) :
    KInv g (initInDegree g) (seeds (initInDegree g)) 0 := by
  obtain ⟨hk, hv⟩ := initInDegree_spec g hwf
  have hnd : ((initInDegree g).map Prod.fst).Nodup := by
    rw [hk]
    exact hwf.1
  refine ⟨hk, Nat.zero_le _, ?_, ?_, ?_, ?_, ?_⟩
  · exact (seeds_sublist (initInDegree g)).nodup hnd
  · intro n hn
    rw [← hk]
    exact (seeds_sublist (initInDegree g)).subset hn
  · intro n
    rw [hv n]
    simp
  · intro n hnm
    rw [seeds_mem (initInDegree g) hnd n]
    constructor
    · intro hl
      unfold aget0
      rw [hl]
      simp
    · intro hle
      have := hv n
      have hz : aget0 (initInDegree g) n = 0 := by omega
      have hmem : n ∈ (initInDegree g).map Prod.fst := by rw [hk]; exact hnm
      obtain ⟨v, hlv⟩ := mem_names_alookup (initInDegree g) n hmem
      unfold aget0 at hz
      rw [hlv] at hz
      simp at hz
      rw [hlv, hz]
  · intro j hj d hd
    exfalso
    have hz := hv (((seeds (initInDegree g))).get ⟨j, hj⟩)
    have hmem := (seeds_mem (initInDegree g) hnd
      ((seeds (initInDegree g)).get ⟨j, hj⟩)).mp (List.get_mem _ j hj)
    unfold aget0 at hz
    rw [hmem] at hz
    have hz2 : (depsOf g ((seeds (initInDegree g)).get ⟨j, hj⟩)).length = 0 := by
      have : ((depsOf g ((seeds (initInDegree g)).get ⟨j, hj⟩)).length : Int) = 0 := by
        rw [← hz]
        rfl
      exact_mod_cast this
    have hnil : depsOf g ((seeds (initInDegree g)).get ⟨j, hj⟩) = [] :=
      List.length_eq_zero.mp hz2
    rw [hnil] at hd
    simp at hd

theorem kahnLoop_run (g : DAGL) (hwf : WFdag g) :
    ∀ (fuel : Nat) (inDeg : List (Str × Int)) (queue : List Str) (idx : Nat),
      KInv g inDeg queue idx → g.length ≤ fuel + idx →
      ∃ inDeg' queue', kahnLoop g fuel inDeg queue idx (queue.take idx) = queue' ∧
        KInv g inDeg' queue' queue'.length := by
  intro fuel
  induction fuel with
  | zero =>
    intro inDeg queue idx h hfuel
    have hqlen : queue.length ≤ g.length := by
      have := nodup_length_le queue (g.map Prod.fst) h.qnd h.qmem
      simpa using this
    have hidx : idx = queue.length := le_antisymm h.idxle (by omega)
    subst hidx
    exact ⟨inDeg, queue, by simp [kahnLoop, List.take_length], h⟩
  | succ fuel ih =>
    intro inDeg queue idx h hfuel
    by_cases hlt : idx < queue.length
    · have hstep := KInv_step g hwf inDeg queue idx h hlt
      have htake : (kahnPop g (queue.get ⟨idx, hlt⟩) (inDeg, queue)).2.take (idx + 1) =
          queue.take idx ++ [queue.get ⟨idx, hlt⟩] := by
        obtain ⟨hK, hV, hQ⟩ := kahnPop_spec g (queue.get ⟨idx, hlt⟩) inDeg queue hwf.1
          (fun e he => h.keys ▸ List.mem_map_of_mem Prod.fst he)
        rw [hQ, List.take_append_of_le_length (by omega)]
        have := List.take_concat_get queue idx hlt
        rw [List.concat_eq_append] at this
        rw [List.get_eq_getElem]
        exact this.symm
      obtain ⟨inDeg', queue', heq, hinv⟩ := ih
        (kahnPop g (queue.get ⟨idx, hlt⟩) (inDeg, queue)).1
        (kahnPop g (queue.get ⟨idx, hlt⟩) (inDeg, queue)).2
        (idx + 1) hstep (by omega)
      refine ⟨inDeg', queue', ?_, hinv⟩
      rw [kahnLoop, dif_pos hlt, ← heq, htake]
    · have hidx : idx = queue.length := le_antisymm h.idxle (Nat.le_of_not_lt hlt)
      subst hidx
      refine ⟨inDeg, queue, ?_, by simpa using h⟩
      rw [kahnLoop, dif_neg (by omega), List.take_length]

/-- C1 (amended): for every well-formed DAG that is dependency-closed, whose
targets list no dependency twice, and whose induced graph is acyclic,
`topologicalSort` returns a permutation of all target names in
dependencies-first order. -/
theorem topologicalSort_correct (g : DAGL) (hwf : WFdag g) (hacyc : Acyclic g)
    (hclosed : ∀ e ∈ g, ∀ d ∈ e.2.dependencies, d ∈ g.map Prod.fst)
    (hnodupdeps : ∀ e ∈ g, e.2.dependencies.Nodup) :
    (topologicalSort g).Perm (g.map Prod.fst) ∧ DepsFirst g (topologicalSort g) := by
  obtain ⟨inDeg', Q, heq, hfin⟩ := kahnLoop_run g hwf g.length (initInDegree g)
    (seeds (initInDegree g)) 0 (KInv_init g hwf) (by omega)
  have hts : topologicalSort g = Q := heq
  have hdeps : ∀ n ∈ g.map Prod.fst,
      (∀ d ∈ depsOf g n, d ∈ g.map Prod.fst) ∧ (depsOf g n).Nodup := by
    intro n hn
    obtain ⟨t, hl⟩ := mem_names_alookup g n hn
    have hmem := alookup_mem _ _ _ hl
    have hd : depsOf g n = t.dependencies := by unfold depsOf; rw [hl]
    rw [hd]
    exact ⟨hclosed (n, t) hmem, hnodupdeps (n, t) hmem⟩
  have hsub : ∀ n ∈ g.map Prod.fst, n ∈ Q := by
    by_contra hc
    push_neg at hc
    obtain ⟨n0, hn0m, hn0q⟩ := hc
    have hS : ∀ a, a ∈ (g.map Prod.fst).toFinset.filter (fun n => decide (¬ n ∈ Q)) ↔
        (a ∈ g.map Prod.fst ∧ ¬ a ∈ Q) := by
      intro a
      simp [Finset.mem_filter]
    have hne : ((g.map Prod.fst).toFinset.filter (fun n => decide (¬ n ∈ Q))).Nonempty :=
      ⟨n0, (hS n0).mpr ⟨hn0m, hn0q⟩⟩
    have hsucc : ∀ a ∈ (g.map Prod.fst).toFinset.filter (fun n => decide (¬ n ∈ Q)),
        ∃ b ∈ (g.map Prod.fst).toFinset.filter (fun n => decide (¬ n ∈ Q)), Edge g a b := by
      intro a haS
      obtain ⟨ham, haq⟩ := (hS a).mp haS
      have hval : 1 ≤ aget0 inDeg' a := by
        have hneg : ¬ aget0 inDeg' a ≤ 0 := fun hc2 => haq ((hfin.inq a ham).mpr hc2)
        omega
      have hdega := hfin.deg a
      rw [List.take_length] at hdega
      have hlt : ((Q.filter (fun p => decide (p ∈ depsOf g a))).length) <
          (depsOf g a).length := by omega
      by_contra hcb
      push_neg at hcb
      have hcov : ∀ d ∈ depsOf g a, d ∈ Q := by
        intro d hd
        by_contra hdq
        have hdm : d ∈ g.map Prod.fst := (hdeps a ham).1 d hd
        exact hcb d ((hS d).mpr ⟨hdm, hdq⟩) hd
      have := filter_mem_length_eq Q (depsOf g a) hfin.qnd (hdeps a ham).2 hcov
      omega
    obtain ⟨a, ha⟩ := exists_transGen_self g _ hne hsucc
    exact hacyc a ha
  constructor
  · rw [hts]
    apply List.perm_of_nodup_nodup_toFinset_eq hfin.qnd hwf.1
    ext a
    simp only [List.mem_toFinset]
    exact ⟨fun h2 => hfin.qmem a h2, fun h2 => hsub a h2⟩
  · rw [hts]
    exact hfin.order

/-- Witness for `topologicalSort_correct` on the two-target chain B → A. -/
theorem topologicalSort_correct_witness :
    WFdag [([65], ⟨[65], [], [], [], [], []⟩), ([66], ⟨[66], [], [], [], [[65]], []⟩)] ∧
    (∀ e ∈ [([65], (⟨[65], [], [], [], [], []⟩ : Target)),
        ([66], ⟨[66], [], [], [], [[65]], []⟩)], ∀ d ∈ e.2.dependencies,
      d ∈ ([([65], (⟨[65], [], [], [], [], []⟩ : Target)),
        ([66], ⟨[66], [], [], [], [[65]], []⟩)]).map Prod.fst) ∧
    ((topologicalSort [([65], ⟨[65], [], [], [], [], []⟩),
        ([66], ⟨[66], [], [], [], [[65]], []⟩)]).Perm
      (([([65], (⟨[65], [], [], [], [], []⟩ : Target)),
        ([66], ⟨[66], [], [], [], [[65]], []⟩)]).map Prod.fst)) :=
  ⟨by decide, by decide,
    (topologicalSort_correct
      [([65], ⟨[65], [], [], [], [], []⟩), ([66], ⟨[66], [], [], [], [[65]], []⟩)]
      (by decide)
      (acyclic_of_rank _ (fun n => if n = [66] then 1 else 0) (by decide))
      (by decide) (by decide)).1⟩

/-- C1 counterexample: the claim fails as stated.  With a duplicate
dependency entry (B depends on A twice) the acyclic graph {A, B} sorts to
just [A]; with a dependency on an unregistered name the target is dropped
as well.  Neither result is a permutation of all target names. -/
theorem topologicalSort_counterexample :
    (Acyclic [([65], ⟨[65], [], [], [], [], []⟩),
        ([66], ⟨[66], [], [], [], [[65], [65]], []⟩)] ∧
     WFdag [([65], ⟨[65], [], [], [], [], []⟩),
        ([66], ⟨[66], [], [], [], [[65], [65]], []⟩)] ∧
     topologicalSort [([65], ⟨[65], [], [], [], [], []⟩),
        ([66], ⟨[66], [], [], [], [[65], [65]], []⟩)] = [[65]] ∧
     ¬ (topologicalSort [([65], ⟨[65], [], [], [], [], []⟩),
        ([66], ⟨[66], [], [], [], [[65], [65]], []⟩)]).Perm
       (([([65], (⟨[65], [], [], [], [], []⟩ : Target)),
        ([66], ⟨[66], [], [], [], [[65], [65]], []⟩)]).map Prod.fst)) ∧
    (Acyclic [([65], ⟨[65], [], [], [], [[103]], []⟩)] ∧
     WFdag [([65], ⟨[65], [], [], [], [[103]], []⟩)] ∧
     topologicalSort [([65], ⟨[65], [], [], [], [[103]], []⟩)] = [] ∧
     ¬ (topologicalSort [([65], ⟨[65], [], [], [], [[103]], []⟩)]).Perm
       (([([65], (⟨[65], [], [], [], [[103]], []⟩ : Target))]).map Prod.fst)) := by
  refine ⟨⟨?_, by decide, by decide, ?_⟩, ⟨?_, by decide, by decide, ?_⟩⟩
  · exact acyclic_of_rank _ (fun n => if n = [66] then 1 else 0) (by decide)
  · intro hp
    have := hp.length_eq
    rw [show topologicalSort [([65], ⟨[65], [], [], [], [], []⟩),
        ([66], ⟨[66], [], [], [], [[65], [65]], []⟩)] = [[65]] from by decide] at this
    simp at this
  · exact acyclic_of_rank _ (fun n => if n = [65] then 1 else 0) (by decide)
  · intro hp
    have := hp.length_eq
    rw [show topologicalSort [([65], ⟨[65], [], [], [], [[103]], []⟩)] = [] from by
      decide] at this
    simp at this

/-! ### DFS cycle detection lemmas -/

theorem idxOfStr_append_of_mem (F G : List Str) (a : Str) (h : a ∈ F) :
    idxOfStr (F ++ G) a = idxOfStr F a := by
  induction F with
  | nil => simp at h
  | cons x rest ih =>
    by_cases hx : x = a
    · simp [idxOfStr, hx]
    · rcases List.mem_cons.mp h with h1 | h1
      · exact absurd h1.symm hx
      · simp [idxOfStr, hx, ih h1]

theorem idxOfStr_append_of_not_mem (F G : List Str) (a : Str) (h : a ∉ F) :
    idxOfStr (F ++ G) a = F.length + idxOfStr G a := by
  induction F with
  | nil => simp
  | cons x rest ih =>
    have hx : ¬ x = a := fun hc => h (hc ▸ List.mem_cons_self _ _)
    have hr : a ∉ rest := fun hc => h (List.mem_cons_of_mem _ hc)
    simp [idxOfStr, hx, ih hr]
    omega

theorem idxOfStr_lt_length (F : List Str) (a : Str) (h : a ∈ F) :
    idxOfStr F a < F.length := by
  induction F with
  | nil => simp at h
  | cons x rest ih =>
    by_cases hx : x = a
    · simp [idxOfStr, hx]
    · rcases List.mem_cons.mp h with h1 | h1
      · exact absurd h1.symm hx
      · simp only [idxOfStr, hx, if_false, List.length_cons]
        exact Nat.succ_lt_succ (ih h1)

theorem orderedClosed_append (g : DAGL) (F : List Str) (node : Str)
    (hoc : OrderedClosed g F) (hnode : node ∉ F)
    (hdeps : ∀ d ∈ depsOf g node, d ∈ F) : OrderedClosed g (F ++ [node]) := by
  intro a ha d hd
  rcases List.mem_append.mp ha with haF | haN
  · obtain ⟨hdF, hlt⟩ := hoc a haF d hd
    refine ⟨List.mem_append_left _ hdF, ?_⟩
    rw [idxOfStr_append_of_mem _ _ _ hdF, idxOfStr_append_of_mem _ _ _ haF]
    exact hlt
  · have haN2 : a = node := by simpa using haN
    subst haN2
    refine ⟨List.mem_append_left _ (hdeps d hd), ?_⟩
    rw [idxOfStr_append_of_mem _ _ _ (hdeps d hd), idxOfStr_append_of_not_mem _ _ _ hnode]
    have hidx := idxOfStr_lt_length F d (hdeps d hd)
    omega

theorem chain'_getLast_transGen (g : DAGL) :
    ∀ (l : List Str) (a : Str), List.Chain' (Edge g) (a :: l) → ∀ h : l ≠ [],
      Relation.TransGen (Edge g) a ((a :: l).getLast (List.cons_ne_nil a l)) := by
  intro l
  induction l with
  | nil => intro a _ h; exact absurd rfl h
  | cons c l' ih =>
    intro a hch h
    rw [List.chain'_cons] at hch
    rw [List.getLast_cons (List.cons_ne_nil c l')]
    by_cases hl' : l' = []
    · subst hl'
      simpa using Relation.TransGen.single hch.1
    · exact Relation.TransGen.head hch.1 (ih c hch.2 hl')

theorem filter_length_mono (l : List Str) (p q : Str → Bool)
    (h : ∀ x ∈ l, q x = true → p x = true) :
    (l.filter q).length ≤ (l.filter p).length := by
  induction l with
  | nil => simp
  | cons x rest ih =>
    have hrest := ih (fun y hy => h y (List.mem_cons_of_mem _ hy))
    cases hq : q x with
    | true =>
      have hp := h x (List.mem_cons_self _ _) hq
      rw [List.filter_cons_of_pos hq, List.filter_cons_of_pos hp]
      simpa using hrest
    | false =>
      rw [List.filter_cons_of_neg (by simp [hq])]
      cases hp : p x with
      | true =>
        rw [List.filter_cons_of_pos hp]
        simp only [List.length_cons]
        omega
      | false =>
        rw [List.filter_cons_of_neg (by simp [hp])]
        exact hrest

theorem filter_length_lt (l : List Str) (p q : Str → Bool) (node : Str)
    (hmono : ∀ x ∈ l, q x = true → p x = true) (hnode : node ∈ l)
    (hp : p node = true) (hq : q node = false) :
    (l.filter q).length < (l.filter p).length := by
  induction l with
  | nil => simp at hnode
  | cons x rest ih =>
    have hmono' : ∀ x ∈ rest, q x = true → p x = true :=
      fun y hy => hmono y (List.mem_cons_of_mem _ hy)
    by_cases hx : x = node
    · subst hx
      rw [List.filter_cons_of_neg (by simp [hq]), List.filter_cons_of_pos hp]
      have := filter_length_mono rest p q hmono'
      simp only [List.length_cons]
      omega
    · have hnode' : node ∈ rest := by
        rcases List.mem_cons.mp hnode with h1 | h1
        · exact absurd h1.symm hx
        · exact h1
      have hrest := ih hmono' hnode'
      cases hqx : q x with
      | true =>
        have hpx := hmono x (List.mem_cons_self _ _) hqx
        rw [List.filter_cons_of_pos hqx, List.filter_cons_of_pos hpx]
        simpa using hrest
      | false =>
        rw [List.filter_cons_of_neg (by simp [hqx])]
        cases hpx : p x with
        | true =>
          rw [List.filter_cons_of_pos hpx]
          simp only [List.length_cons]
          omega
        | false =>
          rw [List.filter_cons_of_neg (by simp [hpx])]
          exact hrest

theorem depsOf_subset_universe (g : DAGL) (n : Str) :
    ∀ d ∈ depsOf g n, d ∈ nodeUniverse g := by
  intro d hd
  unfold depsOf at hd
  cases hl : alookup g n with
  | none => rw [hl] at hd; simp at hd
  | some t =>
    rw [hl] at hd
    unfold nodeUniverse
    refine List.mem_append_right _ ?_
    rw [List.mem_flatMap]
    exact ⟨(n, t), alookup_mem _ _ _ hl, hd⟩

theorem countU_mono (g : DAGL) (v v' : List (Str × Int))
    (h : ∀ n, aget0 v n ≠ 0 → aget0 v' n ≠ 0) : countU g v' ≤ countU g v := by
  apply filter_length_mono
  intro x _ hx
  simp only [decide_eq_true_eq] at hx ⊢
  by_contra hc
  exact h x hc hx

theorem countU_lt (g : DAGL) (v : List (Str × Int)) (node : Str)
    (hmem : node ∈ nodeUniverse g) (hz : aget0 v node = 0) (k : Int) (hk : ¬ k = 0) :
    countU g (aset v node k) < countU g v := by
  apply filter_length_lt _ _ _ node
  · intro x _ hx
    simp only [decide_eq_true_eq] at hx ⊢
    rw [aget0_aset] at hx
    by_cases hxn : node = x
    · exact absurd hx (by rw [if_pos hxn] at hx; exact absurd hx hk)
    · rw [if_neg hxn] at hx
      exact hx
  · exact List.mem_dedup.mpr hmem
  · simp [hz]
  · simp only [decide_eq_false_iff_not]
    rw [aget0_aset, if_pos rfl]
    exact hk

/-- Marks never decrease across a state satisfying a larger `VState`. -/
theorem vstate_mark_mono (g : DAGL) (v v' : List (Str × Int)) (gray F F' : List Str)
    (h1 : VState g v gray F) (h2 : VState g v' gray F') (hFF : ∀ n ∈ F, n ∈ F') :
    ∀ n, aget0 v n ≠ 0 → aget0 v' n ≠ 0 := by
  intro n hn
  obtain ⟨h2f, h2g, h2t, -, -⟩ := h1
  obtain ⟨h2f', h2g', h2t', -, -⟩ := h2
  rcases h2t n with hv | hv | hv
  · exact absurd hv hn
  · have : n ∈ gray := (h2g n).mp hv
    have : aget0 v' n = 1 := (h2g' n).mpr this
    omega
  · have : n ∈ F := (h2f n).mp hv
    have : aget0 v' n = 2 := (h2f' n).mpr (hFF n this)
    omega

theorem vstate_push (g : DAGL) (v : List (Str × Int)) (gray F : List Str) (node : Str)
    (hvs : VState g v gray F) (h0 : aget0 v node = 0) :
    VState g (aset v node 1) (gray ++ [node]) F ∧ node ∉ gray ∧ node ∉ F := by
  obtain ⟨h2, h1, ht, hnd, hoc⟩ := hvs
  have hngray : node ∉ gray := fun hc => by
    have := (h1 node).mpr hc
    omega
  have hnF : node ∉ F := fun hc => by
    have := (h2 node).mpr hc
    omega
  refine ⟨⟨?_, ?_, ?_, hnd, hoc⟩, hngray, hnF⟩
  · intro n
    rw [aget0_aset]
    by_cases hn : node = n
    · subst hn
      simp [hnF]
    · rw [if_neg hn]
      exact h2 n
  · intro n
    rw [aget0_aset]
    by_cases hn : node = n
    · subst hn
      simp
    · rw [if_neg hn]
      rw [h1 n]
      constructor
      · exact fun hg => List.mem_append_left _ hg
      · intro hg
        rcases List.mem_append.mp hg with hg | hg
        · exact hg
        · have hg2 : n = node := by simpa using hg
          exact absurd hg2.symm hn
  · intro n
    rw [aget0_aset]
    by_cases hn : node = n
    · rw [if_pos hn]; omega
    · rw [if_neg hn]; exact ht n

theorem dfs_finish_node (g : DAGL) (node : Str) (v : List (Str × Int)) (gray F : List Str)
    (hvs : VState g v (gray ++ [node]) F)
    (hdone : ∀ d ∈ depsOf g node, d ∈ F)
    (hng : node ∉ gray) :
    ∃ F', VState g (aset v node 2) gray F' ∧ (∃ G, F' = F ++ G) ∧ node ∈ F' := by
  obtain ⟨h2, h1, ht, hnd, hoc⟩ := hvs
  have hv1 : aget0 v node = 1 := (h1 node).mpr (List.mem_append_right _ (by simp))
  have hnF : node ∉ F := fun hc => by
    have := (h2 node).mpr hc
    omega
  refine ⟨F ++ [node], ⟨?_, ?_, ?_, ?_, ?_⟩, ⟨[node], rfl⟩,
    List.mem_append_right _ (by simp)⟩
  · intro n
    rw [aget0_aset]
    by_cases hn : node = n
    · subst hn
      simp
    · rw [if_neg hn, h2 n]
      constructor
      · exact fun hg => List.mem_append_left _ hg
      · intro hg
        rcases List.mem_append.mp hg with hg | hg
        · exact hg
        · have hg2 : n = node := by simpa using hg
          exact absurd hg2.symm hn
  · intro n
    rw [aget0_aset]
    by_cases hn : node = n
    · subst hn
      simp [hng]
    · rw [if_neg hn, h1 n]
      constructor
      · intro hg
        rcases List.mem_append.mp hg with hg | hg
        · exact hg
        · have hg2 : n = node := by simpa using hg
          exact absurd hg2.symm hn
      · exact fun hg => List.mem_append_left _ hg
  · intro n
    rw [aget0_aset]
    by_cases hn : node = n
    · rw [if_pos hn]; omega
    · rw [if_neg hn]; exact ht n
  · rw [List.nodup_append]
    exact ⟨hnd, List.nodup_singleton _, by simpa using hnF⟩
  · exact orderedClosed_append g F node hoc hnF hdone

/-- Clean-return invariant of `hasCycleUtil`/`hasCycleDeps`: a false-returning
call extends the finish list by the node (and everything newly finished),
restoring the recursion stack. -/
theorem dfs_clean_inv (g : DAGL) (fuel : Nat) :
    (∀ node v gray F v', hasCycleUtil g fuel node v gray = .clean v' →
      VState g v gray F → aget0 v node = 0 →
      ∃ F', VState g v' gray F' ∧ (∃ G, F' = F ++ G) ∧ node ∈ F') ∧
    (∀ deps done node v gray F v',
      hasCycleDeps g fuel deps node v (gray ++ [node]) = .clean v' →
      VState g v (gray ++ [node]) F →
      depsOf g node = done ++ deps →
      (∀ d ∈ done, d ∈ F) →
      node ∉ gray →
      ∃ F', VState g v' gray F' ∧ (∃ G, F' = F ++ G) ∧ node ∈ F') := by
  induction fuel with
  | zero =>
    constructor
    · intro node v gray F v' heq
      simp [hasCycleUtil] at heq
    · intro deps
      induction deps with
      | nil =>
        intro done node v gray F v' heq hvs hsplit hdone hng
        simp only [hasCycleDeps, DfsOut.clean.injEq] at heq
        subst heq
        refine dfs_finish_node g node v gray F hvs ?_ hng
        intro d hd
        rw [hsplit] at hd
        exact hdone d (by simpa using hd)
      | cons dep rest ih =>
        intro done node v gray F v' heq hvs hsplit hdone hng
        by_cases h0 : aget0 v dep = 0
        · simp [hasCycleDeps, h0, hasCycleUtil] at heq
        · by_cases h1 : aget0 v dep = 1
          · simp [hasCycleDeps, h0, h1] at heq
          · rw [hasCycleDeps, if_neg h0, if_neg h1] at heq
            have hdF : dep ∈ F := by
              obtain ⟨h2, hg1, ht, -, -⟩ := hvs
              rcases ht dep with hv | hv | hv
              · exact absurd hv h0
              · exact absurd hv h1
              · exact (h2 dep).mp hv
            refine ih (done ++ [dep]) node v gray F v' heq hvs ?_ ?_ hng
            · rw [hsplit]
              simp
            · intro d hd
              rcases List.mem_append.mp hd with hd | hd
              · exact hdone d hd
              · exact (by simpa using hd : d = dep) ▸ hdF
  | succ fuel ihf =>
    have hP : ∀ node v gray F v', hasCycleUtil g (fuel + 1) node v gray = .clean v' →
        VState g v gray F → aget0 v node = 0 →
        ∃ F', VState g v' gray F' ∧ (∃ G, F' = F ++ G) ∧ node ∈ F' := by
      intro node v gray F v' heq hvs h0
      rw [hasCycleUtil] at heq
      obtain ⟨hvs1, hng, -⟩ := vstate_push g v gray F node hvs h0
      exact ihf.2 (depsOf g node) [] node (aset v node 1) gray F v' heq hvs1 rfl
        (by simp) hng
    refine ⟨hP, ?_⟩
    intro deps
    induction deps with
    | nil =>
      intro done node v gray F v' heq hvs hsplit hdone hng
      simp only [hasCycleDeps, DfsOut.clean.injEq] at heq
      subst heq
      refine dfs_finish_node g node v gray F hvs ?_ hng
      intro d hd
      rw [hsplit] at hd
      exact hdone d (by simpa using hd)
    | cons dep rest ih =>
      intro done node v gray F v' heq hvs hsplit hdone hng
      by_cases h0 : aget0 v dep = 0
      · rw [hasCycleDeps, if_pos h0] at heq
        cases hcall : hasCycleUtil g (fuel + 1) dep v (gray ++ [node]) with
        | found cyc => rw [hcall] at heq; simp at heq
        | out => rw [hcall] at heq; simp at heq
        | clean v1 =>
          rw [hcall] at heq
          obtain ⟨F1, hvs1, ⟨G1, hFG1⟩, hdep1⟩ := hP dep v (gray ++ [node]) F v1 hcall hvs h0
          have hdone1 : ∀ d ∈ done ++ [dep], d ∈ F1 := by
            intro d hd
            rcases List.mem_append.mp hd with hd | hd
            · rw [hFG1]
              exact List.mem_append_left _ (hdone d hd)
            · have hd2 : d = dep := by simpa using hd
              exact hd2 ▸ hdep1
          obtain ⟨F2, hvs2, ⟨G2, hFG2⟩, hnode2⟩ := ih (done ++ [dep]) node v1 gray F1 v' heq
            hvs1 (by rw [hsplit]; simp) hdone1 hng
          exact ⟨F2, hvs2, ⟨G1 ++ G2, by rw [hFG2, hFG1, List.append_assoc]⟩, hnode2⟩
      · by_cases h1 : aget0 v dep = 1
        · simp [hasCycleDeps, h0, h1] at heq
        · rw [hasCycleDeps, if_neg h0, if_neg h1] at heq
          have hdF : dep ∈ F := by
            obtain ⟨h2, hg1, ht, -, -⟩ := hvs
            rcases ht dep with hv | hv | hv
            · exact absurd hv h0
            · exact absurd hv h1
            · exact (h2 dep).mp hv
          refine ih (done ++ [dep]) node v gray F v' heq hvs ?_ ?_ hng
          · rw [hsplit]
            simp
          · intro d hd
            rcases List.mem_append.mp hd with hd | hd
            · exact hdone d hd
            · exact (by simpa using hd : d = dep) ▸ hdF

theorem head?_drop_idxOfStr (l : List Str) (a : Str) (h : a ∈ l) :
    (l.drop (idxOfStr l a)).head? = some a := by
  induction l with
  | nil => simp at h
  | cons x rest ih =>
    by_cases hx : x = a
    · simp [idxOfStr, hx]
    · rcases List.mem_cons.mp h with h1 | h1
      · exact absurd h1.symm hx
      · simp only [idxOfStr, hx, if_false, List.drop_succ_cons]
        exact ih h1

theorem getLast?_drop_of_lt (l : List Str) (i : Nat) (h : i < l.length) :
    (l.drop i).getLast? = l.getLast? := by
  induction l generalizing i with
  | nil => simp at h
  | cons x rest ih =>
    cases i with
    | zero => rfl
    | succ i =>
      simp only [List.length_cons, Nat.succ_lt_succ_iff] at h
      rw [List.drop_succ_cons, ih i h]
      have hne : rest ≠ [] := by
        intro hc
        rw [hc] at h
        simp at h
      cases hr : rest with
      | nil => exact absurd hr hne
      | cons y t => simp [List.getLast?_cons_cons]

/-- The cycle extracted when a gray dependency is met is a genuine cycle:
the suffix of the recursion stack from the dependency's first occurrence,
closed with the dependency itself. -/
theorem dfs_extract_good (g : DAGL) (dep node : Str) (v : List (Str × Int))
    (gray F : List Str)
    (hvs : VState g v (gray ++ [node]) F)
    (h1 : aget0 v dep = 1)
    (hdep : dep ∈ depsOf g node)
    (hch : List.Chain' (Edge g) (gray ++ [node])) :
    GoodCycle g (((gray ++ [node]).drop (idxOfStr (gray ++ [node]) dep)) ++ [dep]) := by
  have hmem : dep ∈ gray ++ [node] := (hvs.2.1 dep).mp h1
  have hidx : idxOfStr (gray ++ [node]) dep < (gray ++ [node]).length :=
    idxOfStr_lt_length _ dep hmem
  have hhead : ((gray ++ [node]).drop (idxOfStr (gray ++ [node]) dep)).head? = some dep :=
    head?_drop_idxOfStr _ dep hmem
  have hex : ∃ restD,
      (gray ++ [node]).drop (idxOfStr (gray ++ [node]) dep) = dep :: restD := by
    cases hdrop : (gray ++ [node]).drop (idxOfStr (gray ++ [node]) dep) with
    | nil => rw [hdrop] at hhead; simp at hhead
    | cons d0 restD =>
      rw [hdrop] at hhead
      have hd0 : d0 = dep := by simpa using hhead
      exact ⟨restD, by rw [hd0]⟩
  obtain ⟨restD, hdrop⟩ := hex
  have hchD : List.Chain' (Edge g) (dep :: restD) := by
    rw [← hdrop]
    exact hch.drop _
  have hlastD : (dep :: restD).getLast? = some node := by
    rw [← hdrop, getLast?_drop_of_lt _ _ hidx, List.getLast?_concat]
  have hchain : List.Chain' (Edge g) ((dep :: restD) ++ [dep]) := by
    refine List.Chain'.append hchD (List.chain'_singleton dep) ?_
    intro x hx y hy
    have hy2 : dep = y := by simpa using hy
    have hx2 : node = x := by
      rw [hlastD] at hx
      simpa using hx
    subst hy2
    subst hx2
    exact hdep
  rw [hdrop]
  refine ⟨by simp, ?_, hchain, ?_⟩
  · rw [List.getLast?_concat]
    simp
  · refine ⟨dep, ?_⟩
    have hsh : (dep :: restD) ++ [dep] = dep :: (restD ++ [dep]) := by simp
    rw [hsh] at hchain
    have hne : restD ++ [dep] ≠ [] := by simp
    have htg := chain'_getLast_transGen g (restD ++ [dep]) dep hchain hne
    have hlast2 : (dep :: (restD ++ [dep])).getLast (List.cons_ne_nil _ _) = dep := by
      have hsome := List.getLast?_eq_getLast (dep :: (restD ++ [dep]))
        (List.cons_ne_nil _ _)
      have hsome2 : (dep :: (restD ++ [dep])).getLast? = some dep := by
        rw [show dep :: (restD ++ [dep]) = (dep :: restD) ++ [dep] by simp,
          List.getLast?_concat]
      rw [hsome] at hsome2
      simpa using hsome2.symm
    rw [hlast2] at htg
    exact htg

/-- Found-return soundness of `hasCycleUtil`/`hasCycleDeps`: the extracted
`cycleNodes` list is a genuine cycle over declared edges. -/
theorem dfs_found_cycle (g : DAGL) (fuel : Nat) :
    (∀ node v gray F cyc, hasCycleUtil g fuel node v gray = .found cyc →
      VState g v gray F → aget0 v node = 0 →
      List.Chain' (Edge g) gray →
      (∀ h : gray ≠ [], Edge g (gray.getLast h) node) →
      GoodCycle g cyc) ∧
    (∀ deps node v gray F cyc,
      hasCycleDeps g fuel deps node v (gray ++ [node]) = .found cyc →
      VState g v (gray ++ [node]) F →
      (∀ d ∈ deps, d ∈ depsOf g node) →
      List.Chain' (Edge g) (gray ++ [node]) →
      GoodCycle g cyc) := by
  induction fuel with
  | zero =>
    constructor
    · intro node v gray F cyc heq
      simp [hasCycleUtil] at heq
    · intro deps
      induction deps with
      | nil =>
        intro node v gray F cyc heq
        simp [hasCycleDeps] at heq
      | cons dep rest ih =>
        intro node v gray F cyc heq hvs hdeps hch
        by_cases h0 : aget0 v dep = 0
        · simp [hasCycleDeps, h0, hasCycleUtil] at heq
        · by_cases h1 : aget0 v dep = 1
          · rw [hasCycleDeps, if_neg h0, if_pos h1] at heq
            simp only [DfsOut.found.injEq] at heq
            subst heq
            exact dfs_extract_good g dep node v gray F hvs h1
              (hdeps dep (List.mem_cons_self _ _)) hch
          · rw [hasCycleDeps, if_neg h0, if_neg h1] at heq
            exact ih node v gray F cyc heq hvs
              (fun d hd => hdeps d (List.mem_cons_of_mem _ hd)) hch
  | succ fuel ihf =>
    have hP : ∀ node v gray F cyc, hasCycleUtil g (fuel + 1) node v gray = .found cyc →
        VState g v gray F → aget0 v node = 0 →
        List.Chain' (Edge g) gray →
        (∀ h : gray ≠ [], Edge g (gray.getLast h) node) →
        GoodCycle g cyc := by
      intro node v gray F cyc heq hvs h0 hch hlast
      rw [hasCycleUtil] at heq
      obtain ⟨hvs1, -, -⟩ := vstate_push g v gray F node hvs h0
      refine ihf.2 (depsOf g node) node (aset v node 1) gray F cyc heq hvs1
        (fun d hd => hd) ?_
      refine List.Chain'.append hch (List.chain'_singleton node) ?_
      intro x hx y hy
      have hy2 : node = y := by simpa using hy
      subst hy2
      cases hgr : gray with
      | nil => rw [hgr] at hx; simp at hx
      | cons a t =>
        have hne : gray ≠ [] := by rw [hgr]; simp
        have := hlast hne
        rw [List.getLast?_eq_getLast gray hne] at hx
        have hx2 : gray.getLast hne = x := by simpa using hx
        subst hx2
        exact this
    refine ⟨hP, ?_⟩
    intro deps
    induction deps with
    | nil =>
      intro node v gray F cyc heq
      simp [hasCycleDeps] at heq
    | cons dep rest ih =>
      intro node v gray F cyc heq hvs hdeps hch
      by_cases h0 : aget0 v dep = 0
      · rw [hasCycleDeps, if_pos h0] at heq
        cases hcall : hasCycleUtil g (fuel + 1) dep v (gray ++ [node]) with
        | out => rw [hcall] at heq; simp at heq
        | found cyc1 =>
          rw [hcall] at heq
          simp only [DfsOut.found.injEq] at heq
          subst heq
          refine hP dep v (gray ++ [node]) F cyc1 hcall hvs h0 hch ?_
          intro h
          rw [List.getLast_append_right (by simp : ([node] : List Str) ≠ [])]
          have : ([node] : List Str).getLast (by simp) = node := by simp
          rw [this]
          unfold Edge
          exact hdeps dep (List.mem_cons_self _ _)
        | clean v1 =>
          rw [hcall] at heq
          obtain ⟨F1, hvs1, -, -⟩ := (dfs_clean_inv g (fuel + 1)).1 dep v (gray ++ [node])
            F v1 hcall hvs h0
          exact ih node v1 gray F1 cyc heq hvs1
            (fun d hd => hdeps d (List.mem_cons_of_mem _ hd)) hch
      · by_cases h1 : aget0 v dep = 1
        · rw [hasCycleDeps, if_neg h0, if_pos h1] at heq
          simp only [DfsOut.found.injEq] at heq
          subst heq
          exact dfs_extract_good g dep node v gray F hvs h1
            (hdeps dep (List.mem_cons_self _ _)) hch
        · rw [hasCycleDeps, if_neg h0, if_neg h1] at heq
          exact ih node v gray F cyc heq hvs
            (fun d hd => hdeps d (List.mem_cons_of_mem _ hd)) hch

theorem countU_pos (g : DAGL) (v : List (Str × Int)) (node : Str)
    (hmem : node ∈ nodeUniverse g) (hz : aget0 v node = 0) : 1 ≤ countU g v := by
  have hmem2 : node ∈ (nodeUniverse g).dedup.filter (fun n => decide (aget0 v n = 0)) :=
    List.mem_filter.mpr ⟨List.mem_dedup.mpr hmem, by simp [hz]⟩
  have : (nodeUniverse g).dedup.filter (fun n => decide (aget0 v n = 0)) ≠ [] := by
    intro hc
    rw [hc] at hmem2
    simp at hmem2
  unfold countU
  cases hl : (nodeUniverse g).dedup.filter (fun n => decide (aget0 v n = 0)) with
  | nil => exact absurd hl this
  | cons a t => simp

/-- With fuel exceeding the number of unvisited nodes, the DFS never runs
out of fuel. -/
theorem dfs_no_out (g : DAGL) (fuel : Nat) :
    (∀ node v gray F, node ∈ nodeUniverse g → aget0 v node = 0 → VState g v gray F →
      countU g v ≤ fuel → hasCycleUtil g fuel node v gray ≠ .out) ∧
    (∀ deps node v gray F, (∀ d ∈ deps, d ∈ nodeUniverse g) →
      VState g v (gray ++ [node]) F → node ∉ gray →
      countU g v ≤ fuel → hasCycleDeps g fuel deps node v (gray ++ [node]) ≠ .out) := by
  induction fuel with
  | zero =>
    constructor
    · intro node v gray F hmem hz hvs hcount
      have := countU_pos g v node hmem hz
      omega
    · intro deps
      induction deps with
      | nil =>
        intro node v gray F hdeps hvs hng hcount
        simp [hasCycleDeps]
      | cons dep rest ih =>
        intro node v gray F hdeps hvs hng hcount
        by_cases h0 : aget0 v dep = 0
        · have := countU_pos g v dep (hdeps dep (List.mem_cons_self _ _)) h0
          omega
        · by_cases h1 : aget0 v dep = 1
          · simp [hasCycleDeps, h0, h1]
          · rw [hasCycleDeps, if_neg h0, if_neg h1]
            exact ih node v gray F (fun d hd => hdeps d (List.mem_cons_of_mem _ hd))
              hvs hng hcount
  | succ fuel ihf =>
    have hP : ∀ node v gray F, node ∈ nodeUniverse g → aget0 v node = 0 →
        VState g v gray F → countU g v ≤ fuel + 1 →
        hasCycleUtil g (fuel + 1) node v gray ≠ .out := by
      intro node v gray F hmem hz hvs hcount
      rw [hasCycleUtil]
      obtain ⟨hvs1, hng, -⟩ := vstate_push g v gray F node hvs hz
      have hc1 : countU g (aset v node 1) ≤ fuel := by
        have := countU_lt g v node hmem hz 1 (by omega)
        omega
      exact ihf.2 (depsOf g node) node (aset v node 1) gray F
        (depsOf_subset_universe g node) hvs1 hng hc1
    refine ⟨hP, ?_⟩
    intro deps
    induction deps with
    | nil =>
      intro node v gray F hdeps hvs hng hcount
      simp [hasCycleDeps]
    | cons dep rest ih =>
      intro node v gray F hdeps hvs hng hcount
      by_cases h0 : aget0 v dep = 0
      · rw [hasCycleDeps, if_pos h0]
        cases hcall : hasCycleUtil g (fuel + 1) dep v (gray ++ [node]) with
        | found cyc => simp
        | out =>
          exact absurd hcall (hP dep v (gray ++ [node]) F
            (hdeps dep (List.mem_cons_self _ _)) h0 hvs hcount)
        | clean v1 =>
          obtain ⟨F1, hvs1, ⟨G1, hFG1⟩, -⟩ := (dfs_clean_inv g (fuel + 1)).1 dep v
            (gray ++ [node]) F v1 hcall hvs h0
          have hcm : countU g v1 ≤ fuel + 1 := by
            have := countU_mono g v v1 (vstate_mark_mono g v v1 (gray ++ [node]) F F1
              hvs hvs1 (fun n hn => hFG1 ▸ List.mem_append_left _ hn))
            omega
          exact ih node v1 gray F1 (fun d hd => hdeps d (List.mem_cons_of_mem _ hd))
            hvs1 hng hcm
      · by_cases h1 : aget0 v dep = 1
        · simp [hasCycleDeps, h0, h1]
        · rw [hasCycleDeps, if_neg h0, if_neg h1]
          exact ih node v gray F (fun d hd => hdeps d (List.mem_cons_of_mem _ hd))
            hvs hng hcount

theorem countU_le (g : DAGL) (v : List (Str × Int)) :
    countU g v ≤ (nodeUniverse g).dedup.length :=
  List.length_filter_le _ _

/-- Behaviour of the root loop of `detectCyclesWithPath`. -/
theorem detectLoop_cases (g : DAGL) (l : List (Str × Target)) :
    ∀ v F, (∀ e ∈ l, e.1 ∈ nodeUniverse g) → VState g v [] F →
    (detectLoop g (dfsFuel g) l v ≠ none) ∧
    (∀ p, detectLoop g (dfsFuel g) l v = some (false, p) →
      ∃ F', (∀ e ∈ l, e.1 ∈ F') ∧ (∀ n ∈ F, n ∈ F') ∧ F'.Nodup ∧ OrderedClosed g F') ∧
    (∀ cyc, detectLoop g (dfsFuel g) l v = some (true, cyc) → GoodCycle g cyc) := by
  induction l with
  | nil =>
    intro v F hkeys hvs
    refine ⟨by simp [detectLoop], ?_, ?_⟩
    · intro p hp
      exact ⟨F, by simp, fun n hn => hn, hvs.2.2.2.1, hvs.2.2.2.2⟩
    · intro cyc hc
      simp [detectLoop] at hc
  | cons e rest ih =>
    intro v F hkeys hvs
    have hcnt : countU g v ≤ dfsFuel g := by
      have := countU_le g v
      unfold dfsFuel
      omega
    by_cases h0 : aget0 v e.1 = 0
    · cases hcall : hasCycleUtil g (dfsFuel g) e.1 v [] with
      | out =>
        exfalso
        exact (dfs_no_out g (dfsFuel g)).1 e.1 v [] F
          (hkeys e (List.mem_cons_self _ _)) h0 hvs hcnt hcall
      | found cyc =>
        have hres : detectLoop g (dfsFuel g) (e :: rest) v = some (true, cyc) := by
          rw [detectLoop, if_pos h0, hcall]
        refine ⟨by rw [hres]; simp, ?_, ?_⟩
        · intro p hp
          rw [hres] at hp
          simp at hp
        · intro cyc' hc
          rw [hres] at hc
          simp only [Option.some.injEq, Prod.mk.injEq, true_and] at hc
          subst hc
          exact (dfs_found_cycle g (dfsFuel g)).1 e.1 v [] F cyc hcall hvs h0
            List.chain'_nil (fun h => absurd rfl h)
      | clean v1 =>
        have hres : detectLoop g (dfsFuel g) (e :: rest) v =
            detectLoop g (dfsFuel g) rest v1 := by
          rw [detectLoop, if_pos h0, hcall]
        obtain ⟨F1, hvs1, ⟨G1, hFG1⟩, he1⟩ := (dfs_clean_inv g (dfsFuel g)).1 e.1 v [] F
          v1 hcall hvs h0
        obtain ⟨ih1, ih2, ih3⟩ := ih v1 F1
          (fun e' he' => hkeys e' (List.mem_cons_of_mem _ he')) hvs1
        refine ⟨by rw [hres]; exact ih1, ?_, ?_⟩
        · intro p hp
          rw [hres] at hp
          obtain ⟨F', hl', hF1', hnd', hoc'⟩ := ih2 p hp
          refine ⟨F', ?_, ?_, hnd', hoc'⟩
          · intro e' he'
            rcases List.mem_cons.mp he' with he' | he'
            · exact he' ▸ hF1' e.1 he1
            · exact hl' e' he'
          · intro n hn
            exact hF1' n (hFG1 ▸ List.mem_append_left _ hn)
        · intro cyc hc
          rw [hres] at hc
          exact ih3 cyc hc
    · have hres : detectLoop g (dfsFuel g) (e :: rest) v =
          detectLoop g (dfsFuel g) rest v := by
        rw [detectLoop, if_neg h0]
      obtain ⟨ih1, ih2, ih3⟩ := ih v F
        (fun e' he' => hkeys e' (List.mem_cons_of_mem _ he')) hvs
      refine ⟨by rw [hres]; exact ih1, ?_, ?_⟩
      · intro p hp
        rw [hres] at hp
        obtain ⟨F', hl', hFF', hnd', hoc'⟩ := ih2 p hp
        refine ⟨F', ?_, hFF', hnd', hoc'⟩
        intro e' he'
        rcases List.mem_cons.mp he' with he' | he'
        · subst he'
          obtain ⟨h2, h1, ht, -, -⟩ := hvs
          rcases ht e'.1 with hv | hv | hv
          · exact absurd hv h0
          · have := (h1 e'.1).mp hv
            simp at this
          · exact hFF' e'.1 ((h2 e'.1).mp hv)
        · exact hl' e' he'
      · intro cyc hc
        rw [hres] at hc
        exact ih3 cyc hc

theorem acyclic_of_orderedClosed (g : DAGL) (F : List Str)
    (hoc : OrderedClosed g F) (hcov : ∀ e ∈ g, e.1 ∈ F) : Acyclic g := by
  have hreg : ∀ a b, Edge g a b → a ∈ F := by
    intro a b hE
    unfold Edge depsOf at hE
    cases hl : alookup g a with
    | none => rw [hl] at hE; simp at hE
    | some t => exact hcov (a, t) (alookup_mem _ _ _ hl)
  have hdec : ∀ x y, Relation.TransGen (Edge g) x y → x ∈ F →
      (y ∈ F ∧ idxOfStr F y < idxOfStr F x) := by
    intro x y hxy
    induction hxy with
    | single h1 =>
      intro hx
      exact hoc x hx _ h1
    | tail h1 h2 ih =>
      intro hx
      obtain ⟨hbF, hlt⟩ := ih hx
      obtain ⟨hyF, hlt2⟩ := hoc _ hbF _ h2
      exact ⟨hyF, lt_trans hlt2 hlt⟩
  intro a ha
  have hfirst : ∀ x y, Relation.TransGen (Edge g) x y → ∃ c, Edge g x c := by
    intro x y hxy
    induction hxy with
    | single h1 => exact ⟨_, h1⟩
    | tail h1 _ ih => exact ih
  obtain ⟨c, hc⟩ := hfirst a a ha
  have haF : a ∈ F := hreg a c hc
  obtain ⟨-, hlt⟩ := hdec a a ha haF
  omega

/-- C2: `detectCyclesWithPath` reports a cycle iff the induced graph has a
directed cycle; a reported path has at least two entries, equal first and
last element, and uses only declared edges; and the self-cycle `X → X`
yields `(true, [X, X])`. -/
theorem detectCycles_correct (g : DAGL) :
    ((detectCyclesWithPath g).1 = true ↔ ∃ a, Relation.TransGen (Edge g) a a) ∧
    ((detectCyclesWithPath g).1 = true →
      2 ≤ (detectCyclesWithPath g).2.length ∧
      (detectCyclesWithPath g).2.head? = (detectCyclesWithPath g).2.getLast? ∧
      List.Chain' (Edge g) (detectCyclesWithPath g).2) ∧
    detectCyclesWithPath [([88], ⟨[88], [], [], [], [[88]], []⟩)] = (true, [[88], [88]]) := by
  have hinit : VState g [] [] [] := by
    refine ⟨?_, ?_, ?_, List.nodup_nil, ?_⟩
    · intro n
      simp [aget0, alookup]
    · intro n
      simp [aget0, alookup]
    · intro n
      simp [aget0, alookup]
    · intro a ha
      simp at ha
  have hkeys : ∀ e ∈ g, e.1 ∈ nodeUniverse g := by
    intro e he
    exact List.mem_append_left _ (List.mem_map_of_mem Prod.fst he)
  obtain ⟨hno, hfalse, htrue⟩ := detectLoop_cases g g [] [] hkeys hinit
  have hS3 : detectCyclesWithPath [([88], ⟨[88], [], [], [], [[88]], []⟩)] =
      (true, [[88], [88]]) := by
    simp [detectCyclesWithPath, detectLoop, hasCycleUtil, hasCycleDeps, dfsFuel,
      nodeUniverse, depsOf, alookup, aset, aget0, idxOfStr, List.dedup]
  cases hres : detectLoop g (dfsFuel g) g [] with
  | none => exact absurd hres hno
  | some r =>
    have hval : detectCyclesWithPath g = r := by
      unfold detectCyclesWithPath
      rw [hres]
      rfl
    obtain ⟨b, p⟩ := r
    cases b with
    | true =>
      have hgood := htrue p hres
      rw [hval]
      refine ⟨⟨fun _ => hgood.2.2.2, fun _ => rfl⟩, fun _ =>
        ⟨hgood.1, hgood.2.1, hgood.2.2.1⟩, hS3⟩
    | false =>
      obtain ⟨F', hcov, -, -, hoc⟩ := hfalse p hres
      have hacyc := acyclic_of_orderedClosed g F' hoc hcov
      rw [hval]
      refine ⟨⟨fun h => absurd h (by simp), fun h => ?_⟩, fun h => absurd h (by simp), hS3⟩
      obtain ⟨a, ha⟩ := h
      exact absurd ha (hacyc a)

/-- C4: a target processed by `executeTarget` (not cancelled) is marked
skipped — result flag true, cache untouched, a single UP-TO-DATE line and
in particular no BUILD line, so the command is not run — if and only if
every declared output opens and `needsRebuild` on the current signature is
false; contrapositively a single missing output forces the BUILD path even
when the cached signature matches. -/
theorem executeTarget_skip_iff (dryRun : Bool) (runner : Str → Bool)
    (fs : FileSys) (t : Target) (cache : CacheMap) :
    executeTarget dryRun runner fs false t cache =
        (true, cache, [Event.status t.name .upToDate]) ↔
      (outputsExist fs t = true ∧
        needsRebuild cache t.name
          (computeTargetSignature fs t.command t.inputs) = false) := by
  cases hOE : outputsExist fs t <;>
    cases hNR : needsRebuild cache t.name
        (computeTargetSignature fs t.command t.inputs) <;>
      cases hR : runCommand dryRun runner t.command <;>
        simp [executeTarget, isOutOfDate, hOE, hNR, hR]

/-- Witness for C4: a concrete target with one openable output and a
matching cached signature is skipped. -/
theorem executeTarget_skip_iff_witness :
    executeTarget false (fun _ => false) (fun _ => some []) false
        ⟨[65], [], [[111]], [], [], []⟩ [([65], sha256 [])] =
      (true, [([65], sha256 [])], [Event.status [65] Status.upToDate]) :=
  (executeTarget_skip_iff false (fun _ => false) (fun _ => some [])
      ⟨[65], [], [[111]], [], [], []⟩ [([65], sha256 [])]).mpr (by decide)

/-- C5 (code bug): with two workers and the cancel flag already set, every
worker returns from its loop head without storing `failed`, so
`executeMultiThreaded` returns `!failed = true` although the build was
cancelled and did no work — while the single-threaded strategy returns
false on the same cancelled input, as the spec demands of both. -/
theorem multithreaded_cancel_returns_true :
    (executeMultiThreaded [([65], ⟨[65], [], [], [99], [], []⟩)] false false
        (fun _ => true) (fun _ => none) [] 2 true [.work 0, .work 1]).1 = true ∧
    (executeMultiThreaded [([65], ⟨[65], [], [], [99], [], []⟩)] false false
        (fun _ => true) (fun _ => none) [] 2 true
        [.work 0, .work 1]).2.workers = [.done, .done] ∧
    (executeMultiThreaded [([65], ⟨[65], [], [], [99], [], []⟩)] false false
        (fun _ => true) (fun _ => none) [] 2 true
        [.work 0, .work 1]).2.failedc = 0 ∧
    (executeMultiThreaded [([65], ⟨[65], [], [], [99], [], []⟩)] false false
        (fun _ => true) (fun _ => none) [] 2 true
        [.work 0, .work 1]).2.trace = [] ∧
    (executeSingleThreaded [([65], ⟨[65], [], [], [99], [], []⟩)] false false
        (fun _ => true) (fun _ => none) (fun _ => true) []).1 = false := by
  decide

/-- C3 counterexample: in dry-run mode with a command runner that rejects
every command, the executor still writes a fresh cache entry for the target
(and reports SUCCESS), although no command ever ran. -/
theorem dry_run_writes_cache :
    (executeSingleThreaded [([67], ⟨[67], [], [[111]], [100], [], []⟩)] true false
        (fun _ => false) (fun _ => none) (fun _ => false) []).2.cache =
      [([67], computeTargetSignature (fun _ => none) [100] [])] ∧
    (Event.status [67] Status.success) ∈
      (executeSingleThreaded [([67], ⟨[67], [], [[111]], [100], [], []⟩)] true false
        (fun _ => false) (fun _ => none) (fun _ => false) []).2.events := by
  decide

/-- C6 counterexample: when the dependency A of target B is skipped as
up-to-date, the BUILDING event for B (trace index 3) is emitted with no
SUCCESS or FAILED event for A anywhere before it — A only got BUILDING and
UP-TO-DATE emissions. -/
theorem building_without_dep_succfail :
    ((executeSingleThreaded
        [([65], ⟨[65], [], [[111]], [], [], []⟩),
         ([66], ⟨[66], [], [], [], [[65]], []⟩)]
        false false (fun _ => true)
        (fun p => if p = [111] then some [] else none)
        (fun _ => false)
        [([65], sha256 [])]).2.events.get? 3 =
      some (.progress [66] 2 2 .building)) ∧
    ∀ e ∈ (executeSingleThreaded
        [([65], ⟨[65], [], [[111]], [], [], []⟩),
         ([66], ⟨[66], [], [], [], [[65]], []⟩)]
        false false (fun _ => true)
        (fun p => if p = [111] then some [] else none)
        (fun _ => false)
        [([65], sha256 [])]).2.events.take 3,
      isSuccFailFor [65] e = false := by
  decide

theorem wf_lookup_name (g : DAGL) (hwf : WFdag g) (n : Str) (t : Target)
    (h : alookup g n = some t) : t.name = n :=
  hwf.2 (n, t) (alookup_mem g n t h)

theorem topologicalSort_props (g : DAGL) (hwf : WFdag g) :
    (topologicalSort g).Nodup ∧ (∀ n ∈ topologicalSort g, n ∈ g.map Prod.fst) ∧
    DepsFirst g (topologicalSort g) := by
  obtain ⟨inDeg2, Q, heq, hfin⟩ := kahnLoop_run g hwf g.length (initInDegree g)
    (seeds (initInDegree g)) 0 (KInv_init g hwf) (by omega)
  have hts : topologicalSort g = Q := heq
  rw [hts]
  exact ⟨hfin.qnd, hfin.qmem, hfin.order⟩

theorem depRespect_append_nonbuilding (g : DAGL) (tr es : List Event)
    (h : DepRespect g tr)
    (hes : ∀ e ∈ es, ∀ t cur tot, e ≠ Event.progress t cur tot Status.building) :
    DepRespect g (tr ++ es) := by
  intro i hi t cur tot hget d hd
  by_cases hlt : i < tr.length
  · have hg2 : tr.get ⟨i, hlt⟩ = Event.progress t cur tot Status.building := by
      rw [← hget, List.get_eq_getElem, List.get_eq_getElem]
      exact (List.getElem_append_left hlt).symm
    obtain ⟨j, hj, hji, hterm⟩ := h i hlt t cur tot hg2 d hd
    refine ⟨j, by simp; omega, hji, ?_⟩
    rw [List.get_eq_getElem, List.getElem_append_left hj]
    exact hterm
  · exfalso
    have hmem : (tr ++ es).get ⟨i, hi⟩ ∈ es := by
      rw [List.get_eq_getElem, List.getElem_append_right (Nat.le_of_not_lt hlt)]
      exact List.getElem_mem _
    exact hes _ hmem t cur tot hget

theorem depRespect_append_building (g : DAGL) (tr : List Event) (t : Str)
    (cur tot : Nat) (h : DepRespect g tr)
    (hdeps : ∀ d ∈ depsOf g t, ∃ e ∈ tr, isTerminalFor d e = true) :
    DepRespect g (tr ++ [Event.progress t cur tot Status.building]) := by
  intro i hi t2 cur2 tot2 hget d hd
  by_cases hlt : i < tr.length
  · have hg2 : tr.get ⟨i, hlt⟩ = Event.progress t2 cur2 tot2 Status.building := by
      rw [← hget, List.get_eq_getElem, List.get_eq_getElem]
      exact (List.getElem_append_left hlt).symm
    obtain ⟨j, hj, hji, hterm⟩ := h i hlt t2 cur2 tot2 hg2 d hd
    refine ⟨j, by simp; omega, hji, ?_⟩
    rw [List.get_eq_getElem, List.getElem_append_left hj]
    exact hterm
  · have hieq : i = tr.length := by
      have := hi
      simp at this
      omega
    have hnew : (tr ++ [Event.progress t cur tot Status.building]).get ⟨i, hi⟩ =
        Event.progress t cur tot Status.building := by
      rw [List.get_eq_getElem, List.getElem_append_right (Nat.le_of_not_lt hlt)]
      simp [hieq]
    rw [hnew] at hget
    obtain ⟨rfl, -, -, -⟩ : t = t2 ∧ cur = cur2 ∧ tot = tot2 ∧ True := by
      injection hget with h1 h2 h3 h4
      exact ⟨h1, h2, h3, trivial⟩
    obtain ⟨e, he, hterm⟩ := hdeps d hd
    obtain ⟨⟨j, hj⟩, hje⟩ := List.mem_iff_get.mp he
    refine ⟨j, by simp; omega, by omega, ?_⟩
    rw [List.get_eq_getElem, List.getElem_append_left hj]
    show isTerminalFor d (tr.get ⟨j, hj⟩) = true
    rw [hje]
    exact hterm

theorem execSTLoop_depRespect (g : DAGL) (hwf : WFdag g)
    (dryRun stopOnError : Bool) (runner : Str → Bool) (fs : FileSys)
    (cancel : Nat → Bool) (total : Nat) :
    ∀ (l : List Str) (i : Nat) (st : SState),
      DepRespect g st.events →
      (∀ j, ∀ hj : j < l.length, ∀ d ∈ depsOf g (l.get ⟨j, hj⟩),
        (∃ e ∈ st.events, isTerminalFor d e = true) ∨
        ∃ k, ∃ hk : k < l.length, k < j ∧ l.get ⟨k, hk⟩ = d ∧ d ∈ g.map Prod.fst) →
      DepRespect g
        (execSTLoop g dryRun stopOnError runner fs cancel total l i st).2.events := by
  intro l
  induction l with
  | nil =>
    intro i st h1 h2
    simpa [execSTLoop] using h1
  | cons name rest ih =>
    intro i st h1 h2
    by_cases hcc : cancel i = true
    · simpa [execSTLoop, hcc] using h1
    · rw [Bool.not_eq_true] at hcc
      cases hlk : alookup g name with
      | none =>
        have hred : execSTLoop g dryRun stopOnError runner fs cancel total
            (name :: rest) i st =
            execSTLoop g dryRun stopOnError runner fs cancel total rest (i + 1) st := by
          simp [execSTLoop, hcc, hlk]
        rw [hred]
        apply ih (i + 1) st h1
        intro j hj d hd
        have hj2 : j + 1 < (name :: rest).length := by simp; omega
        have h2j := h2 (j + 1) hj2 d hd
        rcases h2j with h | ⟨k, hk, hkj, hkd, hreg⟩
        · exact Or.inl h
        · cases k with
          | zero =>
            exfalso
            have hnd : name = d := hkd
            rw [hnd, alookup_none_iff] at hlk
            exact hlk hreg
          | succ k2 =>
            have hk2 : k2 < rest.length := by simp at hk; omega
            refine Or.inr ⟨k2, hk2, by omega, ?_, hreg⟩
            exact hkd
      | some t =>
        have htn : t.name = name := wf_lookup_name g hwf name t hlk
        have hDR1 : DepRespect g
            (st.events ++ [Event.progress name (i + 1) total Status.building]) := by
          apply depRespect_append_building g st.events name (i + 1) total h1
          intro d hd0
          have h20 := h2 0 (by simp) d hd0
          rcases h20 with h | ⟨k, hk, hkj, -, -⟩
          · exact h
          · omega
        by_cases hup : (outputsExist fs t && !(isOutOfDate fs t st.cache)) = true
        · have hred : execSTLoop g dryRun stopOnError runner fs cancel total
              (name :: rest) i st =
              execSTLoop g dryRun stopOnError runner fs cancel total rest (i + 1)
                { cache := st.cache,
                  events := (st.events ++
                      [Event.progress name (i + 1) total Status.building]) ++
                    [Event.status t.name Status.upToDate,
                     Event.progress name (i + 1) total Status.upToDate],
                  skipped := st.skipped + 1, failedc := st.failedc,
                  built := st.built } := by
            simp [execSTLoop, hcc, hlk, hup]
          rw [hred]
          apply ih (i + 1) _ ?_ ?_
          · apply depRespect_append_nonbuilding g _ _ hDR1
            intro e he t2 c2 t3
            fin_cases he <;> simp
          · intro j hj d hd
            have hj2 : j + 1 < (name :: rest).length := by simp; omega
            have h2j := h2 (j + 1) hj2 d hd
            rcases h2j with ⟨e, he, ht⟩ | ⟨k, hk, hkj, hkd, hreg⟩
            · exact Or.inl ⟨e, List.mem_append_left _ (List.mem_append_left _ he), ht⟩
            · cases k with
              | zero =>
                left
                have hnd : name = d := hkd
                refine ⟨Event.status t.name Status.upToDate,
                  List.mem_append_right _ (by simp), ?_⟩
                rw [htn, hnd]
                simp [isTerminalFor]
              | succ k2 =>
                have hk2 : k2 < rest.length := by simp at hk; omega
                exact Or.inr ⟨k2, hk2, by omega, hkd, hreg⟩
        · by_cases hrc : runCommand dryRun runner t.command = true
          · have hred : execSTLoop g dryRun stopOnError runner fs cancel total
                (name :: rest) i st =
                execSTLoop g dryRun stopOnError runner fs cancel total rest (i + 1)
                  { cache := setSignature st.cache t.name
                      (computeTargetSignature fs t.command t.inputs),
                    events := (st.events ++
                        [Event.progress name (i + 1) total Status.building]) ++
                      [Event.status t.name Status.build,
                       Event.status t.name Status.success,
                       Event.progress name (i + 1) total Status.success],
                    skipped := st.skipped, failedc := st.failedc,
                    built := st.built + 1 } := by
              simp [execSTLoop, hcc, hlk, hup, hrc]
            rw [hred]
            apply ih (i + 1) _ ?_ ?_
            · apply depRespect_append_nonbuilding g _ _ hDR1
              intro e he t2 c2 t3
              fin_cases he <;> simp
            · intro j hj d hd
              have hj2 : j + 1 < (name :: rest).length := by simp; omega
              have h2j := h2 (j + 1) hj2 d hd
              rcases h2j with ⟨e, he, ht⟩ | ⟨k, hk, hkj, hkd, hreg⟩
              · exact Or.inl ⟨e, List.mem_append_left _ (List.mem_append_left _ he), ht⟩
              · cases k with
                | zero =>
                  left
                  have hnd : name = d := hkd
                  refine ⟨Event.status t.name Status.success,
                    List.mem_append_right _ (by simp), ?_⟩
                  rw [htn, hnd]
                  simp [isTerminalFor]
                | succ k2 =>
                  have hk2 : k2 < rest.length := by simp at hk; omega
                  exact Or.inr ⟨k2, hk2, by omega, hkd, hreg⟩
          · have hDR2 : DepRespect g
                ((st.events ++ [Event.progress name (i + 1) total Status.building]) ++
                  [Event.status t.name Status.build, Event.status t.name Status.failed,
                   Event.progress name (i + 1) total Status.failed]) := by
              apply depRespect_append_nonbuilding g _ _ hDR1
              intro e he t2 c2 t3
              fin_cases he <;> simp
            by_cases hso : stopOnError = true
            · have hred : execSTLoop g dryRun stopOnError runner fs cancel total
                  (name :: rest) i st =
                  (false,
                    { cache := st.cache,
                      events := (st.events ++
                          [Event.progress name (i + 1) total Status.building]) ++
                        [Event.status t.name Status.build,
                         Event.status t.name Status.failed,
                         Event.progress name (i + 1) total Status.failed],
                      skipped := st.skipped, failedc := st.failedc + 1,
                      built := st.built }) := by
                simp [execSTLoop, hcc, hlk, hup, hrc, hso]
              rw [hred]
              exact hDR2
            · rw [Bool.not_eq_true] at hso
              have hred : execSTLoop g dryRun stopOnError runner fs cancel total
                  (name :: rest) i st =
                  execSTLoop g dryRun stopOnError runner fs cancel total rest (i + 1)
                    { cache := st.cache,
                      events := (st.events ++
                          [Event.progress name (i + 1) total Status.building]) ++
                        [Event.status t.name Status.build,
                         Event.status t.name Status.failed,
                         Event.progress name (i + 1) total Status.failed],
                      skipped := st.skipped, failedc := st.failedc + 1,
                      built := st.built } := by
                simp [execSTLoop, hcc, hlk, hup, hrc, hso]
              rw [hred]
              apply ih (i + 1) _ hDR2 ?_
              intro j hj d hd
              have hj2 : j + 1 < (name :: rest).length := by simp; omega
              have h2j := h2 (j + 1) hj2 d hd
              rcases h2j with ⟨e, he, ht⟩ | ⟨k, hk, hkj, hkd, hreg⟩
              · exact Or.inl ⟨e, List.mem_append_left _ (List.mem_append_left _ he), ht⟩
              · cases k with
                | zero =>
                  left
                  have hnd : name = d := hkd
                  refine ⟨Event.status t.name Status.failed,
                    List.mem_append_right _ (by simp), ?_⟩
                  rw [htn, hnd]
                  simp [isTerminalFor]
                | succ k2 =>
                  have hk2 : k2 < rest.length := by simp at hk; omega
                  exact Or.inr ⟨k2, hk2, by omega, hkd, hreg⟩

theorem execSTLoop_cache (g : DAGL) (hwf : WFdag g) (dryRun stopOnError : Bool)
    (runner : Str → Bool) (fs : FileSys) (cancel : Nat → Bool) (total : Nat)
    (c0 : CacheMap) :
    ∀ (l : List Str) (i : Nat) (st : SState), l.Nodup →
      STCacheOk g c0 dryRun runner st.cache st.events →
      (∀ n, ((Event.status n Status.failed) ∈ st.events ∨
          (Event.status n Status.upToDate) ∈ st.events ∨
          (Event.status n Status.success) ∈ st.events) → n ∉ l) →
      STCacheOk g c0 dryRun runner
        (execSTLoop g dryRun stopOnError runner fs cancel total l i st).2.cache
        (execSTLoop g dryRun stopOnError runner fs cancel total l i st).2.events := by
  intro l
  induction l with
  | nil =>
    intro i st _ hok _
    simpa [execSTLoop] using hok
  | cons name rest ih =>
    intro i st hnd hok h4
    have hnme : name ∉ rest := (List.nodup_cons.mp hnd).1
    by_cases hcc : cancel i = true
    · simpa [execSTLoop, hcc] using hok
    · rw [Bool.not_eq_true] at hcc
      cases hlk : alookup g name with
      | none =>
        have hred : execSTLoop g dryRun stopOnError runner fs cancel total
            (name :: rest) i st =
            execSTLoop g dryRun stopOnError runner fs cancel total rest (i + 1) st := by
          simp [execSTLoop, hcc, hlk]
        rw [hred]
        exact ih (i + 1) st (List.Nodup.of_cons hnd) hok
          (fun n hn hmem => h4 n hn (List.mem_cons_of_mem _ hmem))
      | some t =>
        have htn : t.name = name := wf_lookup_name g hwf name t hlk
        by_cases hup : (outputsExist fs t && !(isOutOfDate fs t st.cache)) = true
        · have hred : execSTLoop g dryRun stopOnError runner fs cancel total
              (name :: rest) i st =
              execSTLoop g dryRun stopOnError runner fs cancel total rest (i + 1)
                { cache := st.cache,
                  events := (st.events ++
                      [Event.progress name (i + 1) total Status.building]) ++
                    [Event.status t.name Status.upToDate,
                     Event.progress name (i + 1) total Status.upToDate],
                  skipped := st.skipped + 1, failedc := st.failedc,
                  built := st.built } := by
            simp [execSTLoop, hcc, hlk, hup]
          rw [hred]
          apply ih (i + 1) _ (List.Nodup.of_cons hnd) ?_ ?_
          · constructor
            · intro n hch
              obtain ⟨hs, ht2⟩ := hok.1 n hch
              exact ⟨List.mem_append_left _ (List.mem_append_left _ hs), ht2⟩
            · intro n hmem hsucc
              have hsucc0 : (Event.status n Status.success) ∈ st.events := by
                simpa using hsucc
              have hmem0 : (Event.status n Status.failed) ∈ st.events ∨
                  (Event.status n Status.upToDate) ∈ st.events ∨ n = t.name := by
                rcases hmem with h | h
                · exact Or.inl (by simpa using h)
                · have h2 : (Event.status n Status.upToDate) ∈ st.events ∨ n = t.name := by
                    simpa using h
                  rcases h2 with h2 | h2
                  · exact Or.inr (Or.inl h2)
                  · exact Or.inr (Or.inr h2)
              rcases hmem0 with h | h | h
              · exact hok.2 n (Or.inl h) hsucc0
              · exact hok.2 n (Or.inr h) hsucc0
              · exact h4 n (Or.inr (Or.inr hsucc0))
                  (by rw [h, htn]; exact List.mem_cons_self _ _)
          · intro n hmem
            have hmem0 : ((Event.status n Status.failed) ∈ st.events ∨
                (Event.status n Status.upToDate) ∈ st.events ∨
                (Event.status n Status.success) ∈ st.events) ∨ n = t.name := by
              rcases hmem with h | h | h
              · exact Or.inl (Or.inl (by simpa using h))
              · have h2 : (Event.status n Status.upToDate) ∈ st.events ∨ n = t.name := by
                  simpa using h
                rcases h2 with h2 | h2
                · exact Or.inl (Or.inr (Or.inl h2))
                · exact Or.inr h2
              · exact Or.inl (Or.inr (Or.inr (by simpa using h)))
            rcases hmem0 with h | h
            · exact fun hmem2 => h4 n h (List.mem_cons_of_mem _ hmem2)
            · rw [h, htn]
              exact hnme
        · by_cases hrc : runCommand dryRun runner t.command = true
          · have hred : execSTLoop g dryRun stopOnError runner fs cancel total
                (name :: rest) i st =
                execSTLoop g dryRun stopOnError runner fs cancel total rest (i + 1)
                  { cache := setSignature st.cache t.name
                      (computeTargetSignature fs t.command t.inputs),
                    events := (st.events ++
                        [Event.progress name (i + 1) total Status.building]) ++
                      [Event.status t.name Status.build,
                       Event.status t.name Status.success,
                       Event.progress name (i + 1) total Status.success],
                    skipped := st.skipped, failedc := st.failedc,
                    built := st.built + 1 } := by
              simp [execSTLoop, hcc, hlk, hup, hrc]
            rw [hred]
            apply ih (i + 1) _ (List.Nodup.of_cons hnd) ?_ ?_
            · constructor
              · intro n hch
                by_cases hn : t.name = n
                · refine ⟨?_, ?_⟩
                  · subst hn
                    exact List.mem_append_right _ (by simp)
                  · refine ⟨t, ?_, hrc⟩
                    rw [← hn, htn]
                    exact hlk
                · rw [setSignature, alookup_aset, if_neg hn] at hch
                  obtain ⟨hs, ht2⟩ := hok.1 n hch
                  exact ⟨List.mem_append_left _ (List.mem_append_left _ hs), ht2⟩
              · intro n hmem hsucc
                have hmem0 : (Event.status n Status.failed) ∈ st.events ∨
                    (Event.status n Status.upToDate) ∈ st.events := by
                  rcases hmem with h | h
                  · exact Or.inl (by simpa using h)
                  · exact Or.inr (by simpa using h)
                have habs : n ∉ name :: rest :=
                  h4 n (hmem0.imp id Or.inl)
                have hsucc0 : (Event.status n Status.success) ∈ st.events ∨ n = t.name := by
                  simpa using hsucc
                rcases hsucc0 with h | h
                · exact hok.2 n hmem0 h
                · exact habs (by rw [h, htn]; exact List.mem_cons_self _ _)
            · intro n hmem
              have hmem0 : ((Event.status n Status.failed) ∈ st.events ∨
                  (Event.status n Status.upToDate) ∈ st.events ∨
                  (Event.status n Status.success) ∈ st.events) ∨ n = t.name := by
                rcases hmem with h | h | h
                · exact Or.inl (Or.inl (by simpa using h))
                · exact Or.inl (Or.inr (Or.inl (by simpa using h)))
                · have h2 : (Event.status n Status.success) ∈ st.events ∨ n = t.name := by
                    simpa using h
                  rcases h2 with h2 | h2
                  · exact Or.inl (Or.inr (Or.inr h2))
                  · exact Or.inr h2
              rcases hmem0 with h | h
              · exact fun hmem2 => h4 n h (List.mem_cons_of_mem _ hmem2)
              · rw [h, htn]
                exact hnme
          · have hfcore : ∀ (X : SState), X.cache = st.cache →
                X.events = (st.events ++
                    [Event.progress name (i + 1) total Status.building]) ++
                  [Event.status t.name Status.build,
                   Event.status t.name Status.failed,
                   Event.progress name (i + 1) total Status.failed] →
                STCacheOk g c0 dryRun runner X.cache X.events := by
              intro X hXc hXe
              rw [hXc, hXe]
              constructor
              · intro n hch
                obtain ⟨hs, ht2⟩ := hok.1 n hch
                exact ⟨List.mem_append_left _ (List.mem_append_left _ hs), ht2⟩
              · intro n hmem hsucc
                have hsucc0 : (Event.status n Status.success) ∈ st.events := by
                  simpa using hsucc
                have hmem0 : ((Event.status n Status.failed) ∈ st.events ∨
                    (Event.status n Status.upToDate) ∈ st.events) ∨ n = t.name := by
                  rcases hmem with h | h
                  · have h2 : (Event.status n Status.failed) ∈ st.events ∨ n = t.name := by
                      simpa using h
                    rcases h2 with h2 | h2
                    · exact Or.inl (Or.inl h2)
                    · exact Or.inr h2
                  · exact Or.inl (Or.inr (by simpa using h))
                rcases hmem0 with h | h
                · exact hok.2 n h hsucc0
                · exact h4 n (Or.inr (Or.inr hsucc0))
                    (by rw [h, htn]; exact List.mem_cons_self _ _)
            by_cases hso : stopOnError = true
            · have hred : execSTLoop g dryRun stopOnError runner fs cancel total
                  (name :: rest) i st =
                  (false,
                    { cache := st.cache,
                      events := (st.events ++
                          [Event.progress name (i + 1) total Status.building]) ++
                        [Event.status t.name Status.build,
                         Event.status t.name Status.failed,
                         Event.progress name (i + 1) total Status.failed],
                      skipped := st.skipped, failedc := st.failedc + 1,
                      built := st.built }) := by
                simp [execSTLoop, hcc, hlk, hup, hrc, hso]
              rw [hred]
              exact hfcore _ rfl rfl
            · rw [Bool.not_eq_true] at hso
              have hred : execSTLoop g dryRun stopOnError runner fs cancel total
                  (name :: rest) i st =
                  execSTLoop g dryRun stopOnError runner fs cancel total rest (i + 1)
                    { cache := st.cache,
                      events := (st.events ++
                          [Event.progress name (i + 1) total Status.building]) ++
                        [Event.status t.name Status.build,
                         Event.status t.name Status.failed,
                         Event.progress name (i + 1) total Status.failed],
                      skipped := st.skipped, failedc := st.failedc + 1,
                      built := st.built } := by
                simp [execSTLoop, hcc, hlk, hup, hrc, hso]
              rw [hred]
              apply ih (i + 1) _ (List.Nodup.of_cons hnd) ?_ ?_
              · exact hfcore _ rfl rfl
              intro n hmem
              have hmem0 : ((Event.status n Status.failed) ∈ st.events ∨
                  (Event.status n Status.upToDate) ∈ st.events ∨
                  (Event.status n Status.success) ∈ st.events) ∨ n = t.name := by
                rcases hmem with h | h | h
                · have h2 : (Event.status n Status.failed) ∈ st.events ∨ n = t.name := by
                    simpa using h
                  rcases h2 with h2 | h2
                  · exact Or.inl (Or.inl h2)
                  · exact Or.inr h2
                · exact Or.inl (Or.inr (Or.inl (by simpa using h)))
                · exact Or.inl (Or.inr (Or.inr (by simpa using h)))
              rcases hmem0 with h | h
              · exact fun hmem2 => h4 n h (List.mem_cons_of_mem _ hmem2)
              · rw [h, htn]
                exact hnme

theorem isTerminalFor_building (n m : Str) (c t2 : Nat) :
    isTerminalFor n (Event.progress m c t2 Status.building) = false := by
  simp [isTerminalFor]

theorem isTerminalFor_build (n m : Str) :
    isTerminalFor n (Event.status m Status.build) = false := by
  simp [isTerminalFor]

theorem isTerminalFor_upToDate (n m : Str) :
    isTerminalFor n (Event.status m Status.upToDate) = (m == n) := by
  have h1 : (Status.upToDate == Status.building) = false := rfl
  have h2 : (Status.upToDate == Status.build) = false := rfl
  simp [isTerminalFor, h1, h2]

theorem isTerminalFor_success (n m : Str) :
    isTerminalFor n (Event.status m Status.success) = (m == n) := by
  have h1 : (Status.success == Status.building) = false := rfl
  have h2 : (Status.success == Status.build) = false := rfl
  simp [isTerminalFor, h1, h2]

theorem isTerminalFor_failed (n m : Str) :
    isTerminalFor n (Event.status m Status.failed) = (m == n) := by
  have h1 : (Status.failed == Status.building) = false := rfl
  have h2 : (Status.failed == Status.build) = false := rfl
  simp [isTerminalFor, h1, h2]

theorem status_mem_append_status (n : Str) (X : Status) (tr : List Event)
    (m : Str) (Y : Status) :
    (Event.status n X) ∈ tr ++ [Event.status m Y] ↔
      (Event.status n X) ∈ tr ∨ (n = m ∧ X = Y) := by
  simp

theorem status_mem_append_progress (n : Str) (X : Status) (tr : List Event)
    (m : Str) (c t2 : Nat) (Y : Status) :
    (Event.status n X) ∈ tr ++ [Event.progress m c t2 Y] ↔
      (Event.status n X) ∈ tr := by
  simp

theorem get?_set_ne {α : Type} (ws : List α) (wid j : Nat) (w : α) (hj : j ≠ wid) :
    (ws.set wid w).get? j = ws.get? j := by
  rw [List.get?_eq_getElem?, List.get?_eq_getElem?,
    List.getElem?_set_ne (fun hh => hj hh.symm)]

theorem get?_set_self_of_get? {α : Type} (ws : List α) (wid : Nat) (w v : α)
    (h : ws.get? wid = some v) : (ws.set wid w).get? wid = some w := by
  obtain ⟨hlt, -⟩ := List.get?_eq_some.mp h
  rw [List.get?_eq_getElem?, List.getElem?_set_self hlt]

theorem get?_set_cases {α : Type} (ws : List α) (wid j : Nat) (w v : α)
    (h : (ws.set wid w).get? j = some v) :
    (j = wid ∧ v = w) ∨ (j ≠ wid ∧ ws.get? j = some v) := by
  by_cases hj : j = wid
  · subst hj
    rw [List.get?_eq_getElem?] at h
    rcases Nat.lt_or_ge j ws.length with hlt | hge
    · rw [List.getElem?_set_self hlt] at h
      exact Or.inl ⟨rfl, (Option.some.inj h).symm⟩
    · rw [List.getElem?_eq_none (by simpa using hge)] at h
      exact absurd h (by simp)
  · exact Or.inr ⟨hj, by rw [← h, get?_set_ne _ _ _ _ hj]⟩

theorem alookup_aset_true_pres (m : List (Str × Bool)) (k n : Str)
    (h : alookup m n = some true) : alookup (aset m k true) n = some true := by
  rw [alookup_aset]
  by_cases hkn : k = n <;> simp [hkn, h]

theorem alookup_aset_cases {α : Type} (m : List (Str × α)) (k n : Str) (v w : α)
    (h : alookup (aset m k v) n = some w) :
    (k = n ∧ w = v) ∨ (k ≠ n ∧ alookup m n = some w) := by
  rw [alookup_aset] at h
  by_cases hkn : k = n
  · rw [if_pos hkn] at h
    exact Or.inl ⟨hkn, (Option.some.inj h).symm⟩
  · rw [if_neg hkn] at h
    exact Or.inr ⟨hkn, h⟩

theorem bgetIns_pres (m : List (Str × Bool)) (k n : Str) (b : Bool)
    (h : alookup m n = some b) : alookup (bgetIns m k).2 n = some b := by
  unfold bgetIns
  cases hk : alookup m k with
  | some b2 => exact h
  | none =>
    rw [alookup_append, h]

theorem bgetIns_back (m : List (Str × Bool)) (k n : Str)
    (h : alookup (bgetIns m k).2 n = some true) : alookup m n = some true := by
  unfold bgetIns at h
  cases hk : alookup m k with
  | some b2 => rwa [hk] at h
  | none =>
    rw [hk, alookup_append] at h
    cases hn : alookup m n with
    | some b3 =>
      rw [hn] at h
      simp at h
      rw [h]
    | none =>
      rw [hn] at h
      by_cases hkn : k = n
      · simp [alookup, hkn] at h
      · simp [alookup, hkn] at h

theorem bgetIns_fst_true (m : List (Str × Bool)) (k : Str)
    (h : (bgetIns m k).1 = true) : alookup m k = some true := by
  unfold bgetIns at h
  cases hk : alookup m k with
  | some b2 => rw [hk] at h; simp at h; rw [h]
  | none => rw [hk] at h; exact absurd h (by simp)

theorem bgetIns_fst_false (m : List (Str × Bool)) (k : Str)
    (h : (bgetIns m k).1 = false) : alookup (bgetIns m k).2 k = some false := by
  unfold bgetIns at h ⊢
  cases hk : alookup m k with
  | some b2 =>
    rw [hk] at h
    simp at h
    show alookup m k = some false
    rw [hk, h]
  | none =>
    show alookup (m ++ [(k, false)]) k = some false
    rw [alookup_append, hk]
    simp [alookup]

theorem depsCompleted_pres (ds : List Str) :
    ∀ (m : List (Str × Bool)) (n : Str) (b : Bool), alookup m n = some b →
      alookup (depsCompleted m ds).2 n = some b := by
  induction ds with
  | nil => intro m n b h; exact h
  | cons d rest ih =>
    intro m n b h
    simp only [depsCompleted]
    by_cases hp : (bgetIns m d).1 = true
    · simp only [hp, if_true]
      exact ih _ n b (bgetIns_pres m d n b h)
    · rw [Bool.not_eq_true] at hp
      simp only [hp]
      simpa using bgetIns_pres m d n b h

theorem depsCompleted_back (ds : List Str) :
    ∀ (m : List (Str × Bool)) (n : Str),
      alookup (depsCompleted m ds).2 n = some true → alookup m n = some true := by
  induction ds with
  | nil => intro m n h; exact h
  | cons d rest ih =>
    intro m n h
    simp only [depsCompleted] at h
    by_cases hp : (bgetIns m d).1 = true
    · simp only [hp, if_true] at h
      exact bgetIns_back m d n (ih _ n h)
    · rw [Bool.not_eq_true] at hp
      simp only [hp] at h
      exact bgetIns_back m d n (by simpa using h)

theorem depsCompleted_deps (ds : List Str) :
    ∀ (m : List (Str × Bool)), (depsCompleted m ds).1 = true →
      ∀ d ∈ ds, alookup (depsCompleted m ds).2 d = some true := by
  induction ds with
  | nil => intro m _ d hd; simp at hd
  | cons d0 rest ih =>
    intro m hall d hd
    simp only [depsCompleted] at hall ⊢
    by_cases hp : (bgetIns m d0).1 = true
    · simp only [hp, if_true] at hall ⊢
      rcases List.mem_cons.mp hd with rfl | hd2
      · exact depsCompleted_pres rest _ d true
          (bgetIns_pres m d d true (bgetIns_fst_true m d hp))
      · exact ih _ hall d hd2
    · rw [Bool.not_eq_true] at hp
      simp only [hp] at hall
      exact absurd hall (by simp)

theorem bgetIns_fst_lookup (m : List (Str × Bool)) (k : Str) (b : Bool)
    (h : alookup m k = some b) : (bgetIns m k).1 = b := by
  unfold bgetIns
  rw [h]

theorem findReady_mono (g : DAGL) :
    ∀ (l : List Str) (c p : List (Str × Bool)),
      (∀ n b, alookup c n = some b → alookup (findReady g c p l).2.1 n = some b) ∧
      (∀ n b, alookup p n = some b → alookup (findReady g c p l).2.2 n = some b) ∧
      (∀ n, alookup (findReady g c p l).2.1 n = some true → alookup c n = some true) ∧
      (∀ n, alookup (findReady g c p l).2.2 n = some true → alookup p n = some true) := by
  intro l
  induction l with
  | nil =>
    intro c p
    exact ⟨fun n b h => h, fun n b h => h, fun n h => h, fun n h => h⟩
  | cons nm rest ih =>
    intro c p
    cases hlk : alookup g nm with
    | none =>
      rw [show findReady g c p (nm :: rest) = findReady g c p rest from by
        simp [findReady, hlk]]
      exact ih c p
    | some t =>
      by_cases hpc : (bgetIns c nm).1 = true
      · rw [show findReady g c p (nm :: rest) =
            findReady g (bgetIns c nm).2 p rest from by simp [findReady, hlk, hpc]]
        obtain ⟨m1, m2, b1, b2⟩ := ih (bgetIns c nm).2 p
        exact ⟨fun n b h => m1 n b (bgetIns_pres c nm n b h), m2,
          fun n h => bgetIns_back c nm n (b1 n h), b2⟩
      · rw [Bool.not_eq_true] at hpc
        by_cases hpd : (depsCompleted (bgetIns c nm).2 t.dependencies).1 = true
        · by_cases hpi : (bgetIns p t.name).1 = true
          · rw [show findReady g c p (nm :: rest) =
                findReady g (depsCompleted (bgetIns c nm).2 t.dependencies).2
                  (bgetIns p t.name).2 rest from by
              simp [findReady, hlk, hpc, hpd, hpi]]
            obtain ⟨m1, m2, b1, b2⟩ :=
              ih (depsCompleted (bgetIns c nm).2 t.dependencies).2 (bgetIns p t.name).2
            refine ⟨fun n b h => m1 n b ?_, fun n b h => m2 n b ?_,
              fun n h => ?_, fun n h => ?_⟩
            · exact depsCompleted_pres _ _ n b (bgetIns_pres c nm n b h)
            · exact bgetIns_pres p t.name n b h
            · exact bgetIns_back c nm n (depsCompleted_back _ _ n (b1 n h))
            · exact bgetIns_back p t.name n (b2 n h)
          · rw [Bool.not_eq_true] at hpi
            rw [show findReady g c p (nm :: rest) =
                (some nm, (depsCompleted (bgetIns c nm).2 t.dependencies).2,
                  (bgetIns p t.name).2) from by
              simp [findReady, hlk, hpc, hpd, hpi]]
            refine ⟨fun n b h => ?_, fun n b h => ?_, fun n h => ?_, fun n h => ?_⟩
            · exact depsCompleted_pres _ _ n b (bgetIns_pres c nm n b h)
            · exact bgetIns_pres p t.name n b h
            · exact bgetIns_back c nm n (depsCompleted_back _ _ n h)
            · exact bgetIns_back p t.name n h
        · rw [Bool.not_eq_true] at hpd
          rw [show findReady g c p (nm :: rest) =
              findReady g (depsCompleted (bgetIns c nm).2 t.dependencies).2 p rest from by
            simp [findReady, hlk, hpc, hpd]]
          obtain ⟨m1, m2, b1, b2⟩ :=
            ih (depsCompleted (bgetIns c nm).2 t.dependencies).2 p
          refine ⟨fun n b h => m1 n b ?_, m2, fun n h => ?_, b2⟩
          · exact depsCompleted_pres _ _ n b (bgetIns_pres c nm n b h)
          · exact bgetIns_back c nm n (depsCompleted_back _ _ n (b1 n h))

theorem findReady_some_spec (g : DAGL) :
    ∀ (l : List Str) (c p : List (Str × Bool)) (name : Str)
      (c2 p2 : List (Str × Bool)),
      findReady g c p l = (some name, c2, p2) →
      ∃ t, alookup g name = some t ∧
        alookup c2 name = some false ∧
        alookup p t.name ≠ some true ∧
        (∀ d ∈ t.dependencies, alookup c2 d = some true) := by
  intro l
  induction l with
  | nil =>
    intro c p name c2 p2 h
    exact absurd h (by simp [findReady])
  | cons nm rest ih =>
    intro c p name c2 p2 h
    cases hlk : alookup g nm with
    | none =>
      rw [show findReady g c p (nm :: rest) = findReady g c p rest from by
        simp [findReady, hlk]] at h
      exact ih c p name c2 p2 h
    | some t =>
      by_cases hpc : (bgetIns c nm).1 = true
      · rw [show findReady g c p (nm :: rest) =
            findReady g (bgetIns c nm).2 p rest from by simp [findReady, hlk, hpc]] at h
        exact ih _ p name c2 p2 h
      · rw [Bool.not_eq_true] at hpc
        by_cases hpd : (depsCompleted (bgetIns c nm).2 t.dependencies).1 = true
        · by_cases hpi : (bgetIns p t.name).1 = true
          · rw [show findReady g c p (nm :: rest) =
                findReady g (depsCompleted (bgetIns c nm).2 t.dependencies).2
                  (bgetIns p t.name).2 rest from by
              simp [findReady, hlk, hpc, hpd, hpi]] at h
            obtain ⟨t2, hg2, hc2, hp2, hd2⟩ := ih _ _ name c2 p2 h
            refine ⟨t2, hg2, hc2, fun hcontra => ?_, hd2⟩
            exact hp2 (bgetIns_pres p t.name t2.name true hcontra)
          · rw [Bool.not_eq_true] at hpi
            rw [show findReady g c p (nm :: rest) =
                (some nm, (depsCompleted (bgetIns c nm).2 t.dependencies).2,
                  (bgetIns p t.name).2) from by
              simp [findReady, hlk, hpc, hpd, hpi]] at h
            have h2 := h
            simp only [Prod.mk.injEq, Option.some.injEq] at h2
            obtain ⟨rfl, rfl, rfl⟩ := h2
            refine ⟨t, hlk, ?_, ?_, ?_⟩
            · exact depsCompleted_pres _ _ nm false (bgetIns_fst_false c nm hpc)
            · intro hcontra
              rw [bgetIns_fst_lookup p t.name true hcontra] at hpi
              exact Bool.true_eq_false.mp hpi
            · exact depsCompleted_deps t.dependencies _ hpd
        · rw [Bool.not_eq_true] at hpd
          rw [show findReady g c p (nm :: rest) =
              findReady g (depsCompleted (bgetIns c nm).2 t.dependencies).2 p rest from by
            simp [findReady, hlk, hpc, hpd]] at h
          exact ih _ p name c2 p2 h

theorem foldl_aset_false_no_true (order : List Str) :
    ∀ (m : List (Str × Bool)), (∀ k, alookup m k ≠ some true) →
      ∀ k, alookup (order.foldl (fun m n => aset m n false) m) k ≠ some true := by
  induction order with
  | nil => intro m h k; exact h k
  | cons a rest ih =>
    intro m h k
    rw [List.foldl_cons]
    apply ih
    intro k2
    rw [alookup_aset]
    by_cases he : a = k2
    · rw [if_pos he]; simp
    · rw [if_neg he]; exact h k2

theorem replicate_get?_loopHead (J wid : Nat) (v : WState)
    (h : (List.replicate J WState.loopHead).get? wid = some v) : v = .loopHead := by
  rw [List.get?_eq_getElem?, List.getElem?_replicate] at h
  by_cases hlt : wid < J
  · rw [if_pos hlt] at h; exact (Option.some.inj h).symm
  · rw [if_neg hlt] at h; exact absurd h (by simp)

theorem mtInv_init (g : DAGL) (c0 : CacheMap) (dryRun : Bool) (runner : Str → Bool)
    (order : List Str) (J : Nat) (cinit : Bool) :
    MTInv g c0 dryRun runner (mtInit order c0 J cinit) := by
  have hnt : ∀ k, alookup (mtInit order c0 J cinit).completed k ≠ some true := by
    intro k
    show alookup (order.foldl (fun m n => aset m n false) []) k ≠ some true
    exact foldl_aset_false_no_true order [] (by intro k2; simp [alookup]) k
  have hwork : ∀ wid n ph,
      (mtInit order c0 J cinit).workers.get? wid ≠ some (.dispatched n ph) := by
    intro wid n ph h
    have h2 := replicate_get?_loopHead J wid _ h
    exact absurd h2 (by simp)
  refine ⟨?_, ?_, ?_, ?_, ?_, ?_, ?_, ?_, ?_, ?_⟩
  · intro wid n ph h; exact absurd h (hwork wid n ph)
  · intro w1 w2 n1 n2 q1 q2 hne h1 h2; exact absurd h1 (hwork _ _ _)
  · intro wid n ph h; exact absurd h (hwork _ _ _)
  · intro n h; exact absurd h (hnt n)
  · intro wid n b h; exact absurd h (hwork _ _ _)
  · intro wid n ph h hnc e he; exact absurd he (List.not_mem_nil e)
  · intro e he n ht; exact absurd he (List.not_mem_nil e)
  · intro n h; exact absurd rfl h
  · intro n h; rcases h with h | h <;> exact absurd h (List.not_mem_nil _)
  · intro i hi t cur tot hget d hd
    exact absurd hi (by simp [mtInit])

theorem mtInv_retire (g : DAGL) (c0 : CacheMap) (dryRun : Bool)
    (runner : Str → Bool) (s : MTState) (hinv : MTInv g c0 dryRun runner s)
    (wid : Nat) (w : WState)
    (hnotd : ∀ n ph, w ≠ .dispatched n ph)
    (hnotc : ∀ n b, s.workers.get? wid ≠ some (.dispatched n (.complete b))) :
    MTInv g c0 dryRun runner (setWorker s wid w) := by
  refine ⟨?_, ?_, ?_, hinv.a4, ?_, ?_, ?_, hinv.a8, hinv.a9, hinv.a10⟩
  · intro wid2 n ph h
    rcases get?_set_cases s.workers wid wid2 w _ h with ⟨rfl, hv⟩ | ⟨hne, hold⟩
    · exact absurd hv.symm (hnotd n ph)
    · exact hinv.a1 wid2 n ph hold
  · intro w1 w2 n1 n2 q1 q2 hne h1 h2
    rcases get?_set_cases s.workers wid w1 w _ h1 with ⟨rfl, hv⟩ | ⟨hne1, hold1⟩
    · exact absurd hv.symm (hnotd n1 q1)
    · rcases get?_set_cases s.workers wid w2 w _ h2 with ⟨rfl, hv⟩ | ⟨hne2, hold2⟩
      · exact absurd hv.symm (hnotd n2 q2)
      · exact hinv.a2 w1 w2 n1 n2 q1 q2 hne hold1 hold2
  · intro wid2 n ph h
    rcases get?_set_cases s.workers wid wid2 w _ h with ⟨rfl, hv⟩ | ⟨hne, hold⟩
    · exact absurd hv.symm (hnotd n ph)
    · exact hinv.a3 wid2 n ph hold
  · intro wid2 n b h
    rcases get?_set_cases s.workers wid wid2 w _ h with ⟨rfl, hv⟩ | ⟨hne, hold⟩
    · exact absurd hv.symm (hnotd n (.complete b))
    · exact hinv.a5 wid2 n b hold
  · intro wid2 n ph h hnc e he
    rcases get?_set_cases s.workers wid wid2 w _ h with ⟨rfl, hv⟩ | ⟨hne, hold⟩
    · exact absurd hv.symm (hnotd n ph)
    · exact hinv.a6 wid2 n ph hold hnc e he
  · intro e he n ht
    rcases hinv.a7 e he n ht with hc | ⟨wid2, b, hw2⟩
    · exact Or.inl hc
    · have hne : wid2 ≠ wid := fun heq => hnotc n b (heq ▸ hw2)
      exact Or.inr ⟨wid2, b, (get?_set_ne s.workers wid wid2 w hne).trans hw2⟩

theorem mtInv_loopHead (g : DAGL) (hwf : WFdag g) (order : List Str)
    (dryRun stopOnError : Bool) (runner : Str → Bool) (fs : FileSys)
    (c0 : CacheMap) (s : MTState) (hinv : MTInv g c0 dryRun runner s)
    (wid : Nat) (hw : s.workers.get? wid = some .loopHead) :
    MTInv g c0 dryRun runner
      (workerStep g order dryRun stopOnError runner fs s wid) := by
  have hwg : s.workers[wid]? = some WState.loopHead := by
    rw [← List.get?_eq_getElem?]; exact hw
  have hretire : MTInv g c0 dryRun runner (setWorker s wid .done) := by
    refine mtInv_retire g c0 dryRun runner s hinv wid .done ?_ ?_
    · intro n ph h; exact absurd h (by simp)
    · intro n b hc; rw [hw] at hc; simp at hc
  by_cases hcanc : s.cancelled = true
  · rw [show workerStep g order dryRun stopOnError runner fs s wid =
        setWorker s wid .done from by simp [workerStep, hwg, hcanc]]
    exact hretire
  · rw [Bool.not_eq_true] at hcanc
    by_cases hfs : (s.failed && stopOnError) = true
    · rw [show workerStep g order dryRun stopOnError runner fs s wid =
          setWorker s wid .done from by simp [workerStep, hwg, hcanc, hfs]]
      exact hretire
    · rw [Bool.not_eq_true] at hfs
      by_cases hall : (s.completed.all fun e => e.2) = true
      · rw [show workerStep g order dryRun stopOnError runner fs s wid =
            setWorker s wid .done from by simp [workerStep, hwg, hcanc, hfs, hall]]
        exact hretire
      · rw [Bool.not_eq_true] at hall
        rcases hfr : findReady g s.completed s.inProgress order with ⟨o, c2, p2⟩
        obtain ⟨cm, pm, cb, pb⟩ := findReady_mono g order s.completed s.inProgress
        rw [hfr] at cm pm cb pb
        cases o with
        | none =>
          rw [show workerStep g order dryRun stopOnError runner fs s wid =
              { s with completed := c2, inProgress := p2 } from by
            simp [workerStep, hwg, hcanc, hfs, hall, hfr]]
          refine ⟨?_, hinv.a2, ?_, ?_, hinv.a5, hinv.a6, ?_, hinv.a8, hinv.a9,
            hinv.a10⟩
          · intro wid2 n ph h
            obtain ⟨h1, h2⟩ := hinv.a1 wid2 n ph h
            exact ⟨pm n true h1, fun hc => h2 (cb n hc)⟩
          · intro wid2 n ph h d hd
            exact cm d true (hinv.a3 wid2 n ph h d hd)
          · intro n h
            exact hinv.a4 n (cb n h)
          · intro e he n ht
            rcases hinv.a7 e he n ht with hc | hcw
            · exact Or.inl (cm n true hc)
            · exact Or.inr hcw
        | some name =>
          obtain ⟨t, hgt, hc2name, hpname, hdeps⟩ :=
            findReady_some_spec g order s.completed s.inProgress name c2 p2 hfr
          have htn : t.name = name := wf_lookup_name g hwf name t hgt
          rw [show workerStep g order dryRun stopOnError runner fs s wid =
              { s with
                  completed := c2, inProgress := aset p2 name true,
                  workers := s.workers.set wid (.dispatched name .emitBuilding) }
            from by simp [workerStep, hwg, hcanc, hfs, hall, hfr]]
          have hnoterm : ∀ e ∈ s.trace, isTerminalFor name e = false := by
            intro e he
            rw [Bool.eq_false_iff]
            intro hterm
            rcases hinv.a7 e he name hterm with hc | ⟨wid2, b, hw2⟩
            · exact absurd (hc2name.symm.trans (cm name true hc)) (by simp)
            · have h1 := (hinv.a1 wid2 name _ hw2).1
              rw [← htn] at h1
              exact hpname h1
          refine ⟨?_, ?_, ?_, ?_, ?_, ?_, ?_, hinv.a8, hinv.a9, hinv.a10⟩
          · intro wid2 n ph h
            rcases get?_set_cases s.workers wid wid2 _ _ h with ⟨-, hv⟩ | ⟨hne, hold⟩
            · injection hv with h1 h2
              subst h1
              constructor
              · rw [alookup_aset, if_pos rfl]
              · rw [hc2name]; simp
            · obtain ⟨h1, h2⟩ := hinv.a1 wid2 n ph hold
              exact ⟨alookup_aset_true_pres p2 name n (pm n true h1),
                fun hc => h2 (cb n hc)⟩
          · intro w1 w2 n1 n2 q1 q2 hne h1 h2
            rcases get?_set_cases s.workers wid w1 _ _ h1 with ⟨heq1, hv1⟩ | ⟨hne1, hold1⟩
            · injection hv1 with e1 e2
              subst e1
              rcases get?_set_cases s.workers wid w2 _ _ h2 with ⟨heq2, hv2⟩ | ⟨hne2, hold2⟩
              · exact absurd (heq1.trans heq2.symm) hne
              · intro heq
                have hp := (hinv.a1 w2 n2 q2 hold2).1
                rw [← heq, ← htn] at hp
                exact hpname hp
            · rcases get?_set_cases s.workers wid w2 _ _ h2 with ⟨heq2, hv2⟩ | ⟨hne2, hold2⟩
              · injection hv2 with e1 e2
                subst e1
                intro heq
                have hp := (hinv.a1 w1 n1 q1 hold1).1
                rw [heq, ← htn] at hp
                exact hpname hp
              · exact hinv.a2 w1 w2 n1 n2 q1 q2 hne hold1 hold2
          · intro wid2 n ph h d hd
            rcases get?_set_cases s.workers wid wid2 _ _ h with ⟨-, hv⟩ | ⟨hne, hold⟩
            · injection hv with h1 h2
              subst h1
              have hdn : depsOf g n = t.dependencies := by
                simp [depsOf, hgt]
              exact hdeps d (by rwa [hdn] at hd)
            · exact cm d true (hinv.a3 wid2 n ph hold d hd)
          · intro n h
            exact hinv.a4 n (cb n h)
          · intro wid2 n b h
            rcases get?_set_cases s.workers wid wid2 _ _ h with ⟨-, hv⟩ | ⟨hne, hold⟩
            · injection hv with h1 h2
              exact absurd h2 (by simp)
            · exact hinv.a5 wid2 n b hold
          · intro wid2 n ph h hnc e he
            rcases get?_set_cases s.workers wid wid2 _ _ h with ⟨-, hv⟩ | ⟨hne, hold⟩
            · injection hv with h1 h2
              subst h1
              exact hnoterm e he
            · exact hinv.a6 wid2 n ph hold hnc e he
          · intro e he n ht
            rcases hinv.a7 e he n ht with hc | ⟨wid2, b, hw2⟩
            · exact Or.inl (cm n true hc)
            · have hne : wid2 ≠ wid := by
                intro heq
                rw [heq, hw] at hw2
                simp at hw2
              exact Or.inr ⟨wid2, b, (get?_set_ne s.workers wid wid2 _ hne).trans hw2⟩

theorem mtInv_emitBuilding (g : DAGL) (hwf : WFdag g) (order : List Str)
    (dryRun stopOnError : Bool) (runner : Str → Bool) (fs : FileSys)
    (c0 : CacheMap) (s : MTState) (hinv : MTInv g c0 dryRun runner s)
    (wid : Nat) (name : Str)
    (hw : s.workers.get? wid = some (.dispatched name .emitBuilding)) :
    MTInv g c0 dryRun runner
      (workerStep g order dryRun stopOnError runner fs s wid) := by
  have hwg : s.workers[wid]? = some (WState.dispatched name Phase.emitBuilding) := by
    rw [← List.get?_eq_getElem?]; exact hw
  have hretire : MTInv g c0 dryRun runner (setWorker s wid .loopHead) := by
    refine mtInv_retire g c0 dryRun runner s hinv wid .loopHead ?_ ?_
    · intro n ph h; exact absurd h (by simp)
    · intro n b hc; rw [hw] at hc; simp at hc
  by_cases hnil : name = []
  · rw [show workerStep g order dryRun stopOnError runner fs s wid =
        setWorker s wid .loopHead from by simp [workerStep, hwg, hnil]]
    exact hretire
  · cases hlk2 : alookup g name with
    | none =>
      rw [show workerStep g order dryRun stopOnError runner fs s wid =
          setWorker s wid .loopHead from by simp [workerStep, hwg, hnil, hlk2]]
      exact hretire
    | some t =>
      rw [show workerStep g order dryRun stopOnError runner fs s wid =
          { s with
              processed := s.processed + 1,
              trace := s.trace ++
                [Event.progress name (s.processed + 1) order.length Status.building],
              workers := s.workers.set wid (.dispatched name .checkUpToDate) }
        from by simp [workerStep, hwg, hnil, hlk2]]
      refine ⟨?_, ?_, ?_, ?_, ?_, ?_, ?_, ?_, ?_, ?_⟩
      · intro wid2 n ph h
        rcases get?_set_cases s.workers wid wid2 _ _ h with ⟨-, hv⟩ | ⟨hne, hold⟩
        · injection hv with h1 h2
          subst h1
          exact hinv.a1 wid n .emitBuilding hw
        · exact hinv.a1 wid2 n ph hold
      · intro w1 w2 n1 n2 q1 q2 hne h1 h2
        rcases get?_set_cases s.workers wid w1 _ _ h1 with ⟨heq1, hv1⟩ | ⟨hne1, hold1⟩
        · injection hv1 with e1 e2
          subst e1
          rcases get?_set_cases s.workers wid w2 _ _ h2 with ⟨heq2, hv2⟩ | ⟨hne2, hold2⟩
          · exact absurd (heq1.trans heq2.symm) hne
          · exact hinv.a2 w1 w2 n1 n2 .emitBuilding q2 hne
              (by rw [heq1]; exact hw) hold2
        · rcases get?_set_cases s.workers wid w2 _ _ h2 with ⟨heq2, hv2⟩ | ⟨hne2, hold2⟩
          · injection hv2 with e1 e2
            subst e1
            exact hinv.a2 w1 w2 n1 n2 q1 .emitBuilding hne hold1
              (by rw [heq2]; exact hw)
          · exact hinv.a2 w1 w2 n1 n2 q1 q2 hne hold1 hold2
      · intro wid2 n ph h d hd
        rcases get?_set_cases s.workers wid wid2 _ _ h with ⟨-, hv⟩ | ⟨hne, hold⟩
        · injection hv with h1 h2
          subst h1
          exact hinv.a3 wid n .emitBuilding hw d hd
        · exact hinv.a3 wid2 n ph hold d hd
      · intro n h
        obtain ⟨e, he, ht⟩ := hinv.a4 n h
        exact ⟨e, List.mem_append_left _ he, ht⟩
      · intro wid2 n b h
        rcases get?_set_cases s.workers wid wid2 _ _ h with ⟨-, hv⟩ | ⟨hne, hold⟩
        · injection hv with h1 h2
          exact absurd h2 (by simp)
        · obtain ⟨e, he, ht⟩ := hinv.a5 wid2 n b hold
          exact ⟨e, List.mem_append_left _ he, ht⟩
      · intro wid2 n ph h hnc e he
        rcases List.mem_append.mp he with he1 | he2
        · rcases get?_set_cases s.workers wid wid2 _ _ h with ⟨-, hv⟩ | ⟨hne, hold⟩
          · injection hv with h1 h2
            subst h1
            exact hinv.a6 wid n .emitBuilding hw (by intro b; simp) e he1
          · exact hinv.a6 wid2 n ph hold hnc e he1
        · rw [List.mem_singleton.mp he2]
          exact isTerminalFor_building n name (s.processed + 1) order.length
      · intro e he n ht
        rcases List.mem_append.mp he with he1 | he2
        · rcases hinv.a7 e he1 n ht with hc | ⟨wid2, b, hw2⟩
          · exact Or.inl hc
          · have hne : wid2 ≠ wid := by
              intro heq
              rw [heq, hw] at hw2
              simp at hw2
            exact Or.inr ⟨wid2, b, (get?_set_ne s.workers wid wid2 _ hne).trans hw2⟩
        · rw [List.mem_singleton.mp he2] at ht
          rw [isTerminalFor_building] at ht
          exact absurd ht (by simp)
      · intro n h
        obtain ⟨hm, ht⟩ := hinv.a8 n h
        exact ⟨List.mem_append_left _ hm, ht⟩
      · intro n h
        rw [status_mem_append_progress]
        refine hinv.a9 n ?_
        rcases h with h | h
        · exact Or.inl (by rwa [status_mem_append_progress] at h)
        · exact Or.inr (by rwa [status_mem_append_progress] at h)
      · refine depRespect_append_building g s.trace name (s.processed + 1)
          order.length hinv.a10 ?_
        intro d hd
        exact hinv.a4 d (hinv.a3 wid name .emitBuilding hw d hd)

theorem mtInv_checkUpToDate (g : DAGL) (hwf : WFdag g) (order : List Str)
    (dryRun stopOnError : Bool) (runner : Str → Bool) (fs : FileSys)
    (c0 : CacheMap) (s : MTState) (hinv : MTInv g c0 dryRun runner s)
    (wid : Nat) (name : Str)
    (hw : s.workers.get? wid = some (.dispatched name .checkUpToDate)) :
    MTInv g c0 dryRun runner
      (workerStep g order dryRun stopOnError runner fs s wid) := by
  have hwg : s.workers[wid]? = some (WState.dispatched name Phase.checkUpToDate) := by
    rw [← List.get?_eq_getElem?]; exact hw
  cases hlk2 : alookup g name with
  | none =>
    rw [show workerStep g order dryRun stopOnError runner fs s wid =
        setWorker s wid .loopHead from by simp [workerStep, hwg, hlk2]]
    refine mtInv_retire g c0 dryRun runner s hinv wid .loopHead ?_ ?_
    · intro n ph h; exact absurd h (by simp)
    · intro n b hc; rw [hw] at hc; simp at hc
  | some t =>
    have htn : t.name = name := wf_lookup_name g hwf name t hlk2
    have hnoterm : ∀ e ∈ s.trace, isTerminalFor name e = false :=
      hinv.a6 wid name .checkUpToDate hw (by intro b; simp)
    by_cases hup : (outputsExist fs t && !(isOutOfDate fs t s.cache)) = true
    · rw [show workerStep g order dryRun stopOnError runner fs s wid =
          { s with
              trace := s.trace ++ [Event.status t.name Status.upToDate],
              skipped := s.skipped + 1,
              workers := s.workers.set wid (.dispatched name (.complete true)) }
        from by simp [workerStep, hwg, hlk2, hup]]
      refine ⟨?_, ?_, ?_, ?_, ?_, ?_, ?_, ?_, ?_, ?_⟩
      · intro wid2 n ph h
        rcases get?_set_cases s.workers wid wid2 _ _ h with ⟨-, hv⟩ | ⟨hne, hold⟩
        · injection hv with h1 h2
          subst h1
          exact hinv.a1 wid n .checkUpToDate hw
        · exact hinv.a1 wid2 n ph hold
      · intro w1 w2 n1 n2 q1 q2 hne h1 h2
        rcases get?_set_cases s.workers wid w1 _ _ h1 with ⟨heq1, hv1⟩ | ⟨hne1, hold1⟩
        · injection hv1 with e1 e2
          subst e1
          rcases get?_set_cases s.workers wid w2 _ _ h2 with ⟨heq2, hv2⟩ | ⟨hne2, hold2⟩
          · exact absurd (heq1.trans heq2.symm) hne
          · exact hinv.a2 w1 w2 n1 n2 .checkUpToDate q2 hne
              (by rw [heq1]; exact hw) hold2
        · rcases get?_set_cases s.workers wid w2 _ _ h2 with ⟨heq2, hv2⟩ | ⟨hne2, hold2⟩
          · injection hv2 with e1 e2
            subst e1
            exact hinv.a2 w1 w2 n1 n2 q1 .checkUpToDate hne hold1
              (by rw [heq2]; exact hw)
          · exact hinv.a2 w1 w2 n1 n2 q1 q2 hne hold1 hold2
      · intro wid2 n ph h d hd
        rcases get?_set_cases s.workers wid wid2 _ _ h with ⟨-, hv⟩ | ⟨hne, hold⟩
        · injection hv with h1 h2
          subst h1
          exact hinv.a3 wid n .checkUpToDate hw d hd
        · exact hinv.a3 wid2 n ph hold d hd
      · intro n h
        obtain ⟨e, he, ht⟩ := hinv.a4 n h
        exact ⟨e, List.mem_append_left _ he, ht⟩
      · intro wid2 n b h
        rcases get?_set_cases s.workers wid wid2 _ _ h with ⟨-, hv⟩ | ⟨hne, hold⟩
        · injection hv with h1 h2
          subst h1
          refine ⟨Event.status t.name Status.upToDate,
            List.mem_append_right _ (by simp), ?_⟩
          rw [isTerminalFor_upToDate, htn]
          simp
        · obtain ⟨e, he, ht⟩ := hinv.a5 wid2 n b hold
          exact ⟨e, List.mem_append_left _ he, ht⟩
      · intro wid2 n ph h hnc e he
        rcases get?_set_cases s.workers wid wid2 _ _ h with ⟨-, hv⟩ | ⟨hne, hold⟩
        · injection hv with h1 h2
          exact absurd h2 (hnc true)
        · rcases List.mem_append.mp he with he1 | he2
          · exact hinv.a6 wid2 n ph hold hnc e he1
          · rw [List.mem_singleton.mp he2]
            rw [isTerminalFor_upToDate, htn]
            exact beq_eq_false_iff_ne.mpr
              (hinv.a2 wid wid2 name n _ _ (fun heq => hne heq.symm) hw hold)
      · intro e he n ht
        rcases List.mem_append.mp he with he1 | he2
        · rcases hinv.a7 e he1 n ht with hc | ⟨wid2, b, hw2⟩
          · exact Or.inl hc
          · have hne : wid2 ≠ wid := by
              intro heq
              rw [heq, hw] at hw2
              simp at hw2
            exact Or.inr ⟨wid2, b, (get?_set_ne s.workers wid wid2 _ hne).trans hw2⟩
        · rw [List.mem_singleton.mp he2] at ht
          rw [isTerminalFor_upToDate] at ht
          have hn : t.name = n := by simpa using ht
          have hnn : n = name := by rw [← hn, htn]
          refine Or.inr ⟨wid, true, ?_⟩
          rw [hnn]
          exact get?_set_self_of_get? s.workers wid _ _ hw
      · intro n h
        obtain ⟨hm, ht⟩ := hinv.a8 n h
        exact ⟨List.mem_append_left _ hm, ht⟩
      · intro n h
        have h0 : (Event.status n Status.failed) ∈ s.trace ∨
            (Event.status n Status.upToDate) ∈ s.trace ∨ n = t.name := by
          rcases h with h | h
          · rw [status_mem_append_status] at h
            rcases h with h | ⟨-, hst⟩
            · exact Or.inl h
            · exact absurd hst (by simp)
          · rw [status_mem_append_status] at h
            rcases h with h | ⟨hnt2, -⟩
            · exact Or.inr (Or.inl h)
            · exact Or.inr (Or.inr hnt2)
        rw [status_mem_append_status]
        rintro (hs | ⟨-, hst⟩)
        · rcases h0 with h0 | h0 | h0
          · exact hinv.a9 n (Or.inl h0) hs
          · exact hinv.a9 n (Or.inr h0) hs
          · have hterm : isTerminalFor name (Event.status n Status.success) = true := by
              rw [isTerminalFor_success, h0, htn]
              simp
            have hft := hnoterm _ hs
            rw [hterm] at hft
            exact absurd hft (by simp)
        · exact absurd hst (by simp)
      · refine depRespect_append_nonbuilding g s.trace _ hinv.a10 ?_
        intro e he t2 c2 t3
        rw [List.mem_singleton.mp he]
        simp
    · rw [show workerStep g order dryRun stopOnError runner fs s wid =
          { s with
              trace := s.trace ++ [Event.status t.name Status.build],
              workers := s.workers.set wid (.dispatched name .runCmd) }
        from by simp [workerStep, hwg, hlk2, hup]]
      refine ⟨?_, ?_, ?_, ?_, ?_, ?_, ?_, ?_, ?_, ?_⟩
      · intro wid2 n ph h
        rcases get?_set_cases s.workers wid wid2 _ _ h with ⟨-, hv⟩ | ⟨hne, hold⟩
        · injection hv with h1 h2
          subst h1
          exact hinv.a1 wid n .checkUpToDate hw
        · exact hinv.a1 wid2 n ph hold
      · intro w1 w2 n1 n2 q1 q2 hne h1 h2
        rcases get?_set_cases s.workers wid w1 _ _ h1 with ⟨heq1, hv1⟩ | ⟨hne1, hold1⟩
        · injection hv1 with e1 e2
          subst e1
          rcases get?_set_cases s.workers wid w2 _ _ h2 with ⟨heq2, hv2⟩ | ⟨hne2, hold2⟩
          · exact absurd (heq1.trans heq2.symm) hne
          · exact hinv.a2 w1 w2 n1 n2 .checkUpToDate q2 hne
              (by rw [heq1]; exact hw) hold2
        · rcases get?_set_cases s.workers wid w2 _ _ h2 with ⟨heq2, hv2⟩ | ⟨hne2, hold2⟩
          · injection hv2 with e1 e2
            subst e1
            exact hinv.a2 w1 w2 n1 n2 q1 .checkUpToDate hne hold1
              (by rw [heq2]; exact hw)
          · exact hinv.a2 w1 w2 n1 n2 q1 q2 hne hold1 hold2
      · intro wid2 n ph h d hd
        rcases get?_set_cases s.workers wid wid2 _ _ h with ⟨-, hv⟩ | ⟨hne, hold⟩
        · injection hv with h1 h2
          subst h1
          exact hinv.a3 wid n .checkUpToDate hw d hd
        · exact hinv.a3 wid2 n ph hold d hd
      · intro n h
        obtain ⟨e, he, ht⟩ := hinv.a4 n h
        exact ⟨e, List.mem_append_left _ he, ht⟩
      · intro wid2 n b h
        rcases get?_set_cases s.workers wid wid2 _ _ h with ⟨-, hv⟩ | ⟨hne, hold⟩
        · injection hv with h1 h2
          exact absurd h2 (by simp)
        · obtain ⟨e, he, ht⟩ := hinv.a5 wid2 n b hold
          exact ⟨e, List.mem_append_left _ he, ht⟩
      · intro wid2 n ph h hnc e he
        rcases List.mem_append.mp he with he1 | he2
        · rcases get?_set_cases s.workers wid wid2 _ _ h with ⟨-, hv⟩ | ⟨hne, hold⟩
          · injection hv with h1 h2
            subst h1
            exact hnoterm e he1
          · exact hinv.a6 wid2 n ph hold hnc e he1
        · rw [List.mem_singleton.mp he2]
          exact isTerminalFor_build n t.name
      · intro e he n ht
        rcases List.mem_append.mp he with he1 | he2
        · rcases hinv.a7 e he1 n ht with hc | ⟨wid2, b, hw2⟩
          · exact Or.inl hc
          · have hne : wid2 ≠ wid := by
              intro heq
              rw [heq, hw] at hw2
              simp at hw2
            exact Or.inr ⟨wid2, b, (get?_set_ne s.workers wid wid2 _ hne).trans hw2⟩
        · rw [List.mem_singleton.mp he2] at ht
          rw [isTerminalFor_build] at ht
          exact absurd ht (by simp)
      · intro n h
        obtain ⟨hm, ht⟩ := hinv.a8 n h
        exact ⟨List.mem_append_left _ hm, ht⟩
      · intro n h
        rw [status_mem_append_status]
        rintro (hs | ⟨-, hst⟩)
        · refine hinv.a9 n ?_ hs
          rcases h with h | h
          · rw [status_mem_append_status] at h
            rcases h with h | ⟨-, hst2⟩
            · exact Or.inl h
            · exact absurd hst2 (by simp)
          · rw [status_mem_append_status] at h
            rcases h with h | ⟨-, hst2⟩
            · exact Or.inr h
            · exact absurd hst2 (by simp)
        · exact absurd hst (by simp)
      · refine depRespect_append_nonbuilding g s.trace _ hinv.a10 ?_
        intro e he t2 c2 t3
        rw [List.mem_singleton.mp he]
        simp

theorem mtInv_runCmd (g : DAGL) (hwf : WFdag g) (order : List Str)
    (dryRun stopOnError : Bool) (runner : Str → Bool) (fs : FileSys)
    (c0 : CacheMap) (s : MTState) (hinv : MTInv g c0 dryRun runner s)
    (wid : Nat) (name : Str)
    (hw : s.workers.get? wid = some (.dispatched name .runCmd)) :
    MTInv g c0 dryRun runner
      (workerStep g order dryRun stopOnError runner fs s wid) := by
  have hwg : s.workers[wid]? = some (WState.dispatched name Phase.runCmd) := by
    rw [← List.get?_eq_getElem?]; exact hw
  cases hlk2 : alookup g name with
  | none =>
    rw [show workerStep g order dryRun stopOnError runner fs s wid =
        setWorker s wid .loopHead from by simp [workerStep, hwg, hlk2]]
    refine mtInv_retire g c0 dryRun runner s hinv wid .loopHead ?_ ?_
    · intro n ph h; exact absurd h (by simp)
    · intro n b hc; rw [hw] at hc; simp at hc
  | some t =>
    have htn : t.name = name := wf_lookup_name g hwf name t hlk2
    have hnoterm : ∀ e ∈ s.trace, isTerminalFor name e = false :=
      hinv.a6 wid name .runCmd hw (by intro b; simp)
    by_cases hrc : runCommand dryRun runner t.command = true
    · rw [show workerStep g order dryRun stopOnError runner fs s wid =
          { s with
              cache := setSignature s.cache t.name
                (computeTargetSignature fs t.command t.inputs),
              trace := s.trace ++ [Event.status t.name Status.success],
              built := s.built + 1,
              workers := s.workers.set wid (.dispatched name (.complete true)) }
        from by simp [workerStep, hwg, hlk2, hrc]]
      refine ⟨?_, ?_, ?_, ?_, ?_, ?_, ?_, ?_, ?_, ?_⟩
      · intro wid2 n ph h
        rcases get?_set_cases s.workers wid wid2 _ _ h with ⟨-, hv⟩ | ⟨hne, hold⟩
        · injection hv with h1 h2
          subst h1
          exact hinv.a1 wid n .runCmd hw
        · exact hinv.a1 wid2 n ph hold
      · intro w1 w2 n1 n2 q1 q2 hne h1 h2
        rcases get?_set_cases s.workers wid w1 _ _ h1 with ⟨heq1, hv1⟩ | ⟨hne1, hold1⟩
        · injection hv1 with e1 e2
          subst e1
          rcases get?_set_cases s.workers wid w2 _ _ h2 with ⟨heq2, hv2⟩ | ⟨hne2, hold2⟩
          · exact absurd (heq1.trans heq2.symm) hne
          · exact hinv.a2 w1 w2 n1 n2 .runCmd q2 hne (by rw [heq1]; exact hw) hold2
        · rcases get?_set_cases s.workers wid w2 _ _ h2 with ⟨heq2, hv2⟩ | ⟨hne2, hold2⟩
          · injection hv2 with e1 e2
            subst e1
            exact hinv.a2 w1 w2 n1 n2 q1 .runCmd hne hold1 (by rw [heq2]; exact hw)
          · exact hinv.a2 w1 w2 n1 n2 q1 q2 hne hold1 hold2
      · intro wid2 n ph h d hd
        rcases get?_set_cases s.workers wid wid2 _ _ h with ⟨-, hv⟩ | ⟨hne, hold⟩
        · injection hv with h1 h2
          subst h1
          exact hinv.a3 wid n .runCmd hw d hd
        · exact hinv.a3 wid2 n ph hold d hd
      · intro n h
        obtain ⟨e, he, ht⟩ := hinv.a4 n h
        exact ⟨e, List.mem_append_left _ he, ht⟩
      · intro wid2 n b h
        rcases get?_set_cases s.workers wid wid2 _ _ h with ⟨-, hv⟩ | ⟨hne, hold⟩
        · injection hv with h1 h2
          subst h1
          refine ⟨Event.status t.name Status.success,
            List.mem_append_right _ (by simp), ?_⟩
          rw [isTerminalFor_success, htn]
          simp
        · obtain ⟨e, he, ht⟩ := hinv.a5 wid2 n b hold
          exact ⟨e, List.mem_append_left _ he, ht⟩
      · intro wid2 n ph h hnc e he
        rcases get?_set_cases s.workers wid wid2 _ _ h with ⟨-, hv⟩ | ⟨hne, hold⟩
        · injection hv with h1 h2
          exact absurd h2 (hnc true)
        · rcases List.mem_append.mp he with he1 | he2
          · exact hinv.a6 wid2 n ph hold hnc e he1
          · rw [List.mem_singleton.mp he2]
            rw [isTerminalFor_success, htn]
            exact beq_eq_false_iff_ne.mpr
              (hinv.a2 wid wid2 name n _ _ (fun heq => hne heq.symm) hw hold)
      · intro e he n ht
        rcases List.mem_append.mp he with he1 | he2
        · rcases hinv.a7 e he1 n ht with hc | ⟨wid2, b, hw2⟩
          · exact Or.inl hc
          · have hne : wid2 ≠ wid := by
              intro heq
              rw [heq, hw] at hw2
              simp at hw2
            exact Or.inr ⟨wid2, b, (get?_set_ne s.workers wid wid2 _ hne).trans hw2⟩
        · rw [List.mem_singleton.mp he2] at ht
          rw [isTerminalFor_success] at ht
          have hn : t.name = n := by simpa using ht
          have hnn : n = name := by rw [← hn, htn]
          refine Or.inr ⟨wid, true, ?_⟩
          rw [hnn]
          exact get?_set_self_of_get? s.workers wid _ _ hw
      · intro n h
        by_cases hn : t.name = n
        · constructor
          · rw [← hn]
            exact List.mem_append_right _ (by simp)
          · refine ⟨t, ?_, hrc⟩
            rw [← hn, htn]
            exact hlk2
        · simp only [setSignature] at h
          rw [alookup_aset, if_neg hn] at h
          obtain ⟨hm, ht2⟩ := hinv.a8 n h
          exact ⟨List.mem_append_left _ hm, ht2⟩
      · intro n h
        have h0 : (Event.status n Status.failed) ∈ s.trace ∨
            (Event.status n Status.upToDate) ∈ s.trace := by
          rcases h with h | h
          · rw [status_mem_append_status] at h
            rcases h with h | ⟨-, hst⟩
            · exact Or.inl h
            · exact absurd hst (by simp)
          · rw [status_mem_append_status] at h
            rcases h with h | ⟨-, hst⟩
            · exact Or.inr h
            · exact absurd hst (by simp)
        rw [status_mem_append_status]
        rintro (hs | ⟨hnn, -⟩)
        · exact hinv.a9 n h0 hs
        · have hnn2 : n = name := by rw [hnn, htn]
          rcases h0 with h0 | h0
          · have hft := hnoterm _ h0
            rw [isTerminalFor_failed, hnn2] at hft
            simp at hft
          · have hft := hnoterm _ h0
            rw [isTerminalFor_upToDate, hnn2] at hft
            simp at hft
      · refine depRespect_append_nonbuilding g s.trace _ hinv.a10 ?_
        intro e he t2 c2 t3
        rw [List.mem_singleton.mp he]
        simp
    · rw [Bool.not_eq_true] at hrc
      rw [show workerStep g order dryRun stopOnError runner fs s wid =
          { s with
              trace := s.trace ++ [Event.status t.name Status.failed],
              failedc := s.failedc + 1,
              workers := s.workers.set wid (.dispatched name (.complete false)) }
        from by simp [workerStep, hwg, hlk2, hrc]]
      refine ⟨?_, ?_, ?_, ?_, ?_, ?_, ?_, ?_, ?_, ?_⟩
      · intro wid2 n ph h
        rcases get?_set_cases s.workers wid wid2 _ _ h with ⟨-, hv⟩ | ⟨hne, hold⟩
        · injection hv with h1 h2
          subst h1
          exact hinv.a1 wid n .runCmd hw
        · exact hinv.a1 wid2 n ph hold
      · intro w1 w2 n1 n2 q1 q2 hne h1 h2
        rcases get?_set_cases s.workers wid w1 _ _ h1 with ⟨heq1, hv1⟩ | ⟨hne1, hold1⟩
        · injection hv1 with e1 e2
          subst e1
          rcases get?_set_cases s.workers wid w2 _ _ h2 with ⟨heq2, hv2⟩ | ⟨hne2, hold2⟩
          · exact absurd (heq1.trans heq2.symm) hne
          · exact hinv.a2 w1 w2 n1 n2 .runCmd q2 hne (by rw [heq1]; exact hw) hold2
        · rcases get?_set_cases s.workers wid w2 _ _ h2 with ⟨heq2, hv2⟩ | ⟨hne2, hold2⟩
          · injection hv2 with e1 e2
            subst e1
            exact hinv.a2 w1 w2 n1 n2 q1 .runCmd hne hold1 (by rw [heq2]; exact hw)
          · exact hinv.a2 w1 w2 n1 n2 q1 q2 hne hold1 hold2
      · intro wid2 n ph h d hd
        rcases get?_set_cases s.workers wid wid2 _ _ h with ⟨-, hv⟩ | ⟨hne, hold⟩
        · injection hv with h1 h2
          subst h1
          exact hinv.a3 wid n .runCmd hw d hd
        · exact hinv.a3 wid2 n ph hold d hd
      · intro n h
        obtain ⟨e, he, ht⟩ := hinv.a4 n h
        exact ⟨e, List.mem_append_left _ he, ht⟩
      · intro wid2 n b h
        rcases get?_set_cases s.workers wid wid2 _ _ h with ⟨-, hv⟩ | ⟨hne, hold⟩
        · injection hv with h1 h2
          subst h1
          refine ⟨Event.status t.name Status.failed,
            List.mem_append_right _ (by simp), ?_⟩
          rw [isTerminalFor_failed, htn]
          simp
        · obtain ⟨e, he, ht⟩ := hinv.a5 wid2 n b hold
          exact ⟨e, List.mem_append_left _ he, ht⟩
      · intro wid2 n ph h hnc e he
        rcases get?_set_cases s.workers wid wid2 _ _ h with ⟨-, hv⟩ | ⟨hne, hold⟩
        · injection hv with h1 h2
          exact absurd h2 (hnc false)
        · rcases List.mem_append.mp he with he1 | he2
          · exact hinv.a6 wid2 n ph hold hnc e he1
          · rw [List.mem_singleton.mp he2]
            rw [isTerminalFor_failed, htn]
            exact beq_eq_false_iff_ne.mpr
              (hinv.a2 wid wid2 name n _ _ (fun heq => hne heq.symm) hw hold)
      · intro e he n ht
        rcases List.mem_append.mp he with he1 | he2
        · rcases hinv.a7 e he1 n ht with hc | ⟨wid2, b, hw2⟩
          · exact Or.inl hc
          · have hne : wid2 ≠ wid := by
              intro heq
              rw [heq, hw] at hw2
              simp at hw2
            exact Or.inr ⟨wid2, b, (get?_set_ne s.workers wid wid2 _ hne).trans hw2⟩
        · rw [List.mem_singleton.mp he2] at ht
          rw [isTerminalFor_failed] at ht
          have hn : t.name = n := by simpa using ht
          have hnn : n = name := by rw [← hn, htn]
          refine Or.inr ⟨wid, false, ?_⟩
          rw [hnn]
          exact get?_set_self_of_get? s.workers wid _ _ hw
      · intro n h
        obtain ⟨hm, ht2⟩ := hinv.a8 n h
        exact ⟨List.mem_append_left _ hm, ht2⟩
      · intro n h
        rw [status_mem_append_status]
        rintro (hs | ⟨-, hst⟩)
        · rcases h with h | h
          · rw [status_mem_append_status] at h
            rcases h with h | ⟨hnn, -⟩
            · exact hinv.a9 n (Or.inl h) hs
            · have hnn2 : n = name := by rw [hnn, htn]
              have hft := hnoterm _ hs
              rw [isTerminalFor_success, hnn2] at hft
              simp at hft
          · rw [status_mem_append_status] at h
            rcases h with h | ⟨-, hst2⟩
            · exact hinv.a9 n (Or.inr h) hs
            · exact absurd hst2 (by simp)
        · exact absurd hst (by simp)
      · refine depRespect_append_nonbuilding g s.trace _ hinv.a10 ?_
        intro e he t2 c2 t3
        rw [List.mem_singleton.mp he]
        simp

theorem mtInv_complete (g : DAGL) (order : List Str)
    (dryRun stopOnError : Bool) (runner : Str → Bool) (fs : FileSys)
    (c0 : CacheMap) (s : MTState) (hinv : MTInv g c0 dryRun runner s)
    (wid : Nat) (name : Str) (ok : Bool)
    (hw : s.workers.get? wid = some (.dispatched name (.complete ok))) :
    MTInv g c0 dryRun runner
      (workerStep g order dryRun stopOnError runner fs s wid) := by
  have hwg : s.workers[wid]? = some (WState.dispatched name (Phase.complete ok)) := by
    rw [← List.get?_eq_getElem?]; exact hw
  rw [show workerStep g order dryRun stopOnError runner fs s wid =
      { s with
          inProgress := aset s.inProgress name false,
          completed := aset s.completed name true,
          failed := s.failed || !ok,
          workers := s.workers.set wid .loopHead }
    from by simp [workerStep, hwg]]
  refine ⟨?_, ?_, ?_, ?_, ?_, ?_, ?_, hinv.a8, hinv.a9, hinv.a10⟩
  · intro wid2 n ph h
    rcases get?_set_cases s.workers wid wid2 _ _ h with ⟨-, hv⟩ | ⟨hne, hold⟩
    · exact absurd hv (by simp)
    · obtain ⟨h1, h2⟩ := hinv.a1 wid2 n ph hold
      have hn2 : n ≠ name := hinv.a2 wid2 wid n name ph (.complete ok) hne hold hw
      constructor
      · rw [alookup_aset, if_neg (fun heq => hn2 heq.symm)]
        exact h1
      · rw [alookup_aset, if_neg (fun heq => hn2 heq.symm)]
        exact h2
  · intro w1 w2 n1 n2 q1 q2 hne h1 h2
    rcases get?_set_cases s.workers wid w1 _ _ h1 with ⟨-, hv1⟩ | ⟨hne1, hold1⟩
    · exact absurd hv1 (by simp)
    · rcases get?_set_cases s.workers wid w2 _ _ h2 with ⟨-, hv2⟩ | ⟨hne2, hold2⟩
      · exact absurd hv2 (by simp)
      · exact hinv.a2 w1 w2 n1 n2 q1 q2 hne hold1 hold2
  · intro wid2 n ph h d hd
    rcases get?_set_cases s.workers wid wid2 _ _ h with ⟨-, hv⟩ | ⟨hne, hold⟩
    · exact absurd hv (by simp)
    · exact alookup_aset_true_pres s.completed name d (hinv.a3 wid2 n ph hold d hd)
  · intro n h
    rcases alookup_aset_cases s.completed name n true true h with ⟨heq, -⟩ | ⟨hne, hold⟩
    · subst heq
      exact hinv.a5 wid name ok hw
    · exact hinv.a4 n hold
  · intro wid2 n b h
    rcases get?_set_cases s.workers wid wid2 _ _ h with ⟨-, hv⟩ | ⟨hne, hold⟩
    · exact absurd hv (by simp)
    · exact hinv.a5 wid2 n b hold
  · intro wid2 n ph h hnc e he
    rcases get?_set_cases s.workers wid wid2 _ _ h with ⟨-, hv⟩ | ⟨hne, hold⟩
    · exact absurd hv (by simp)
    · exact hinv.a6 wid2 n ph hold hnc e he
  · intro e he n ht
    rcases hinv.a7 e he n ht with hc | ⟨wid2, b, hw2⟩
    · exact Or.inl (alookup_aset_true_pres s.completed name n hc)
    · by_cases hwid : wid2 = wid
      · rw [hwid, hw] at hw2
        have hv := Option.some.inj hw2
        injection hv with h1 h2
        left
        rw [← h1]
        rw [alookup_aset, if_pos rfl]
      · exact Or.inr ⟨wid2, b, (get?_set_ne s.workers wid wid2 _ hwid).trans hw2⟩

theorem mtStep_inv (g : DAGL) (hwf : WFdag g) (order : List Str)
    (dryRun stopOnError : Bool) (runner : Str → Bool) (fs : FileSys)
    (c0 : CacheMap) (s : MTState) (hinv : MTInv g c0 dryRun runner s)
    (a : MTAction) :
    MTInv g c0 dryRun runner (mtStep g order dryRun stopOnError runner fs s a) := by
  cases a with
  | cancelFlag =>
    exact ⟨hinv.a1, hinv.a2, hinv.a3, hinv.a4, hinv.a5, hinv.a6, hinv.a7,
      hinv.a8, hinv.a9, hinv.a10⟩
  | work wid =>
    show MTInv g c0 dryRun runner
      (workerStep g order dryRun stopOnError runner fs s wid)
    cases hw : s.workers.get? wid with
    | none =>
      have hwg : s.workers[wid]? = none := by
        rw [← List.get?_eq_getElem?]; exact hw
      rw [show workerStep g order dryRun stopOnError runner fs s wid = s from by
        simp [workerStep, hwg]]
      exact hinv
    | some w =>
      cases w with
      | done =>
        have hwg : s.workers[wid]? = some WState.done := by
          rw [← List.get?_eq_getElem?]; exact hw
        rw [show workerStep g order dryRun stopOnError runner fs s wid = s from by
          simp [workerStep, hwg]]
        exact hinv
      | loopHead =>
        exact mtInv_loopHead g hwf order dryRun stopOnError runner fs c0 s hinv wid hw
      | dispatched name ph =>
        cases ph with
        | emitBuilding =>
          exact mtInv_emitBuilding g hwf order dryRun stopOnError runner fs c0 s
            hinv wid name hw
        | checkUpToDate =>
          exact mtInv_checkUpToDate g hwf order dryRun stopOnError runner fs c0 s
            hinv wid name hw
        | runCmd =>
          exact mtInv_runCmd g hwf order dryRun stopOnError runner fs c0 s
            hinv wid name hw
        | complete ok =>
          exact mtInv_complete g order dryRun stopOnError runner fs c0 s
            hinv wid name ok hw

theorem mtRun_inv (g : DAGL) (hwf : WFdag g) (order : List Str)
    (dryRun stopOnError : Bool) (runner : Str → Bool) (fs : FileSys)
    (c0 : CacheMap) :
    ∀ (sched : List MTAction) (s : MTState), MTInv g c0 dryRun runner s →
      MTInv g c0 dryRun runner
        (mtRun g order dryRun stopOnError runner fs s sched) := by
  intro sched
  induction sched with
  | nil => intro s h; simpa [mtRun] using h
  | cons a rest ih =>
    intro s h
    rw [show mtRun g order dryRun stopOnError runner fs s (a :: rest) =
        mtRun g order dryRun stopOnError runner fs
          (mtStep g order dryRun stopOnError runner fs s a) rest from rfl]
    exact ih _ (mtStep_inv g hwf order dryRun stopOnError runner fs c0 s h a)

/-- C6 (amended): for every well-formed DAG, under the single-threaded
strategy and under the multithreaded strategy with any worker count and any
schedule, every BUILDING progress event for a target is preceded by a
terminal emission (UP-TO-DATE, SUCCESS or FAILED) for each of its declared
dependencies.  The claim's stronger form — a SUCCESS or FAILED event before
each BUILDING — fails for skipped dependencies, which only get UP-TO-DATE. -/
theorem dependency_events_ordered (g : DAGL) (hwf : WFdag g) :
    (∀ (dryRun stopOnError : Bool) (runner : Str → Bool) (fs : FileSys)
        (cancel : Nat → Bool) (c0 : CacheMap),
      DepRespect g
        (executeSingleThreaded g dryRun stopOnError runner fs cancel c0).2.events) ∧
    (∀ (dryRun stopOnError cinit : Bool) (runner : Str → Bool) (fs : FileSys)
        (c0 : CacheMap) (J : Nat) (sched : List MTAction),
      DepRespect g
        (executeMultiThreaded g dryRun stopOnError runner fs
          c0 J cinit sched).2.trace) := by
  obtain ⟨hnd, hreg, hdf⟩ := topologicalSort_props g hwf
  constructor
  · intro dryRun stopOnError runner fs cancel c0
    show DepRespect g (execSTLoop g dryRun stopOnError runner fs cancel
        (topologicalSort g).length (topologicalSort g) 0 ⟨c0, [], 0, 0, 0⟩).2.events
    apply execSTLoop_depRespect g hwf dryRun stopOnError runner fs cancel _ _ 0 _
    · intro i hi t cur tot hget d hd
      exact absurd hi (by simp)
    · intro j hj d hd
      obtain ⟨i, hi, hij, heq⟩ := hdf j hj d hd
      refine Or.inr ⟨i, hi, hij, heq, hreg d ?_⟩
      rw [← heq]
      exact List.get_mem _ _ _
  · intro dryRun stopOnError cinit runner fs c0 J sched
    have hfin := mtRun_inv g hwf (topologicalSort g) dryRun stopOnError runner fs c0
      sched (mtInit (topologicalSort g) c0 J cinit)
      (mtInv_init g c0 dryRun runner (topologicalSort g) J cinit)
    exact hfin.a10

/-- Witness for C6: the amended ordering theorem applied to a concrete
one-target graph. -/
theorem dependency_events_ordered_witness :
    WFdag [([65], ⟨[65], [], [], [], [], []⟩)] ∧
    DepRespect [([65], ⟨[65], [], [], [], [], []⟩)]
      (executeSingleThreaded [([65], ⟨[65], [], [], [], [], []⟩)] false false
        (fun _ => true) (fun _ => none) (fun _ => false) []).2.events :=
  ⟨by decide,
    (dependency_events_ordered [([65], ⟨[65], [], [], [], [], []⟩)] (by decide)).1
      false false (fun _ => true) (fun _ => none) (fun _ => false) []⟩

/-- C3 (amended): with dry-run off, under both strategies and for every
runner, file system, cancellation pattern, worker count and schedule, a
cache entry that differs from its initial value belongs to a target whose
SUCCESS line was emitted and whose command the runner accepted; a target
with a FAILED or UP-TO-DATE line keeps its entry exactly as it was.  In
dry-run mode the claim fails: `dry_run_writes_cache` shows a fresh entry
written although no command ran. -/
theorem cache_write_discipline (g : DAGL) (hwf : WFdag g) (stopOnError : Bool)
    (runner : Str → Bool) (fs : FileSys) (cancel : Nat → Bool) (c0 : CacheMap) :
    ((∀ n, alookup (executeSingleThreaded g false stopOnError runner fs
          cancel c0).2.cache n ≠ alookup c0 n →
        (Event.status n Status.success) ∈
          (executeSingleThreaded g false stopOnError runner fs cancel c0).2.events ∧
        ∃ t, alookup g n = some t ∧ runner t.command = true) ∧
     (∀ n, ((Event.status n Status.failed) ∈
          (executeSingleThreaded g false stopOnError runner fs cancel c0).2.events ∨
        (Event.status n Status.upToDate) ∈
          (executeSingleThreaded g false stopOnError runner fs cancel c0).2.events) →
        alookup (executeSingleThreaded g false stopOnError runner fs
          cancel c0).2.cache n = alookup c0 n)) ∧
    (∀ (J : Nat) (cinit : Bool) (sched : List MTAction),
     (∀ n, alookup (executeMultiThreaded g false stopOnError runner fs
          c0 J cinit sched).2.cache n ≠ alookup c0 n →
        (Event.status n Status.success) ∈
          (executeMultiThreaded g false stopOnError runner fs c0 J cinit sched).2.trace ∧
        ∃ t, alookup g n = some t ∧ runner t.command = true) ∧
     (∀ n, ((Event.status n Status.failed) ∈
          (executeMultiThreaded g false stopOnError runner fs c0 J cinit sched).2.trace ∨
        (Event.status n Status.upToDate) ∈
          (executeMultiThreaded g false stopOnError runner fs c0 J cinit sched).2.trace) →
        alookup (executeMultiThreaded g false stopOnError runner fs
          c0 J cinit sched).2.cache n = alookup c0 n)) := by
  obtain ⟨hnd, hreg, hdf⟩ := topologicalSort_props g hwf
  have hrun : ∀ c, runCommand false runner c = runner c := fun c => rfl
  constructor
  · have hok := execSTLoop_cache g hwf false stopOnError runner fs cancel
      (topologicalSort g).length c0 (topologicalSort g) 0 ⟨c0, [], 0, 0, 0⟩ hnd
      ⟨fun n h => absurd rfl h,
       fun n h => by rcases h with h | h <;> exact absurd h (List.not_mem_nil _)⟩
      (fun n h => by
        rcases h with h | h | h <;> exact absurd h (List.not_mem_nil _))
    constructor
    · intro n h
      obtain ⟨hm, t, hl, hr⟩ := hok.1 n h
      exact ⟨hm, t, hl, (hrun t.command) ▸ hr⟩
    · intro n h
      by_contra hch
      obtain ⟨hm, -⟩ := hok.1 n hch
      exact hok.2 n h hm
  · intro J cinit sched
    have hfin := mtRun_inv g hwf (topologicalSort g) false stopOnError runner fs c0
      sched (mtInit (topologicalSort g) c0 J cinit)
      (mtInv_init g c0 false runner (topologicalSort g) J cinit)
    constructor
    · intro n h
      obtain ⟨hm, t, hl, hr⟩ := hfin.a8 n h
      exact ⟨hm, t, hl, (hrun t.command) ▸ hr⟩
    · intro n h
      by_contra hch
      obtain ⟨hm, -⟩ := hfin.a8 n hch
      exact hfin.a9 n h hm

/-- Witness for C3: on a concrete one-target graph whose command fails, the
FAILED target's cache entry is exactly the (missing) initial one. -/
theorem cache_write_discipline_witness :
    WFdag [([65], ⟨[65], [], [], [], [], []⟩)] ∧
    alookup (executeSingleThreaded [([65], ⟨[65], [], [], [], [], []⟩)] false false
        (fun _ => false) (fun _ => none) (fun _ => false) []).2.cache [65] =
      alookup ([] : CacheMap) [65] :=
  ⟨by decide,
    (cache_write_discipline [([65], ⟨[65], [], [], [], [], []⟩)] (by decide) false
        (fun _ => false) (fun _ => none) (fun _ => false) []).1.2 [65]
      (Or.inl (by decide))⟩

end Mimir
